import Mathlib

/-!
# QSourceHighlite: a shallow embedding of `qsourcehighliter.cpp`

The text of a block is a `List Char` (a `QString`), cursors and block states are
`Int` (C++ `int`), and every call of `setFormat(start, count, format)` is recorded,
in order, as a `Span`.  Reads of the text are explicit: a read at an index outside
`[0, len)` ends the run with `Exit.outOfBounds`.  Loops carry a fuel counter; a run
that uses it up ends with `Exit.outOfFuel`.
-/

namespace QSourceHighlite

/-- The formats passed to `setFormat`: the indices of `_formats` (`CodeBlock` is the
plain default), the underlined String format of a YAML link (`Link`, line 538-540),
and the two formats of a CSS colour value (`Cleared` is `QTextCharFormat()`,
`Colored` is `CodeBlock` with the colours set, lines 620-621). -/
inductive Category where
  | CodeBlock
  | CodeKeyWord
  | CodeString
  | CodeComment
  | CodeType
  | CodeOther
  | CodeNumLiteral
  | CodeBuiltIn
  | Link
  | Cleared
  | Colored
  deriving DecidableEq, Repr

/-- One recorded call `setFormat(start, count, _formats[cat])`, arguments as passed. -/
structure Span where
  start : Int
  count : Int
  cat : Category
  deriving DecidableEq, Repr

/-- How a run ended: by a `return` statement (`returned`), by its main loop running
to the end (`completed`), by a read outside the text, or by using up its fuel. -/
inductive Exit where
  | returned
  | completed
  | outOfBounds
  | outOfFuel
  deriving DecidableEq, Repr

/-! ## `QChar` and `QString` primitives -/

/-- What the scanner takes from Qt's Unicode data and string conversions, which are
not part of the sources: the table lookups that `QChar::isLetter`, `QChar::isNumber`
and `QChar::isSpace` make for a code point above 127 (`isLetter_helper`,
`isNumber_helper` and `isSpace_helper` of `qchar.h`), and how a table word compares
with a converted byte array that holds a byte above 0x7F (line 330). -/
structure QtData where
  letterAbove : Char → Bool
  numberAbove : Char → Bool
  spaceAbove : Char → Bool
  bytesEqual : List Char → List Char → Bool

variable (uc : QtData)

/-- `QChar::isLetter`: `A`-`Z` and `a`-`z`, and the table lookup for a code point
above 127. -/
def isLetter (c : Char) : Bool :=
  ('A' ≤ c && c ≤ 'Z') || ('a' ≤ c && c ≤ 'z') || (decide (127 < c.val) && uc.letterAbove c)

/-- `QChar::isNumber`: `0`-`9`, and the table lookup for a code point above 127. -/
def isNumber (c : Char) : Bool :=
  ('0' ≤ c && c ≤ '9') || (decide (127 < c.val) && uc.numberAbove c)

/-- `QChar::isSpace`: U+0020 and U+0009..U+000D, and above 127 the code points U+0085
and U+00A0 and the table lookup. -/
def isSpace (c : Char) : Bool :=
  c.val == 0x20 || (0x09 ≤ c.val && c.val ≤ 0x0d) ||
    (decide (127 < c.val) && (c.val == 0x85 || c.val == 0xa0 || uc.spaceAbove c))

/-- `QChar::toLatin1`: code points above 255 become 0. -/
def toLatin1 (c : Char) : Char :=
  if c.val > 0xff then Char.ofNat 0 else c

/-- One character of `QStringRef::toLatin1()`: a code point above 255 becomes `?`. -/
def latin1Char (c : Char) : Char :=
  if c.val > 0xff then '?' else c

/-- The comparison `word == text.midRef(i, word.size()).toLatin1()` of line 330, where
`seg` is the segment: the word is compared with the converted segment. When the
segment holds a code point in U+0080..U+00FF the byte array holds a byte above
0x7F and the outcome also depends on how Qt decodes it (`bytesEqual`). -/
def latin1Equal (word seg : List Char) : Bool :=
  (word == seg.map latin1Char) &&
    (seg.all (fun c => decide (c.val < 0x80) || decide (0xff < c.val)) || uc.bytesEqual word seg)

/-- `text.length()`. -/
def qlen (text : List Char) : Int := (text.length : Int)

/-- A read `text[i]` / `text.at(i)`: `none` outside `[0, len)`. -/
def charAt (text : List Char) (i : Int) : Option Char :=
  if 0 ≤ i then text.get? i.toNat else none

/-- First index `k` with `p` holding of the suffix starting at `k`, counted from `base`. -/
def findFrom (p : List Char → Bool) : List Char → Nat → Option Nat
  | [], _ => none
  | c :: cs, base => if p (c :: cs) then some base else findFrom p cs (base + 1)

/-- Start index of a search `indexOf(_, from)`: a negative `from` counts from the end. -/
def searchStart (text : List Char) (frm : Int) : Nat :=
  if 0 ≤ frm then frm.toNat else (frm + qlen text).toNat

/-- `text.indexOf(ch, from)`: `-1` when absent. -/
def indexOfChar (text : List Char) (ch : Char) (frm : Int) : Int :=
  match findFrom (fun s => s.head? == some ch) (text.drop (searchStart text frm))
      (searchStart text frm) with
  | some k => (k : Int)
  | none => -1

/-- `text.indexOf(QLatin1String(pat))` from the start of the text: `-1` when absent. -/
def indexOfStr (text : List Char) (pat : List Char) : Int :=
  match findFrom (fun s => pat.isPrefixOf s) text 0 with
  | some k => (k : Int)
  | none => -1

/-- `text.midRef(i, n)` for `n ≥ 0`: the part of the text inside `[i, i+n)`. -/
def midRef (text : List Char) (i : Int) (n : Nat) : List Char :=
  if 0 ≤ i then (text.drop i.toNat).take n
  else text.take (i + (n : Int)).toNat

/-! ## Block state machine (`highlightBlock`, lines 80-90) -/

/-- The state set by `highlightBlock` before it calls `highlightSyntax`:
`language` is `_language`, `previousState` is `previousBlockState()`. -/
def entryState (isFirstBlock : Bool) (previousState language : Int) : Int :=
  if isFirstBlock then language
  else if previousState = language then language else language + 1

/-! ## String literals (`highlightStringLiterals`, lines 364-391) -/

/-- Spans emitted by a helper, the cursor it hands back and how it ended. -/
structure ScanResult where
  spans : List Span
  pos : Int
  exit : Exit
  deriving DecidableEq, Repr

/-- Record a `setFormat` call in front of what follows it. -/
def ScanResult.emit (s : Span) (r : ScanResult) : ScanResult :=
  { r with spans := s :: r.spans }

/-- The escape `if` (lines 376-386) at cursor `i`, where `c` is `text.at(i)`:
the cursor after it and the span it emits. -/
def escapeStep (strType : Char) (text : List Char) (c : Char) (i : Int) :
    Int × List Span :=
  if c = '\\' then
    let spacePos := indexOfChar text ' ' i
    let spacePos := if spacePos = -1 then indexOfChar text strType i else spacePos
    (spacePos, [⟨i, spacePos - i, .CodeNumLiteral⟩])
  else (i, [])

/-- The `while` loop of `highlightStringLiterals` (lines 368-389), one unit of fuel
per iteration. -/
def stringLoop (strType : Char) (text : List Char) : Nat → Int → ScanResult
  | 0, i => ⟨[], i, .outOfFuel⟩
  | fuel + 1, i =>
    if i < qlen text then
      match charAt text i with
      | none => ⟨[], i, .outOfBounds⟩
      | some c =>
        let continueBody : ScanResult :=
          let e := escapeStep strType text c i
          let r := stringLoop strType text fuel (e.1 + 1)
          { r with spans := e.2 ++ ⟨e.1, 1, .CodeString⟩ :: r.spans }
        if c = strType then
          match charAt text (i - 1) with
          | none => ⟨[], i, .outOfBounds⟩
          | some d =>
            if d ≠ '\\' then ⟨[⟨i, 1, .CodeString⟩], i + 1, .returned⟩
            else continueBody
        else continueBody
    else ⟨[], i, .returned⟩

/-- `highlightStringLiterals(strType, text, i)`: `pos` is the returned cursor. -/
def highlightStringLiterals (strType : Char) (text : List Char) (i : Int) (fuel : Nat) :
    ScanResult :=
  (stringLoop strType text fuel (i + 1)).emit ⟨i, 1, .CodeString⟩

/-! ## Number literals (`highlightIntegerLiterals`, lines 399-480) -/

/-- Characters of the first `switch` (lines 404-420). -/
def preNumChars : List Char :=
  ['[', '(', '{', ' ', ',', '=', '+', '-', '*', '/', '%', '<', '>']

/-- Characters of the first group of the second `switch` (lines 448-463). -/
def postNumChars : List Char :=
  [']', ')', '}', ' ', ',', '=', '+', '-', '*', '/', '%', '>', '<', ';']

/-- Suffix letters of the second `switch` (lines 464-472). -/
def suffixChars : List Char := ['u', 'l', 'f', 'U', 'L', 'F']

/-- The loop of lines 434-437 started at `i`: the first index from `i` on whose
character is neither a number nor `.`, or the length of the text. -/
def digitRunEnd (text : List Char) (i : Int) : Int :=
  i + (((text.drop i.toNat).takeWhile (fun c => isNumber uc c || c == '.')).length : Int)

/-- `highlightIntegerLiterals(text, i)`: the spans emitted and the returned cursor;
`none` when a read falls outside the text. -/
def highlightIntegerLiterals (text : List Char) (i : Int) : Option (List Span × Int) := do
  let isPreNum ← (if i = 0 then some true
    else (charAt text (i - 1)).map (fun c => preNumChars.contains (toLatin1 c)))
  let start := i
  if i + 1 ≥ qlen text then
    some (if isPreNum then [⟨i, 1, .CodeNumLiteral⟩] else [], i + 1)
  else
    let i := i + 1
    let c ← charAt text i
    let i ← (if c = 'x' then (charAt text (i - 1)).map (fun d => if d = '0' then i + 1 else i)
      else some i)
    if isPreNum then
      let i := digitRunEnd uc text i
      let i := i - 1
      if i + 1 = qlen text then
        some ([⟨start, i + 1 - start, .CodeNumLiteral⟩], i + 1)
      else
        let n ← charAt text (i + 1)
        if postNumChars.contains (toLatin1 n) then
          some ([⟨start, i + 1 - start, .CodeNumLiteral⟩], i + 1)
        else if suffixChars.contains (toLatin1 n) then
          some ([⟨start, i + 1 + 1 - start, .CodeNumLiteral⟩], i + 1 + 1)
        else some ([], i)
    else some ([], i)

/-! ## Word classification (`applyCodeFormat`, lines 199-221, and lines 322-350) -/

/-- A `QMultiHash<char, QLatin1String>`: `values(key)` in iteration order;
`contains(key)` is `values(key)` being non-empty. -/
abbrev WordTable := Char → List (List Char)

/-- The `for` loop over `wordList` (lines 206-218, and again lines 326-339) with the
cursor at `i`; `same word seg` is the comparison of the word with the segment
`text.midRef(i, word.size())` (line 211, line 330), and `mk i n` is the span that the
`setFormat` call of the loop records for a word of length `n` matched at `i`. `none`
when a read falls outside the text. -/
def matchLoop (text : List Char) (same : List Char → List Char → Bool)
    (mk : Int → Nat → Span) : List (List Char) → Int → Option (List Span × Int)
  | [], i => some ([], i)
  | word :: rest, i =>
    if same word (midRef text i word.length) then
      if i + (word.length : Int) = qlen text then
        (matchLoop text same mk rest (i + word.length)).map
          (fun r => (mk i word.length :: r.1, r.2))
      else
        (charAt text (i + word.length)).bind (fun c =>
          if !isLetter uc c then
            (matchLoop text same mk rest (i + word.length)).map
              (fun r => (mk i word.length :: r.1, r.2))
          else matchLoop text same mk rest i)
    else matchLoop text same mk rest i

/-- The loop of `applyCodeFormat`: line 211 is `word == text.midRef(i, word.size())`
and line 214 is `setFormat(i, word.size(), fmt)`. -/
def wordLoop (text : List Char) (cat : Category) (words : List (List Char)) (i : Int) :
    Option (List Span × Int) :=
  matchLoop uc text (fun w seg => w == seg) (fun j n => ⟨j, n, cat⟩) words i

/-- The guard of line 203 (and of line 323): at the start of the text or after a
non-letter, and the bucket of `text[i]` is not empty. -/
def atWordStart (data : WordTable) (text : List Char) (i : Int) : Option Bool := do
  let before ← (if i = 0 then some true else (charAt text (i - 1)).map (fun c => !isLetter uc c))
  if before then
    let c ← charAt text i
    some (!(data (toLatin1 c)).isEmpty)
  else some false

/-- `applyCodeFormat(i, data, text, fmt)`: the spans emitted and the returned cursor. -/
def applyCodeFormat (i : Int) (data : WordTable) (text : List Char) (cat : Category) :
    Option (List Span × Int) := do
  if (← atWordStart uc data text i) then
    let c ← charAt text i
    wordLoop uc text cat (data (toLatin1 c)) i
  else some ([], i)

/-- The span recorded by lines 333-335; `isCpp` is `currentBlockState() == CodeCpp`. -/
def otherSpan (isCpp : Bool) (i : Int) (n : Nat) : Span :=
  if isCpp then ⟨i - 1, (n : Int) + 1, .CodeOther⟩ else ⟨i, n, .CodeOther⟩

/-- The loop over `wordList` of lines 326-339; the comparison of line 330 goes
through `toLatin1()`. -/
def otherLoop (isCpp : Bool) (text : List Char) (words : List (List Char)) (i : Int) :
    Option (List Span × Int) :=
  matchLoop uc text (latin1Equal uc) (otherSpan isCpp) words i

/-- Lines 323-340: the "other" words. -/
def applyOther (isCpp : Bool) (i : Int) (others : WordTable) (text : List Char) :
    Option (List Span × Int) := do
  if (← atWordStart uc others text i) then
    let c ← charAt text i
    otherLoop uc isCpp text (others (toLatin1 c)) i
  else some ([], i)

/-- Lines 344-349: the first index from `i` on whose character is not a letter,
or the length of the text. -/
def skipLetters (text : List Char) (i : Int) : Int :=
  i + (((text.drop i.toNat).takeWhile (isLetter uc)).length : Int)

/-- The test `i == textLen || !text[i].isLetter()` of lines 294-320. -/
def atWordEnd (text : List Char) (i : Int) : Option Bool :=
  if i = qlen text then some true else (charAt text i).map (fun c => !isLetter uc c)

/-- What the `switch` of lines 114-191 selects for a block state (the case labels
and the `load*Data` tables are declared in headers that are not part of the
sources): the five word tables, the line-comment character (`QChar()` is
U+0000) and the value of the enumerator `CodeCpp`. -/
structure LangConfig where
  types : WordTable
  keywords : WordTable
  builtin : WordTable
  literals : WordTable
  others : WordTable
  comment : Char
  codeCpp : Int

/-- Sequencing of two classification steps: the second starts at the cursor the
first returns. -/
def thenAt (r : Option (List Span × Int)) (k : Int → Option (List Span × Int)) :
    Option (List Span × Int) :=
  match r with
  | none => none
  | some (sp, i) => (k i).map (fun q => (sp ++ q.1, q.2))

/-- The statement `if (i == textLen || !text[i].isLetter()) continue;`. -/
def unlessWordEnd (text : List Char) (i : Int) (k : Option (List Span × Int)) :
    Option (List Span × Int) :=
  match atWordEnd uc text i with
  | none => none
  | some true => some ([], i)
  | some false => k

/-- Lines 292-350 with the cursor at `i` and block state `st`: the spans emitted
and the cursor at the end of the body of the `for` loop. -/
def classifyWord (cfg : LangConfig) (st : Int) (text : List Char) (i : Int) :
    Option (List Span × Int) :=
  unlessWordEnd uc text i <|
  thenAt (applyCodeFormat uc i cfg.types text .CodeType) fun i1 =>
  unlessWordEnd uc text i1 <|
  thenAt (applyCodeFormat uc i1 cfg.keywords text .CodeKeyWord) fun i2 =>
  unlessWordEnd uc text i2 <|
  thenAt (applyCodeFormat uc i2 cfg.literals text .CodeNumLiteral) fun i3 =>
  unlessWordEnd uc text i3 <|
  thenAt (applyCodeFormat uc i3 cfg.builtin text .CodeBuiltIn) fun i4 =>
  unlessWordEnd uc text i4 <|
  thenAt (applyOther uc (decide (st = cfg.codeCpp)) i4 cfg.others text) fun i5 =>
  some ([], if i = i5 then skipLetters uc text i5 else i5)

/-! ## The main loop of `highlightSyntax` (lines 230-351) -/

/-- Where control goes after a piece of the loop body. -/
inductive Ctl where
  | ret (spans : List Span) (st : Int)
  | done (st : Int)
  | fault (spans : List Span) (st : Int) (e : Exit)
  | whileHead (spans : List Span) (i : Int) (st : Int)
  | afterWhile (spans : List Span) (i : Int) (st : Int)
  deriving DecidableEq, Repr

/-- Lines 286-289: `if (i >= textLen) break; ++i;`. -/
def whileTail (text : List Char) (spans : List Span) (i st : Int) : Ctl :=
  if i ≥ qlen text then .afterWhile spans i st else .whileHead spans (i + 1) st

/-- From the label `Comment:` (line 249) to the end of the `while` body. The parity
tests are the source's `% 2` tests against zero. -/
def commentPart (text : List Char) (i st : Int) : Ctl :=
  let next := indexOfStr text ['*', '/']
  if next = -1 then
    .ret [⟨i, qlen text, .CodeComment⟩] (if st % 2 = 0 then st + 1 else st)
  else
    let st1 := if st % 2 ≠ 0 then st - 1 else st
    let next := next + 2
    if next ≥ qlen text then .ret [⟨i, next - i, .CodeComment⟩] st1
    else whileTail text [⟨i, next - i, .CodeComment⟩] next st1

/-- One pass through the body of the `while` loop (lines 235-289) with the cursor at
`i`, where `c` is `text[i]`. -/
def whileBody (cfg : LangConfig) (text : List Char) (fuel : Nat) (i st : Int) (c : Char) :
    Ctl :=
  if isSpace uc c then
    if i + 1 = qlen text then .ret [] st
    else
      match charAt text (i + 1) with
      | none => .fault [] st .outOfBounds
      | some d => if isLetter uc d then .afterWhile [] (i + 1) st else .whileHead [] (i + 1) st
  else if cfg.comment.val = 0 ∧ c = '/' then
    if i + 1 < qlen text then
      match charAt text (i + 1) with
      | none => .fault [] st .outOfBounds
      | some e =>
        if e = '/' then .ret [⟨i, qlen text, .CodeComment⟩] st
        else if e = '*' then commentPart text i st
        else whileTail text [] i st
    else whileTail text [] i st
  else if c = cfg.comment then
    whileTail text [⟨i, qlen text, .CodeComment⟩] (qlen text) st
  else if isNumber uc c then
    match highlightIntegerLiterals uc text i with
    | none => .fault [] st .outOfBounds
    | some (sp, j) => whileTail text sp j st
  else if c = '"' ∨ c = '\'' then
    let r := highlightStringLiterals c text i fuel
    match r.exit with
    | .returned => whileTail text r.spans r.pos st
    | e => .fault r.spans st e
  else whileTail text [] i st

/-- Spans emitted while scanning, the block state at the end and how the run ended. -/
structure Result where
  spans : List Span
  state : Int
  exit : Exit
  deriving DecidableEq, Repr

/-- Put already emitted spans in front of a result. -/
def Result.after (sp : List Span) (r : Result) : Result :=
  { r with spans := sp ++ r.spans }

/-- The head of the `for` loop (line 230 and the `goto` of line 232). -/
def forHead (text : List Char) (i st : Int) : Ctl :=
  if i < qlen text then
    if st % 2 ≠ 0 then commentPart text i st else .whileHead [] i st
  else .done st

/-- The head of the `while` loop (line 234) at cursor `i`. -/
def whileHead (cfg : LangConfig) (text : List Char) (fuel : Nat) (i st : Int) : Ctl :=
  if i < qlen text then
    match charAt text i with
    | none => .fault [] st .outOfBounds
    | some c => if !isLetter uc c then whileBody uc cfg text fuel i st c else .afterWhile [] i st
  else .afterWhile [] i st

/-- The main loop, one unit of fuel per visit of a loop head; `atFor` tells which
head is visited. -/
def scanLoop (cfg : LangConfig) (text : List Char) : Nat → Bool → Int → Int → Result
  | 0, _, _, st => ⟨[], st, .outOfFuel⟩
  | fuel + 1, atFor, i, st =>
    match (if atFor then forHead text i st else whileHead uc cfg text fuel i st) with
    | .ret sp st1 => ⟨sp, st1, .returned⟩
    | .done st1 => ⟨[], st1, .completed⟩
    | .fault sp st1 e => ⟨sp, st1, e⟩
    | .whileHead sp j st1 => (scanLoop cfg text fuel false j st1).after sp
    | .afterWhile sp j st1 =>
      match classifyWord uc cfg st1 text j with
      | none => ⟨sp, st1, .outOfBounds⟩
      | some (sp2, k) => (scanLoop cfg text fuel true (k + 1) st1).after (sp ++ sp2)

/-- `highlightSyntax` for a state whose case is not `CodeXML`, up to the end of the
main loop (lines 96-351). An exit `completed` is the point where the
post-processors of lines 353-354 are called. -/
def genericScan (cfg : LangConfig) (text : List Char) (st : Int) (fuel : Nat) : Result :=
  if text.isEmpty then ⟨[], st, .returned⟩
  else (scanLoop uc cfg text fuel true 0 st).after [⟨0, qlen text, .CodeBlock⟩]

/-- The cursors with which the head of the `while` loop (line 234) is visited, in a
block scanned in the even state `st`, as long as the cursor has not come to `p`:
the cursor 0 of a non-empty block (line 230); the cursor with which a pass through
the body of the `while` loop goes back to its head; and the cursor that the `++i`
of line 230 gives after the word classification of lines 292-350, which steps over
the character that follows the word. -/
inductive HeadBefore (cfg : LangConfig) (text : List Char) (st p : Int) : Int → Prop where
  | first : 0 < qlen text → HeadBefore cfg text st p 0
  | step (i j : Int) (sp : List Span) (fuel : Nat) :
      HeadBefore cfg text st p i → i < p →
      whileHead uc cfg text fuel i st = .whileHead sp j st → HeadBefore cfg text st p j
  | word (i j k : Int) (sp sp2 : List Span) (fuel : Nat) :
      HeadBefore cfg text st p i → i < p →
      whileHead uc cfg text fuel i st = .afterWhile sp j st →
      classifyWord uc cfg st text j = some (sp2, k) → k + 1 < qlen text →
      HeadBefore cfg text st p (k + 1)

/-! ## Post-processors and the XML scanner (lines 497-676) -/

/-- A read in the post-processors and in the XML scanner. `stray` is what a read
outside the text yields: `none` ends the run there (`Exit.outOfBounds`, a build
whose `QString::at` asserts), `some c` lets the run go on with the character `c`. -/
def charAtOr (stray : Option Char) (text : List Char) (i : Int) : Option Char :=
  match charAt text i with
  | some c => some c
  | none => stray

/-- The greatest index below `base + l.length` holding `ch`, counted from `base`,
`acc` when there is none. -/
def lastFrom (ch : Char) : List Char → Nat → Option Nat → Option Nat
  | [], _, acc => acc
  | c :: cs, base, acc => lastFrom ch cs (base + 1) (if c = ch then some base else acc)

/-- `text.lastIndexOf(ch, from)`: a negative `from` counts from the end, a start
outside the text gives `-1`, otherwise the search runs backwards from `from`. -/
def lastIndexOfChar (text : List Char) (ch : Char) (frm : Int) : Int :=
  let f := if frm < 0 then frm + qlen text else frm
  if f < 0 ∨ f ≥ qlen text then -1
  else
    match lastFrom ch (text.take (f.toNat + 1)) 0 none with
    | some k => (k : Int)
    | none => -1

/-- Spans emitted by a post-processor or by the XML scanner and how the run ended. -/
structure PostResult where
  spans : List Span
  exit : Exit
  deriving DecidableEq, Repr

/-- Put already emitted spans in front of a result. -/
def PostResult.after (sp : List Span) (r : PostResult) : PostResult :=
  { r with spans := sp ++ r.spans }

/-- Where control goes after the body of the `for` loop of a post-processor:
`next sp i` is the end of the body (or a `continue`) with the cursor at `i`. -/
inductive PostCtl where
  | next (spans : List Span) (i : Int)
  | ret (spans : List Span)
  | fault (spans : List Span) (e : Exit)
  deriving DecidableEq, Repr

/-- Lines 527-542 of `ymlHighlighter` at a letter `c` at `i`, with `colon` the index
found by line 521: the key span, the link span and the new value of `colonFound`. -/
def ymlKeyAndLink (stray : Option Char) (text : List Char) (i : Int) (c : Char)
    (colonFound : Bool) (colon : Int) : Option (List Span × Bool) :=
  let key : Option Bool :=
    if !colonFound ∧ colon + 1 < qlen text then
      (charAtOr stray text (colon + 1)).map (fun d => d != '\\')
    else some false
  key.map (fun k =>
    let keySpan : List Span := if k then [⟨i, colon - i, .CodeKeyWord⟩] else []
    let link : List Span :=
      if c = 'h' ∧ (midRef text i 5 = ['h', 't', 't', 'p', 's'] ∨
          midRef text i 4 = ['h', 't', 't', 'p']) then
        let space := indexOfChar text ' ' i
        let space := if space = -1 then qlen text else space
        [⟨i, space - i, .Link⟩]
      else []
    (keySpan ++ link, colonFound || k))

/-- The body of the `for` loop of `ymlHighlighter` (lines 503-542) with the cursor at
`i`: control and the value of `colonFound` after it. -/
def ymlBody (stray : Option Char) (text : List Char) (i : Int) (colonFound : Bool) :
    PostCtl × Bool :=
  match charAtOr stray text i with
  | none => (.fault [] .outOfBounds, colonFound)
  | some c =>
    if !isLetter uc c then (.next [] i, colonFound)
    else if colonFound ∧ c ≠ 'h' then (.next [] i, colonFound)
    else
      match charAtOr stray text (i - 1) with
      | none => (.fault [] .outOfBounds, colonFound)
      | some b =>
        if b = '"' ∨ b = '\'' then (.next [] (indexOfChar text '"' i), colonFound)
        else
          let colon := indexOfChar text ':' i
          if colon = -1 then (.ret [], colonFound)
          else
            match ymlKeyAndLink stray text i c colonFound colon with
            | none => (.fault [] .outOfBounds, colonFound)
            | some (sp, cf) => (.next sp i, cf)

/-- The `for` loop of `ymlHighlighter` (line 502), one unit of fuel per iteration. -/
def ymlLoop (stray : Option Char) (text : List Char) : Nat → Int → Bool → PostResult
  | 0, _, _ => ⟨[], .outOfFuel⟩
  | fuel + 1, i, colonFound =>
    if i < qlen text then
      match ymlBody uc stray text i colonFound with
      | (.next sp j, cf) => (ymlLoop stray text fuel (j + 1) cf).after sp
      | (.ret sp, _) => ⟨sp, .returned⟩
      | (.fault sp e, _) => ⟨sp, e⟩
    else ⟨[], .completed⟩

/-- `ymlHighlighter(text)` (lines 497-544). -/
def ymlHighlighter (stray : Option Char) (text : List Char) (fuel : Nat) : PostResult :=
  if text.isEmpty then ⟨[], .returned⟩ else ymlLoop uc stray text fuel 0 false

/-- The loop of lines 570-573 started at `i`: the first index from `i` on whose
character is no space, or the length of the text. -/
def skipSpaces (text : List Char) (i : Int) : Int :=
  i + (((text.drop i.toNat).takeWhile (isSpace uc)).length : Int)

/-- The body of the `for` loop of `cssHighlighter` (lines 551-624) with the cursor at
`i`. `valid text i semicolon` is the outcome of `c.isValid()` at line 594 for the
value that starts at `i` (`QColor` belongs to Qt). -/
def cssBody (valid : List Char → Int → Int → Bool) (stray : Option Char) (text : List Char)
    (i : Int) : PostCtl :=
  match charAtOr stray text i with
  | none => .fault [] .outOfBounds
  | some c =>
    if c = '.' ∨ c = '#' then
      if i + 1 ≥ qlen text then .ret []
      else
        match charAtOr stray text (i + 1) with
        | none => .fault [] .outOfBounds
        | some d =>
          if isSpace uc d ∨ isNumber uc d then .next [] i
          else
            let space := indexOfChar text ' ' i
            let space :=
              if space < 0 then
                (if indexOfChar text '{' 0 < 0 then qlen text else indexOfChar text '{' 0)
              else space
            .next [⟨i, space - i, .CodeKeyWord⟩] space
    else if c = 'c' then
      if midRef text i 5 = ['c', 'o', 'l', 'o', 'r'] then
        let colon := indexOfChar text ':' (i + 5)
        if colon < 0 then .next [] (i + 5)
        else
          let j := skipSpaces uc text (colon + 1)
          let semicolon := if indexOfChar text ';' 0 < 0 then qlen text else indexOfChar text ';' 0
          if !valid text j semicolon then .next [] j
          else .next [⟨j, semicolon - j, .Cleared⟩, ⟨j, semicolon - j, .Colored⟩] semicolon
      else .next [] i
    else .next [] i

/-- The `for` loop of `cssHighlighter` (line 550), one unit of fuel per iteration. -/
def cssLoop (valid : List Char → Int → Int → Bool) (stray : Option Char) (text : List Char) :
    Nat → Int → PostResult
  | 0, _ => ⟨[], .outOfFuel⟩
  | fuel + 1, i =>
    if i < qlen text then
      match cssBody uc valid stray text i with
      | .next sp j => (cssLoop valid stray text fuel (j + 1)).after sp
      | .ret sp => ⟨sp, .returned⟩
      | .fault sp e => ⟨sp, e⟩
    else ⟨[], .completed⟩

/-- `cssHighlighter(text)` (lines 546-626). -/
def cssHighlighter (valid : List Char → Int → Int → Bool) (stray : Option Char)
    (text : List Char) (fuel : Nat) : PostResult :=
  if text.isEmpty then ⟨[], .returned⟩ else cssLoop uc valid stray text fuel 0

/-- Lines 636-644 of `xmlHighlighter` with the cursor at `i`: the Keyword span of a
tag and the cursor after it; `none` when a read ends the run. -/
def xmlTag (stray : Option Char) (text : List Char) (i : Int) : Option (List Span × Int) :=
  (charAtOr stray text i).bind (fun c =>
    if c = '<' then
      (charAtOr stray text (i + 1)).bind (fun d =>
        if d ≠ '!' then
          let found := indexOfChar text '>' i
          if found > 0 then
            (charAtOr stray text (i + 1)).map (fun e =>
              let j := if e = '/' then i + 1 + 1 else i + 1
              ([⟨j, found - j, .CodeKeyWord⟩], j))
          else some ([], i)
        else some ([], i))
    else some ([], i))

/-- Lines 646-652 with the cursor at `i`: the Builtin span of an attribute name. -/
def xmlAttribute (stray : Option Char) (text : List Char) (i : Int) : Option (List Span) :=
  (charAtOr stray text i).map (fun c =>
    if c = '=' then
      let lastSpace := lastIndexOfChar text ' ' i
      let lastSpace := if lastSpace = i - 1 then lastIndexOfChar text ' ' (i - 2) else lastSpace
      if lastSpace > 0 then [⟨lastSpace, i - lastSpace, .CodeBuiltIn⟩] else []
    else [])

/-- The `while` loop of lines 660-672 with the cursor at `i` and the count `cnt`:
the cursor and the count when the loop is left; `none` when the fuel is used up
or a read ends the run. -/
def xmlQuoteLoop (stray : Option Char) (text : List Char) : Nat → Int → Int → Option (Int × Int)
  | 0, _, _ => none
  | fuel + 1, i, cnt =>
    if i < qlen text then
      (charAtOr stray text i).bind (fun c =>
        if c = '"' then some (i + 1, cnt + 1)
        else if i + 1 + 1 ≥ qlen text then some (i + 1, cnt + 1 + 1)
        else xmlQuoteLoop stray text fuel (i + 1) (cnt + 1))
    else some (i, cnt)

/-- The body of the `for` loop of `xmlHighlighter` (lines 636-674) with the cursor
at `i`. -/
def xmlBody (stray : Option Char) (text : List Char) (fuel : Nat) (i : Int) : PostCtl :=
  match xmlTag stray text i with
  | none => .fault [] .outOfBounds
  | some (sp1, j) =>
    match xmlAttribute stray text j with
    | none => .fault sp1 .outOfBounds
    | some sp2 =>
      match charAtOr stray text j with
      | none => .fault (sp1 ++ sp2) .outOfBounds
      | some c =>
        if c = '"' then
          if j + 1 + 1 ≥ qlen text then .ret (sp1 ++ sp2)
          else
            match xmlQuoteLoop stray text fuel (j + 1) 1 with
            | none => .fault (sp1 ++ sp2) .outOfFuel
            | some (k, cnt) => .next (sp1 ++ sp2 ++ [⟨j, cnt, .CodeString⟩]) k
        else .next (sp1 ++ sp2) j

/-- The `for` loop of `xmlHighlighter` (line 635), one unit of fuel per iteration. -/
def xmlLoop (stray : Option Char) (text : List Char) : Nat → Int → PostResult
  | 0, _ => ⟨[], .outOfFuel⟩
  | fuel + 1, i =>
    if i < qlen text then
      match xmlBody stray text fuel i with
      | .next sp j => (xmlLoop stray text fuel (j + 1)).after sp
      | .ret sp => ⟨sp, .returned⟩
      | .fault sp e => ⟨sp, e⟩
    else ⟨[], .completed⟩

/-- `xmlHighlighter(text)` (lines 629-676). -/
def xmlHighlighter (stray : Option Char) (text : List Char) (fuel : Nat) : PostResult :=
  if text.isEmpty then ⟨[], .returned⟩
  else (xmlLoop stray text fuel 0).after [⟨0, qlen text, .CodeBlock⟩]

/-! ## `highlightSyntax` (lines 96-355) -/

/-- The case of the `switch` of lines 114-191 taken for a block state: the tables and
the comment character, and whether the case is `CodeXML`, sets `isCSS`, sets `isYAML`. -/
structure LangCase where
  cfg : LangConfig
  isXML : Bool
  isCSS : Bool
  isYAML : Bool

/-- A post-processor called after what has been emitted so far: its spans are added
when the run so far has not ended by a fault. -/
def thenPost (r : Result) (run : Bool) (post : PostResult) : Result :=
  if run then
    match r.exit with
    | .outOfBounds => r
    | .outOfFuel => r
    | _ => ⟨r.spans ++ post.spans, r.state,
        match post.exit with
        | .outOfBounds => .outOfBounds
        | .outOfFuel => .outOfFuel
        | _ => .completed⟩
  else r

/-- `highlightSyntax(text)` with the block state `st`: the XML scanner for `CodeXML`,
otherwise the generic scan and, when its main loop ran to the end, the
post-processors of lines 353-354. -/
def highlightSyntax (lang : LangCase) (valid : List Char → Int → Int → Bool)
    (stray : Option Char) (text : List Char) (st : Int) (fuel : Nat) : Result :=
  if text.isEmpty then ⟨[], st, .returned⟩
  else if lang.isXML then
    ⟨(xmlHighlighter stray text fuel).spans, st, (xmlHighlighter stray text fuel).exit⟩
  else
    match (genericScan uc lang.cfg text st fuel).exit with
    | .completed =>
      thenPost (thenPost (genericScan uc lang.cfg text st fuel) lang.isCSS
        (cssHighlighter uc valid stray text fuel)) lang.isYAML (ymlHighlighter uc stray text fuel)
    | _ => genericScan uc lang.cfg text st fuel

/-! ## Notions used to state the theorems -/

/-- The String spans of `n` single characters from offset `start` on (one call
of line 387 per character). -/
def charSpans (start : Int) : Nat → List Span
  | 0 => []
  | n + 1 => ⟨start, 1, .CodeString⟩ :: charSpans (start + 1) n

/-- Every bucket of the table only holds words that start with the bucket's key. -/
def KeyedBuckets (data : WordTable) : Prop :=
  ∀ key : Char, ∀ w ∈ data key, w.head? = some key

/-- What the proofs use of a comparison `same` of a table word with a segment of the
text (line 211 or line 330): a word that compares equal is the segment under the
character map `img`; `img` takes no character that is not a letter to a letter, and
it agrees with `QChar::toLatin1` on a character only when that leaves the character
as it is. -/
def ComparesBy (same : List Char → List Char → Bool) (img : Char → Char) : Prop :=
  (∀ w seg, same w seg = true → w = seg.map img) ∧
  (∀ d, isLetter uc d = false → isLetter uc (img d) = false) ∧
  (∀ c, img c = toLatin1 c → toLatin1 c = c)

/-- No letter stands right before `i` and none right after `i + n` (lines 203 and
212-213, lines 323 and 331-332). -/
def WordEdges (text : List Char) (i : Int) (n : Nat) : Prop :=
  (i = 0 ∨ ∃ c, charAt text (i - 1) = some c ∧ isLetter uc c = false) ∧
  (i + (n : Int) = qlen text ∨
    ∃ c, charAt text (i + (n : Int)) = some c ∧ isLetter uc c = false)

/-- The word `w` of the Other table stands in the text at offset `i` as a whole word
in the sense of lines 323-332: it compares equal to the segment of its length at
`i` after the conversion to Latin-1, no letter stands right before `i` and no letter
right after the segment. -/
def OtherMatch (text : List Char) (i : Int) (w : List Char) : Prop :=
  latin1Equal uc w ((text.drop i.toNat).take w.length) = true ∧
  (i = 0 ∨ ∃ c, charAt text (i - 1) = some c ∧ isLetter uc c = false) ∧
  (i + (w.length : Int) = qlen text ∨
    ∃ c, charAt text (i + (w.length : Int)) = some c ∧ isLetter uc c = false)

/-- The word `w` stands in the text at offset `i` as a whole word: the text from `i`
on starts with `w`, no letter stands right before `i` and no letter right after
the word. -/
def WordMatch (text : List Char) (i : Int) (w : List Char) : Prop :=
  (text.drop i.toNat).take w.length = w ∧
  (i = 0 ∨ ∃ c, charAt text (i - 1) = some c ∧ isLetter uc c = false) ∧
  (i + (w.length : Int) = qlen text ∨
    ∃ c, charAt text (i + (w.length : Int)) = some c ∧ isLetter uc c = false)

/-- A configuration of a language without line-comment character whose only table
word is the keyword `int`. -/
def intKeywordConfig : LangConfig where
  types := fun _ => []
  keywords := fun c => if c = 'i' then [['i', 'n', 't']] else []
  builtin := fun _ => []
  literals := fun _ => []
  others := fun _ => []
  comment := Char.ofNat 0
  codeCpp := 200

/-- A configuration whose only table word is the word `a?` of the Other table. -/
def questionMarkConfig : LangConfig where
  types := fun _ => []
  keywords := fun _ => []
  builtin := fun _ => []
  literals := fun _ => []
  others := fun c => if c = 'a' then [['a', '?']] else []
  comment := Char.ofNat 0
  codeCpp := 200

/-- The span `s` is a number literal found at the digit position `i`: it starts at
`i`, the text starts at `i` or a character of `preNumChars` stands before `i`, and
the span ends at the end of the text, or before a character of `postNumChars`, or
with a suffix letter as its last character. -/
def NumberBoundary (text : List Char) (i : Int) (s : Span) : Prop :=
  s.cat = .CodeNumLiteral ∧ s.start = i ∧ 0 < s.count ∧
  (i = 0 ∨ ∃ c ∈ preNumChars, charAt text (i - 1) = some c) ∧
  (s.start + s.count = qlen text ∨
    (∃ c ∈ postNumChars, charAt text (s.start + s.count) = some c) ∨
    (∃ c ∈ suffixChars, charAt text (s.start + s.count - 1) = some c))

/-- The categories of the five word tables (lines 297-335). -/
def isWordCategory : Category → Bool
  | .CodeType => true
  | .CodeKeyWord => true
  | .CodeNumLiteral => true
  | .CodeBuiltIn => true
  | .CodeOther => true
  | _ => false

/-- A run that ended by a `return` or at the end of the main loop, in the state
`st`, without any Comment span. -/
def NoCommentRun (st : Int) (r : Result) : Prop :=
  (r.exit = .completed ∨ r.exit = .returned) ∧ r.state = st ∧
    ∀ s ∈ r.spans, s.cat ≠ .CodeComment

/-- No word of the five tables holds the character `b`, nor the character that the
conversion to Latin-1 of line 330 makes of it. -/
def TablesAvoid (cfg : LangConfig) (b : Char) : Prop :=
  ∀ data ∈ [cfg.types, cfg.keywords, cfg.literals, cfg.builtin, cfg.others],
    ∀ key : Char, ∀ w ∈ data key, b ∉ w ∧ latin1Char b ∉ w

/-- A configuration whose Type table and Keyword table both hold the word `int`. -/
def intTypeKeywordConfig : LangConfig where
  types := fun c => if c = 'i' then [['i', 'n', 't']] else []
  keywords := fun c => if c = 'i' then [['i', 'n', 't']] else []
  builtin := fun _ => []
  literals := fun _ => []
  others := fun _ => []
  comment := Char.ofNat 0
  codeCpp := 200

/-- The spans carried by a control value of a post-processor. -/
def PostCtl.spans : PostCtl → List Span
  | .next sp _ => sp
  | .ret sp => sp
  | .fault sp _ => sp

/-- The spans that the XML scanner records after the default span (lines 636-674).
A Keyword span runs from the character after a `<` (after `</`), where the character
after the `<` is not `!`, up to the first `>` found from the `<` on. A Builtin span
runs from the space found by `lastIndexOf(' ', e)`, or by `lastIndexOf(' ', e-2)`
when the former stands right before the `=` at `e`, up to that `=`. A String span
starts at a `"` that has at least two characters after it and runs up to the next
`"` inclusive when that is not the last character of the block, and up to the end
of the block otherwise. -/
def XmlSpanRule (text : List Char) (s : Span) : Prop :=
  (∃ i d g, charAt text i = some '<' ∧ charAt text (i + 1) = some d ∧ d ≠ '!' ∧
      indexOfChar text '>' i = g ∧ 0 < g ∧
      s = ⟨if d = '/' then i + 1 + 1 else i + 1, g - (if d = '/' then i + 1 + 1 else i + 1),
        .CodeKeyWord⟩) ∨
  (∃ e b, charAt text e = some '=' ∧
      b = (if lastIndexOfChar text ' ' e = e - 1 then lastIndexOfChar text ' ' (e - 2)
        else lastIndexOfChar text ' ' e) ∧ 0 < b ∧ s = ⟨b, e - b, .CodeBuiltIn⟩) ∨
  (∃ j, charAt text j = some '"' ∧ j + 2 < qlen text ∧
      ((∃ q, j < q ∧ q + 1 < qlen text ∧ charAt text q = some '"' ∧
          (∀ k, j < k → k < q → charAt text k ≠ some '"') ∧
          s = ⟨j, q - j + 1, .CodeString⟩) ∨
       ((∀ k, j < k → k + 1 < qlen text → charAt text k ≠ some '"') ∧
          s = ⟨j, qlen text - j, .CodeString⟩)))

/-- The span starts inside the text and has a positive length, and it ends inside the
text unless it is a Comment span recorded with the length of the whole text
(lines 246, 256 and 275 pass `textLen` as the count of a comment that runs to the end
of the block). -/
def SpanInBlock (text : List Char) (s : Span) : Prop :=
  0 ≤ s.start ∧ s.start < qlen text ∧ 0 < s.count ∧
    (s.start + s.count ≤ qlen text ∨ (s.cat = .CodeComment ∧ s.count = qlen text))

/-- A span recorded at one of the places where an index is computed from the wrong
end of the text, or where nothing stands between the two ends of the span:
* a block comment whose start lies at or after the end of the first `*/` of the
  text (line 250 searches from the start of the text);
* an escape in a string literal after which no space and no quote character of the
  kind of the string stands (lines 378-385): the NumberLiteral span of the escape
  and the String span at `spacePos = -1`;
* the Other span of a word at offset 0 in the state `CodeCpp` (lines 333-335 pass
  `i - 1`);
* a CSS selector that no space follows, when the first `{` of the text stands
  before it (line 556 searches from the start of the text);
* a CSS colour value, when the first `;` of the text, or the end of the text when
  there is none, does not lie after the start of the value (line 574 searches from
  the start of the text);
* an XML tag with an empty name, `<>` or `</>` (line 642);
* an XML attribute name when the `=` stands at offset 0 or 1 (lines 647-648). -/
def SlipSpan (text : List Char) (s : Span) : Prop :=
  (s.cat = .CodeComment ∧ indexOfStr text ['*', '/'] ≠ -1 ∧
    s.start + s.count = indexOfStr text ['*', '/'] + 2 ∧ s.count ≤ 0) ∨
  (∃ j, charAt text j = some '\\' ∧ indexOfChar text ' ' j = -1 ∧
    (indexOfChar text '"' j = -1 ∨ indexOfChar text '\'' j = -1) ∧
    (s = ⟨j, -1 - j, .CodeNumLiteral⟩ ∨ s = ⟨-1, 1, .CodeString⟩)) ∨
  (s.cat = .CodeOther ∧ s.start = -1) ∨
  (s.cat = .CodeKeyWord ∧ (charAt text s.start = some '.' ∨ charAt text s.start = some '#') ∧
    indexOfChar text ' ' s.start < 0 ∧ s.start + s.count = indexOfChar text '{' 0 ∧
    s.count < 0) ∨
  ((s.cat = .Cleared ∨ s.cat = .Colored) ∧
    s.start + s.count =
      (if indexOfChar text ';' 0 < 0 then qlen text else indexOfChar text ';' 0) ∧
    s.count ≤ 0) ∨
  (s.cat = .CodeKeyWord ∧ s.count = 0 ∧ charAt text s.start = some '>') ∨
  (s.cat = .CodeBuiltIn ∧ s.start + s.count ≤ 1)

/-- The spans that a piece of the loop body hands on. -/
def Ctl.spans : Ctl → List Span
  | .ret sp _ => sp
  | .done _ => []
  | .fault sp _ _ => sp
  | .whileHead sp _ _ => sp
  | .afterWhile sp _ _ => sp

/-- The cursor with which control goes on lies in `[0, len]`. -/
def Ctl.inText (text : List Char) : Ctl → Prop
  | .whileHead _ j _ => 0 ≤ j ∧ j ≤ qlen text
  | .afterWhile _ j _ => 0 ≤ j ∧ j ≤ qlen text
  | _ => True

/-- A Qt whose tables hold no letter, number or space above 127; the scan of a text
of code points up to 127 consults no table entry. -/
def plainQt : QtData where
  letterAbove := fun _ => false
  numberAbove := fun _ => false
  spaceAbove := fun _ => false
  bytesEqual := fun _ _ => false

variable {uc}

/-! ## Lemmas on the text primitives -/

theorem charAt_nat (text : List Char) (n : Nat) : charAt text (n : Int) = text.get? n := by
  simp [charAt]

theorem charAt_neg (text : List Char) (i : Int) (h : i < 0) : charAt text i = none := by
  simp [charAt]; omega

theorem charAt_ge (text : List Char) (i : Int) (h : qlen text ≤ i) : charAt text i = none := by
  unfold charAt qlen at *
  split
  · rw [List.get?_eq_none]; omega
  · rfl

theorem charAt_some_iff (text : List Char) (i : Int) :
    (∃ c, charAt text i = some c) ↔ 0 ≤ i ∧ i < qlen text := by
  constructor
  · rintro ⟨c, hc⟩
    by_cases h0 : 0 ≤ i
    · refine ⟨h0, ?_⟩
      by_contra hlt
      rw [charAt_ge text i (by omega)] at hc
      cases hc
    · rw [charAt_neg text i (by omega)] at hc
      cases hc
  · rintro ⟨h0, hlt⟩
    unfold charAt qlen at *
    rw [if_pos h0]
    have : i.toNat < text.length := by omega
    exact ⟨text[i.toNat], by simp [List.get?_eq_getElem?, List.getElem?_eq_getElem this]⟩

theorem charAt_lt (text : List Char) (i : Int) (h0 : 0 ≤ i) (h : i < qlen text) :
    ∃ c, charAt text i = some c :=
  (charAt_some_iff text i).2 ⟨h0, h⟩

theorem charAt_bounds (text : List Char) (i : Int) (c : Char) (h : charAt text i = some c) :
    0 ≤ i ∧ i < qlen text :=
  (charAt_some_iff text i).1 ⟨c, h⟩

theorem charAt_drop (text : List Char) (k : Nat) (n : Nat) :
    (text.drop k).get? n = charAt text ((k : Int) + n) := by
  have : ((k : Int) + n) = ((k + n : Nat) : Int) := by push_cast; rfl
  rw [this, charAt_nat]
  simp [List.get?_eq_getElem?, List.getElem?_drop]

theorem findFrom_head (ch : Char) (l : List Char) (base : Nat) :
    (findFrom (fun s => s.head? == some ch) l base = none ∧ ∀ n, l.get? n ≠ some ch) ∨
    (∃ r, findFrom (fun s => s.head? == some ch) l base = some (base + r) ∧
      l.get? r = some ch ∧ ∀ n, n < r → l.get? n ≠ some ch) := by
  induction l generalizing base with
  | nil => left; simp [findFrom]
  | cons c cs ih =>
    by_cases hc : c = ch
    · right
      refine ⟨0, ?_, ?_, ?_⟩
      · simp [findFrom, hc]
      · simp [hc]
      · intro n hn; omega
    · rcases ih (base + 1) with ⟨h1, h2⟩ | ⟨r, h1, h2, h3⟩
      · left
        refine ⟨?_, ?_⟩
        · simp [findFrom, hc, h1]
        · intro n
          cases n with
          | zero => simp [hc]
          | succ m => simpa using h2 m
      · right
        refine ⟨r + 1, ?_, ?_, ?_⟩
        · simp [findFrom, hc, h1]; omega
        · simpa using h2
        · intro n hn
          cases n with
          | zero => simp [hc]
          | succ m => simpa using h3 m (by omega)

/-- What `indexOf(ch, from)` returns for a start index inside the text or at its end. -/
theorem indexOfChar_spec (text : List Char) (ch : Char) (k : Int) (hk : 0 ≤ k) :
    (indexOfChar text ch k = -1 ∧ ∀ s, k ≤ s → charAt text s ≠ some ch) ∨
    (k ≤ indexOfChar text ch k ∧ charAt text (indexOfChar text ch k) = some ch ∧
      ∀ s, k ≤ s → s < indexOfChar text ch k → charAt text s ≠ some ch) := by
  have hs : searchStart text k = k.toNat := by simp [searchStart, hk]
  have hkk : ((k.toNat : Nat) : Int) = k := Int.toNat_of_nonneg hk
  unfold indexOfChar
  rw [hs]
  rcases findFrom_head ch (text.drop k.toNat) k.toNat with ⟨h1, h2⟩ | ⟨r, h1, h2, h3⟩
  · left
    rw [h1]
    refine ⟨rfl, ?_⟩
    intro s hks
    have := h2 (s - k).toNat
    rw [charAt_drop] at this
    have e : (k.toNat : Int) + ((s - k).toNat : Nat) = s := by omega
    rwa [e] at this
  · right
    rw [h1]
    refine ⟨by push_cast; omega, ?_, ?_⟩
    · rw [charAt_drop] at h2
      simpa using h2
    · intro s hks hsr
      have := h3 (s - k).toNat (by push_cast at hsr; omega)
      rw [charAt_drop] at this
      have e : (k.toNat : Int) + ((s - k).toNat : Nat) = s := by omega
      rwa [e] at this

/-! ## Lemmas on `stringLoop` -/

theorem stringLoop_end (Q : Char) (text : List Char) (fuel : Nat) (i : Int)
    (h : qlen text ≤ i) : stringLoop Q text (fuel + 1) i = ⟨[], i, .returned⟩ := by
  have : ¬ i < qlen text := by omega
  simp [stringLoop, this]

theorem stringLoop_term (Q : Char) (text : List Char) (fuel : Nat) (i : Int) (h0 : 0 < i)
    (h1 : charAt text i = some Q) (h2 : charAt text (i - 1) ≠ some '\\') :
    stringLoop Q text (fuel + 1) i = ⟨[⟨i, 1, .CodeString⟩], i + 1, .returned⟩ := by
  have hb := charAt_bounds text i Q h1
  obtain ⟨d, hd⟩ := charAt_lt text (i - 1) (by omega) (by omega)
  have hd' : d ≠ '\\' := by
    intro hdd; rw [hdd] at hd; exact h2 hd
  simp [stringLoop, hb.2, h1, hd, hd']

theorem stringLoop_cont (Q : Char) (text : List Char) (fuel : Nat) (i : Int) (c : Char)
    (h1 : charAt text i = some c) (h2 : c = Q → charAt text (i - 1) = some '\\') :
    stringLoop Q text (fuel + 1) i =
      { stringLoop Q text fuel ((escapeStep Q text c i).1 + 1) with
        spans := (escapeStep Q text c i).2 ++ ⟨(escapeStep Q text c i).1, 1, .CodeString⟩ ::
          (stringLoop Q text fuel ((escapeStep Q text c i).1 + 1)).spans } := by
  have hb := charAt_bounds text i c h1
  by_cases hc : c = Q
  · have := h2 hc
    subst hc
    simp [stringLoop, hb.2, h1, this]
  · simp [stringLoop, hb.2, h1, hc]

theorem charAt_append (pre post : List Char) (j : Int) (hj : 0 ≤ j) :
    charAt (pre ++ post) ((pre.length : Int) + j) = charAt post j := by
  have h1 : (0 : Int) ≤ (pre.length : Int) + j := by omega
  have h2 : ((pre.length : Int) + j).toNat = pre.length + j.toNat := by omega
  simp only [charAt, h1, hj, if_true, h2, List.get?_eq_getElem?]
  rw [List.getElem?_append_right (by omega)]
  simp

theorem charAt_append_left (pre post : List Char) (j : Int) (hj : j < pre.length) :
    charAt (pre ++ post) j = charAt pre j := by
  unfold charAt
  split
  · rw [List.get?_eq_getElem?, List.get?_eq_getElem?, List.getElem?_append_left (by omega)]
  · rfl

theorem charAt_cons_zero (c : Char) (cs : List Char) : charAt (c :: cs) 0 = some c := by
  simp [charAt]

theorem charAt_mem (text : List Char) (i : Int) (c : Char) (h : charAt text i = some c) :
    c ∈ text := by
  unfold charAt at h
  split at h
  · exact List.get?_mem h
  · cases h

theorem stringLoop_plain (Q : Char) (u : List Char) (hu : ∀ c ∈ u, c ≠ Q ∧ c ≠ '\\') :
    ∀ (pre post : List Char) (fuel : Nat),
      stringLoop Q (pre ++ (u ++ post)) (u.length + fuel) pre.length =
        { stringLoop Q (pre ++ (u ++ post)) fuel ((pre.length : Int) + u.length) with
          spans := charSpans pre.length u.length ++
            (stringLoop Q (pre ++ (u ++ post)) fuel ((pre.length : Int) + u.length)).spans } := by
  induction u with
  | nil => intro pre post fuel; simp [charSpans]
  | cons x u ih =>
    intro pre post fuel
    have hx := hu x (List.mem_cons_self _ _)
    have hc : charAt (pre ++ (x :: u ++ post)) (pre.length : Int) = some x := by
      have := charAt_append pre (x :: u ++ post) 0 (le_refl _)
      simpa [charAt_cons_zero] using this
    have hf : (x :: u).length + fuel = (u.length + fuel) + 1 := by simp; omega
    rw [hf, stringLoop_cont Q _ _ _ x hc (fun h => absurd h hx.1)]
    have hstep : escapeStep Q (pre ++ (x :: u ++ post)) x pre.length = ((pre.length : Int), []) := by
      simp [escapeStep, hx.2]
    rw [hstep]
    have ht : pre ++ (x :: u ++ post) = (pre ++ [x]) ++ (u ++ post) := by simp
    have hl : ((pre.length : Int) + 1) = ((pre ++ [x]).length : Int) := by simp
    have hcur : ((pre ++ [x]).length : Int) + (u.length : Int) =
        (pre.length : Int) + ((x :: u).length : Int) := by
      simp only [List.length_append, List.length_cons, List.length_nil]; push_cast; omega
    have := ih (fun c hc => hu c (List.mem_cons_of_mem _ hc)) (pre ++ [x]) post fuel
    rw [hcur, ← ht, ← hl] at this
    rw [this]
    simp [charSpans]

theorem indexOfChar_first (text : List Char) (ch : Char) (k r : Int) (hk : 0 ≤ k) (hkr : k ≤ r)
    (hr : charAt text r = some ch) (hmin : ∀ s, k ≤ s → s < r → charAt text s ≠ some ch) :
    indexOfChar text ch k = r := by
  rcases indexOfChar_spec text ch k hk with ⟨_, hnone⟩ | ⟨h1, h2, h3⟩
  · exact absurd hr (hnone r hkr)
  · by_contra hne
    by_cases hlt : indexOfChar text ch k < r
    · exact hmin _ h1 hlt h2
    · exact h3 r hkr (by omega) hr

theorem escape_text_backslash (Q : Char) (u rest : List Char) :
    charAt (Q :: (u ++ '\\' :: rest)) (1 + (u.length : Int)) = some '\\' := by
  have h := charAt_append (Q :: u) ('\\' :: rest) 0 (le_refl _)
  simp only [List.length_cons, charAt_cons_zero, List.cons_append] at h
  rw [← h]
  congr 1
  push_cast; omega

theorem escape_text_space (Q : Char) (u v w : List Char) (hv : ∀ c ∈ v, c ≠ ' ') :
    indexOfChar (Q :: (u ++ '\\' :: (v ++ ' ' :: w))) ' ' (1 + (u.length : Int)) =
      2 + (u.length : Int) + (v.length : Int) := by
  have ht : Q :: (u ++ '\\' :: (v ++ ' ' :: w)) = (Q :: (u ++ ['\\'])) ++ (v ++ ' ' :: w) := by
    simp
  have hl : ((Q :: (u ++ ['\\'])).length : Int) = 2 + (u.length : Int) := by
    simp only [List.length_cons, List.length_append, List.length_nil]; push_cast; omega
  apply indexOfChar_first _ _ _ _ (by omega) (by omega)
  · have h := charAt_append (Q :: (u ++ ['\\'])) (v ++ ' ' :: w) (v.length : Int) (by omega)
    rw [hl] at h
    rw [ht, h]
    have h2 := charAt_append v (' ' :: w) 0 (le_refl _)
    simpa [charAt_cons_zero] using h2
  · intro s hs1 hs2 hs
    by_cases hs0 : s = 1 + (u.length : Int)
    · rw [hs0, escape_text_backslash] at hs
      simp at hs
    · have h := charAt_append (Q :: (u ++ ['\\'])) (v ++ ' ' :: w) (s - (2 + (u.length : Int)))
        (by omega)
      rw [hl] at h
      have e : 2 + (u.length : Int) + (s - (2 + (u.length : Int))) = s := by omega
      rw [e, ← ht, hs] at h
      rw [charAt_append_left v _ _ (by omega)] at h
      exact hv ' ' (charAt_mem v _ ' ' h.symm) rfl

/-- C10: for a quote character `Q` and a text `Q ++ u ++ backslash ++ v ++ space ++ w`
where `u` holds neither `Q` nor a backslash and `v` holds no space,
`highlightStringLiterals` started at 0 emits, in this order: a String span for the
opening quote, one String span for each character of `u`, the NumberLiteral span
`(1 + len u, 1 + len v)` for the escape run and a String span for the space
(`fuel` bounds the loop iterations of the run; `len u + 1` of them emit these spans). -/
theorem space_terminated_escape (Q : Char) (u v w : List Char)
    (hQ : Q = '"' ∨ Q = '\'') (hu : ∀ c ∈ u, c ≠ Q ∧ c ≠ '\\') (hv : ∀ c ∈ v, c ≠ ' ')
    (fuel : Nat) (hfuel : u.length + 1 ≤ fuel) :
    ∃ rest, (highlightStringLiterals Q (Q :: (u ++ '\\' :: (v ++ ' ' :: w))) 0 fuel).spans =
      ⟨0, 1, .CodeString⟩ :: (charSpans 1 u.length ++
        ⟨1 + (u.length : Int), 1 + (v.length : Int), .CodeNumLiteral⟩ ::
        ⟨2 + (u.length : Int) + (v.length : Int), 1, .CodeString⟩ :: rest) := by
  have hQb : Q ≠ '\\' := by rcases hQ with h | h <;> simp [h]
  obtain ⟨f, rfl⟩ : ∃ f, fuel = u.length + (f + 1) := ⟨fuel - u.length - 1, by omega⟩
  have hp := stringLoop_plain Q u hu [Q] ('\\' :: (v ++ ' ' :: w)) (f + 1)
  have hc := escape_text_backslash Q u (v ++ ' ' :: w)
  have hsp := escape_text_space Q u v w hv
  have hstep : escapeStep Q (Q :: (u ++ '\\' :: (v ++ ' ' :: w))) '\\' (1 + (u.length : Int)) =
      (2 + (u.length : Int) + (v.length : Int),
        [⟨1 + (u.length : Int), 1 + (v.length : Int), .CodeNumLiteral⟩]) := by
    have hne : (2 : Int) + (u.length : Int) + (v.length : Int) ≠ -1 := by omega
    simp only [escapeStep, if_true, hsp, hne, if_false]
    congr 3
    omega
  have hcont := stringLoop_cont Q (Q :: (u ++ '\\' :: (v ++ ' ' :: w))) f (1 + (u.length : Int))
    '\\' hc (fun h => absurd h.symm hQb)
  rw [hstep] at hcont
  simp only [List.length_cons, List.length_nil, List.singleton_append, Nat.cast_one,
    Nat.cast_zero, zero_add, Nat.cast_add] at hp
  simp only [highlightStringLiterals, ScanResult.emit, zero_add]
  rw [hp, hcont]
  exact ⟨_, rfl⟩

/-- C10 at the text `"a\ b"` (quote, a, backslash, space, b, quote): `u = a`, `v` empty,
`w = b"`. -/
theorem space_terminated_escape_witness :
    ∃ rest, (highlightStringLiterals '"' ('"' :: (['a'] ++ '\\' :: ([] ++ ' ' :: ['b', '"']))) 0
        6).spans =
      ⟨0, 1, .CodeString⟩ :: (charSpans 1 ['a'].length ++
        ⟨1 + ((['a'] : List Char).length : Int), 1 + (([] : List Char).length : Int),
          .CodeNumLiteral⟩ ::
        ⟨2 + ((['a'] : List Char).length : Int) + (([] : List Char).length : Int), 1,
          .CodeString⟩ :: rest) :=
  space_terminated_escape '"' ['a'] [] ['b', '"'] (Or.inl rfl)
    (fun c hc => by simp at hc; subst hc; decide) (fun c hc => by simp at hc) 6 (by decide)

/-- The whole run on `"a\ b"`: NumberLiteral `(2, 1)` and String on the offsets
0, 1, 3, 4 and 5; the helper returns 6. -/
theorem string_escape_example :
    highlightStringLiterals '"' ['"', 'a', '\\', ' ', 'b', '"'] 0 6 =
      ⟨[⟨0, 1, .CodeString⟩, ⟨1, 1, .CodeString⟩, ⟨2, 1, .CodeNumLiteral⟩, ⟨3, 1, .CodeString⟩,
        ⟨4, 1, .CodeString⟩, ⟨5, 1, .CodeString⟩], 6, .returned⟩ := by
  decide

/-! ## Theorems: runs that never end -/

theorem after_exit (sp : List Span) (r : Result) : (r.after sp).exit = r.exit := rfl

theorem after_state (sp : List Span) (r : Result) : (r.after sp).state = r.state := rfl

theorem after_spans (sp : List Span) (r : Result) : (r.after sp).spans = sp ++ r.spans := rfl

theorem scanLoop_two_comments_cycle (t k b l o : WordTable) (cpp : Int) :
    ∀ fuel : Nat,
      (scanLoop uc ⟨t, k, b, l, o, Char.ofNat 0, cpp⟩ ['/', '*', '*', '/', ' ', '/', '*'] fuel
        false 5 200).exit = .outOfFuel := by
  intro fuel
  induction fuel with
  | zero => rfl
  | succ f ih =>
    have h : scanLoop uc ⟨t, k, b, l, o, Char.ofNat 0, cpp⟩ ['/', '*', '*', '/', ' ', '/', '*']
        (f + 1) false 5 200 =
        (scanLoop uc ⟨t, k, b, l, o, Char.ofNat 0, cpp⟩ ['/', '*', '*', '/', ' ', '/', '*'] f
          false 5 200).after [⟨5, -1, .CodeComment⟩] := rfl
    rw [h, after_exit, ih]

theorem stringLoop_escape_cycle :
    ∀ n : Nat,
      (stringLoop '"' ['\\', '"', 'a', '\\', 'b'] n 2).exit = .outOfFuel ∧
      (stringLoop '"' ['\\', '"', 'a', '\\', 'b'] (n + 1) 2).exit = .outOfFuel ∧
      (stringLoop '"' ['\\', '"', 'a', '\\', 'b'] (n + 2) 2).exit = .outOfFuel := by
  intro n
  induction n with
  | zero => exact ⟨rfl, rfl, rfl⟩
  | succ m ih =>
    refine ⟨ih.2.1, ih.2.2, ?_⟩
    have h : (stringLoop '"' ['\\', '"', 'a', '\\', 'b'] (m + 1 + 2) 2).exit =
        (stringLoop '"' ['\\', '"', 'a', '\\', 'b'] m 2).exit := rfl
    rw [h]; exact ih.1

/-- C4 (evaluation of the code): in a language without line-comment character, with
any word tables, the scan of the block `/**/ /*` from the even state 200 uses up
every amount of fuel: the second opener at 5 is paired with the `*/` found from the
start of the text, which puts the cursor back to 4, and the loop visits 5 again.
The string helper started at the quote of the text backslash, quote, `a`, backslash,
`b` uses up every amount of fuel as well: no space and no quote follow the second
backslash, `indexOf` returns -1 and the cursor restarts at 0. -/
theorem genericScan_two_comments_never_ends (t k b l o : WordTable) (cpp : Int) (fuel : Nat) :
    (genericScan uc ⟨t, k, b, l, o, Char.ofNat 0, cpp⟩ ['/', '*', '*', '/', ' ', '/', '*'] 200
      fuel).exit = .outOfFuel ∧
    (highlightStringLiterals '"' ['\\', '"', 'a', '\\', 'b'] 1 fuel).exit = .outOfFuel := by
  refine ⟨?_, (stringLoop_escape_cycle fuel).1⟩
  have h0 : genericScan uc ⟨t, k, b, l, o, Char.ofNat 0, cpp⟩ ['/', '*', '*', '/', ' ', '/', '*']
      200 fuel = (scanLoop uc ⟨t, k, b, l, o, Char.ofNat 0, cpp⟩
        ['/', '*', '*', '/', ' ', '/', '*'] fuel true 0 200).after [⟨0, 7, .CodeBlock⟩] := rfl
  rw [h0, after_exit]
  match fuel with
  | 0 => rfl
  | 1 => rfl
  | f + 2 =>
    have h : (scanLoop uc ⟨t, k, b, l, o, Char.ofNat 0, cpp⟩ ['/', '*', '*', '/', ' ', '/', '*']
        (f + 2) true 0 200).exit =
        (scanLoop uc ⟨t, k, b, l, o, Char.ofNat 0, cpp⟩ ['/', '*', '*', '/', ' ', '/', '*'] f
          false 5 200).exit := rfl
    rw [h, scanLoop_two_comments_cycle]

theorem scanLoop_late_opener_cycle (t k b l o : WordTable) (cpp : Int) :
    ∀ fuel : Nat,
      (scanLoop uc ⟨t, k, b, l, o, Char.ofNat 0, cpp⟩ ['*', '/', ' ', '/', '*'] fuel
        false 3 200).exit = .outOfFuel ∧
      (scanLoop uc ⟨t, k, b, l, o, Char.ofNat 0, cpp⟩ ['*', '/', ' ', '/', '*'] fuel
        false 3 200).state = 200 := by
  intro fuel
  induction fuel with
  | zero => exact ⟨rfl, rfl⟩
  | succ f ih =>
    have h : scanLoop uc ⟨t, k, b, l, o, Char.ofNat 0, cpp⟩ ['*', '/', ' ', '/', '*']
        (f + 1) false 3 200 =
        (scanLoop uc ⟨t, k, b, l, o, Char.ofNat 0, cpp⟩ ['*', '/', ' ', '/', '*'] f
          false 3 200).after [⟨3, -1, .CodeComment⟩] := rfl
    rw [h, after_exit, after_state]
    exact ih

/-- C5 (evaluation of the code): in the block `*/ /*` the opener at 3 has no `*/`
at or after it, yet line 250 searches from the start of the text and pairs it with
the `*/` at 0: the pass through the loop body at 3 emits the Comment span `(3, -1)`,
leaves the state even and resumes at 3, and so the scan from the even state 200
never returns, whatever the fuel. -/
theorem comment_opener_paired_backwards (t k b l o : WordTable) (cpp : Int) (fuel : Nat) :
    indexOfStr ['*', '/', ' ', '/', '*'] ['*', '/'] = 0 ∧
    whileHead uc ⟨t, k, b, l, o, Char.ofNat 0, cpp⟩ ['*', '/', ' ', '/', '*'] fuel 3 200 =
      .whileHead [⟨3, -1, .CodeComment⟩] 3 200 ∧
    (genericScan uc ⟨t, k, b, l, o, Char.ofNat 0, cpp⟩ ['*', '/', ' ', '/', '*'] 200 fuel).exit =
      .outOfFuel ∧
    (genericScan uc ⟨t, k, b, l, o, Char.ofNat 0, cpp⟩ ['*', '/', ' ', '/', '*'] 200 fuel).state =
      200 := by
  refine ⟨rfl, rfl, ?_, ?_⟩
  · match fuel with
    | 0 => rfl
    | 1 => rfl
    | 2 => rfl
    | 3 => rfl
    | f + 4 =>
      have h : (genericScan uc ⟨t, k, b, l, o, Char.ofNat 0, cpp⟩ ['*', '/', ' ', '/', '*'] 200
          (f + 4)).exit =
          (scanLoop uc ⟨t, k, b, l, o, Char.ofNat 0, cpp⟩ ['*', '/', ' ', '/', '*'] f
            false 3 200).exit := rfl
      rw [h]; exact (scanLoop_late_opener_cycle t k b l o cpp f).1
  · match fuel with
    | 0 => rfl
    | 1 => rfl
    | 2 => rfl
    | 3 => rfl
    | f + 4 =>
      have h : (genericScan uc ⟨t, k, b, l, o, Char.ofNat 0, cpp⟩ ['*', '/', ' ', '/', '*'] 200
          (f + 4)).state =
          (scanLoop uc ⟨t, k, b, l, o, Char.ofNat 0, cpp⟩ ['*', '/', ' ', '/', '*'] f
            false 3 200).state := rfl
      rw [h]; exact (scanLoop_late_opener_cycle t k b l o cpp f).2

/-! ## Lemmas on word classification -/

theorem comparesBy_exact : ComparesBy uc (fun w seg => w == seg) id := by
  refine ⟨?_, fun d h => h, fun c h => h.symm⟩
  intro w seg h
  simpa using h

theorem latin1Char_letter (d : Char) (h : isLetter uc d = false) :
    isLetter uc (latin1Char d) = false := by
  unfold latin1Char
  split
  · rfl
  · exact h

theorem comparesBy_latin1 : ComparesBy uc (latin1Equal uc) latin1Char := by
  refine ⟨?_, latin1Char_letter, ?_⟩
  · intro w seg h
    unfold latin1Equal at h
    simp only [Bool.and_eq_true, beq_iff_eq] at h
    exact h.1
  · intro c h
    unfold latin1Char toLatin1 at *
    split at h
    · exact absurd h (by decide)
    · rename_i hgt
      rw [if_neg hgt]

theorem segment_head (img : Char → Char) (text w : List Char) (i : Int) (h0 : 0 ≤ i)
    (hw : w = (midRef text i w.length).map img) (hne : w ≠ []) :
    ∃ d, charAt text i = some d ∧ w.head? = some (img d) := by
  cases w with
  | nil => exact absurd rfl hne
  | cons x xs =>
    simp only [midRef, h0, if_true, List.length_cons] at hw
    cases h : text.drop i.toNat with
    | nil => rw [h] at hw; simp at hw
    | cons y ys =>
      rw [h] at hw
      simp only [List.take_succ_cons, List.map_cons, List.cons.injEq] at hw
      refine ⟨y, ?_, by rw [hw.1]; rfl⟩
      have := congrArg List.head? h
      simp only [List.head?_drop, List.head?_cons] at this
      simp only [charAt, h0, if_true]
      rw [List.get?_eq_getElem?, this]

theorem segment_length (img : Char → Char) (text w : List Char) (i : Int) (h0 : 0 ≤ i)
    (h1 : i ≤ qlen text) (hw : w = (midRef text i w.length).map img) :
    i + (w.length : Int) ≤ qlen text := by
  have := congrArg List.length hw
  simp only [midRef, h0, if_true, List.length_map, List.length_take, List.length_drop] at this
  unfold qlen at *
  omega

theorem toLatin1_eq_of_le (c : Char) (h : c.val.toNat ≤ 255) : toLatin1 c = c := by
  have : ¬ c.val > 0xff := by
    intro hgt
    have h2 : 255 < c.val.toNat := hgt
    omega
  simp [toLatin1, this]

theorem matchLoop_idle (text : List Char) (same : List Char → List Char → Bool)
    (img : Char → Char) (hcmp : ComparesBy uc same img) (mk : Int → Nat → Span) (key : Char)
    (hkey : isLetter uc key = true) (i : Int) (h0 : 0 ≤ i)
    (hend : i = qlen text ∨ ∃ c, charAt text i = some c ∧ isLetter uc c = false) :
    ∀ words : List (List Char), (∀ w ∈ words, w.head? = some key) →
      matchLoop uc text same mk words i = some ([], i) := by
  intro words
  induction words with
  | nil => intro _; rfl
  | cons w ws ih =>
    intro hw
    have hwk := hw w (List.mem_cons_self _ _)
    have hne : w ≠ [] := by intro h; rw [h] at hwk; simp at hwk
    have hno : ¬ same w (midRef text i w.length) = true := by
      intro hm
      obtain ⟨d, hd, hh⟩ := segment_head img text w i h0 (hcmp.1 _ _ hm) hne
      rw [hwk] at hh
      rcases hend with he | ⟨c, hc, hl⟩
      · rw [charAt_ge text i (by omega)] at hd; cases hd
      · rw [hc] at hd
        have hcd : c = d := Option.some.inj hd
        have hk := Option.some.inj hh
        rw [hk, ← hcd, hcmp.2.1 c hl] at hkey
        cases hkey
    simp only [matchLoop, hno, if_false]
    exact ih (fun w' hw' => hw w' (List.mem_cons_of_mem _ hw'))

/-- A bucket none of whose words compares equal to the segment at `i` leaves the
cursor where it is and emits nothing. -/
theorem matchLoop_none (text : List Char) (same : List Char → List Char → Bool)
    (mk : Int → Nat → Span) (i : Int) :
    ∀ words : List (List Char), (∀ w ∈ words, ¬ same w (midRef text i w.length) = true) →
      matchLoop uc text same mk words i = some ([], i) := by
  intro words
  induction words with
  | nil => intro _; rfl
  | cons w ws ih =>
    intro hw
    simp only [matchLoop, hw w (List.mem_cons_self _ _), if_false]
    exact ih (fun w' hw' => hw w' (List.mem_cons_of_mem _ hw'))

theorem matchLoop_spec (text : List Char) (same : List Char → List Char → Bool)
    (img : Char → Char) (hcmp : ComparesBy uc same img) (mk : Int → Nat → Span) (key : Char)
    (hkey : isLetter uc key = true) (i : Int) (h0 : 0 ≤ i) (h1 : i ≤ qlen text) :
    ∀ words : List (List Char), (∀ w ∈ words, w.head? = some key) →
      matchLoop uc text same mk words i = some ([], i) ∨
      ∃ w ∈ words,
        matchLoop uc text same mk words i = some ([mk i w.length], i + (w.length : Int)) ∧
        same w (midRef text i w.length) = true ∧
        (i + (w.length : Int) = qlen text ∨
          ∃ c, charAt text (i + (w.length : Int)) = some c ∧ isLetter uc c = false) := by
  intro words
  induction words with
  | nil => intro _; left; rfl
  | cons w ws ih =>
    intro hw
    have hws : ∀ w' ∈ ws, w'.head? = some key := fun w' hw' => hw w' (List.mem_cons_of_mem _ hw')
    have hrec := ih hws
    have lift : (matchLoop uc text same mk ws i = some ([], i) ∨
        ∃ w' ∈ ws,
          matchLoop uc text same mk ws i = some ([mk i w'.length], i + (w'.length : Int)) ∧
          same w' (midRef text i w'.length) = true ∧
          (i + (w'.length : Int) = qlen text ∨
            ∃ c, charAt text (i + (w'.length : Int)) = some c ∧ isLetter uc c = false)) →
        (matchLoop uc text same mk ws i = some ([], i) ∨
        ∃ w' ∈ w :: ws, matchLoop uc text same mk ws i =
            some ([mk i w'.length], i + (w'.length : Int)) ∧
          same w' (midRef text i w'.length) = true ∧
          (i + (w'.length : Int) = qlen text ∨
            ∃ c, charAt text (i + (w'.length : Int)) = some c ∧ isLetter uc c = false)) := by
      rintro (h | ⟨w', hw', h⟩)
      · exact Or.inl h
      · exact Or.inr ⟨w', List.mem_cons_of_mem _ hw', h⟩
    by_cases hm : same w (midRef text i w.length) = true
    · have hlen := segment_length img text w i h0 h1 (hcmp.1 _ _ hm)
      by_cases he : i + (w.length : Int) = qlen text
      · right
        refine ⟨w, List.mem_cons_self _ _, ?_, hm, Or.inl he⟩
        rw [matchLoop, if_pos hm, if_pos he,
          matchLoop_idle text same img hcmp mk key hkey _ (by omega) (Or.inl he) ws hws]
        rfl
      · obtain ⟨c, hc⟩ := charAt_lt text (i + (w.length : Int)) (by omega) (by omega)
        by_cases hl : isLetter uc c = true
        · have : matchLoop uc text same mk (w :: ws) i = matchLoop uc text same mk ws i := by
            rw [matchLoop, if_pos hm, if_neg he, hc]
            simp [hl]
          rw [this]
          exact lift hrec
        · have hl' : isLetter uc c = false := by simpa using hl
          right
          refine ⟨w, List.mem_cons_self _ _, ?_, hm, Or.inr ⟨c, hc, hl'⟩⟩
          rw [matchLoop, if_pos hm, if_neg he, hc]
          simp only [Option.some_bind, hl', Bool.not_false, if_true]
          rw [matchLoop_idle text same img hcmp mk key hkey _ (by omega) (Or.inr ⟨c, hc, hl'⟩)
            ws hws]
          rfl
    · have : matchLoop uc text same mk (w :: ws) i = matchLoop uc text same mk ws i := by
        rw [matchLoop, if_neg hm]
      rw [this]
      exact lift hrec

theorem atWordEnd_of_end (text : List Char) (j : Int)
    (h : j = qlen text ∨ ∃ c, charAt text j = some c ∧ isLetter uc c = false) :
    atWordEnd uc text j = some true := by
  unfold atWordEnd
  rcases h with h | ⟨c, hc, hl⟩
  · simp [h]
  · by_cases he : j = qlen text
    · simp [he]
    · simp [he, hc, hl]

theorem atWordEnd_of_letter (text : List Char) (j : Int) (c : Char)
    (hc : charAt text j = some c) (hl : isLetter uc c = true) : atWordEnd uc text j = some false := by
  have hb := charAt_bounds text j c hc
  have : j ≠ qlen text := by omega
  simp [atWordEnd, this, hc, hl]

theorem atWordStart_letter (data : WordTable) (text : List Char) (i : Int) (c : Char)
    (hc : charAt text i = some c) :
    (atWordStart uc data text i = some false ∧
      ¬ (i = 0 ∨ ∃ d, charAt text (i - 1) = some d ∧ isLetter uc d = false)) ∨
    (atWordStart uc data text i = some (!(data (toLatin1 c)).isEmpty) ∧
      (i = 0 ∨ ∃ d, charAt text (i - 1) = some d ∧ isLetter uc d = false)) := by
  have hb := charAt_bounds text i c hc
  by_cases h0 : i = 0
  · right
    subst h0
    refine ⟨?_, Or.inl rfl⟩
    simp [atWordStart, hc]
  · obtain ⟨d, hd⟩ := charAt_lt text (i - 1) (by omega) (by omega)
    by_cases hl : isLetter uc d = true
    · left
      refine ⟨by simp [atWordStart, h0, hd, hl], ?_⟩
      rintro (h | ⟨d', hd', hl'⟩)
      · exact h0 h
      · rw [hd] at hd'; cases hd'; rw [hl] at hl'; cases hl'
    · right
      have hl' : isLetter uc d = false := by simpa using hl
      exact ⟨by simp [atWordStart, h0, hd, hl', hc], Or.inr ⟨d, hd, hl'⟩⟩

/-- One table tried at a letter: either nothing is emitted and the cursor stays, or
exactly one word of the bucket compares equal to the segment at the cursor and
stands there as a whole word. -/
theorem tableStep_spec (data : WordTable) (hb : KeyedBuckets data) (text : List Char)
    (same : List Char → List Char → Bool) (img : Char → Char) (hcmp : ComparesBy uc same img)
    (mk : Int → Nat → Span) (i : Int) (c : Char) (hc : charAt text i = some c)
    (hl : isLetter uc c = true)
    (r : Option (List Span × Int))
    (hr : r = (atWordStart uc data text i).bind (fun b =>
      if b = true then
        (charAt text i).bind (fun c => matchLoop uc text same mk (data (toLatin1 c)) i)
      else some ([], i))) :
    r = some ([], i) ∨
    ∃ w ∈ data (toLatin1 c), r = some ([mk i w.length], i + (w.length : Int)) ∧
      same w ((text.drop i.toNat).take w.length) = true ∧ WordEdges uc text i w.length ∧
      0 < w.length := by
  have hbnd := charAt_bounds text i c hc
  have hmid : ∀ n : Nat, midRef text i n = (text.drop i.toNat).take n := by
    intro n; simp [midRef, hbnd.1]
  rcases atWordStart_letter data text i c hc with ⟨h1, _⟩ | ⟨h1, hbefore⟩
  · left; rw [hr, h1]; rfl
  · by_cases hemp : (data (toLatin1 c)).isEmpty = true
    · left; rw [hr, h1]; simp [hemp]
    · have hne : (data (toLatin1 c)).isEmpty = false := by simpa using hemp
      have hr2 : r = matchLoop uc text same mk (data (toLatin1 c)) i := by
        rw [hr, h1]; simp [hne, hc]
      have hwne : ∀ w ∈ data (toLatin1 c), w ≠ [] := by
        intro w hw h0; have := hb _ w hw; rw [h0] at this; simp at this
      by_cases hlat : toLatin1 c = c
      · rw [hlat] at hr2 hwne ⊢
        rcases matchLoop_spec text same img hcmp mk c hl i hbnd.1 (le_of_lt hbnd.2) (data c)
          (hb c) with h | ⟨w, hw, h, hm, hafter⟩
        · left; rw [hr2, h]
        · right
          refine ⟨w, hw, by rw [hr2, h], ?_, ⟨hbefore, hafter⟩,
            List.length_pos.2 (hwne w hw)⟩
          rw [← hmid]; exact hm
      · left
        rw [hr2]
        refine matchLoop_none text same mk i _ ?_
        intro w hw hm
        obtain ⟨d, hd, hh⟩ := segment_head img text w i hbnd.1 (hcmp.1 _ _ hm) (hwne w hw)
        rw [hc] at hd
        have hcd : c = d := Option.some.inj hd
        rw [hb _ w hw, ← hcd] at hh
        exact hlat (hcmp.2.2 c (Option.some.inj hh).symm)

theorem applyCodeFormat_eq (i : Int) (data : WordTable) (text : List Char) (cat : Category) :
    applyCodeFormat uc i data text cat = (atWordStart uc data text i).bind (fun b =>
      if b = true then
        (charAt text i).bind (fun c => matchLoop uc text (fun w seg => w == seg)
          (fun j n => ⟨j, n, cat⟩) (data (toLatin1 c)) i)
      else some ([], i)) := by
  unfold applyCodeFormat wordLoop
  cases atWordStart uc data text i <;> rfl

theorem applyOther_eq (isCpp : Bool) (i : Int) (data : WordTable) (text : List Char) :
    applyOther uc isCpp i data text = (atWordStart uc data text i).bind (fun b =>
      if b = true then
        (charAt text i).bind (fun c => matchLoop uc text (latin1Equal uc) (otherSpan isCpp)
          (data (toLatin1 c)) i)
      else some ([], i)) := by
  unfold applyOther otherLoop
  cases atWordStart uc data text i <;> rfl

/-- A word found by `applyCodeFormat` stands at the cursor as a whole word. -/
theorem wordMatch_of_exact (text : List Char) (i : Int) (w : List Char)
    (h : (w == (text.drop i.toNat).take w.length) = true)
    (he : WordEdges uc text i w.length) : WordMatch uc text i w := by
  refine ⟨?_, he.1, he.2⟩
  have : w = (text.drop i.toNat).take w.length := by simpa using h
  exact this.symm

theorem skipLetters_bounds (text : List Char) (i : Int) (h0 : 0 ≤ i) (h1 : i ≤ qlen text) :
    i ≤ skipLetters uc text i ∧ skipLetters uc text i ≤ qlen text := by
  unfold skipLetters qlen at *
  have h := (List.takeWhile_sublist (isLetter uc) (l := text.drop i.toNat)).length_le
  rw [List.length_drop] at h
  omega

/-- Lines 292-350 at a cursor inside the text or at its end, with keyed buckets:
the classification returns, the cursor does not move backwards and stays within the
text, and either nothing is emitted or exactly one span is, for a word of one of the
five tables that stands at `i` as a whole word. -/
theorem classifyWord_spec (cfg : LangConfig) (st : Int) (text : List Char) (i : Int)
    (ht : KeyedBuckets cfg.types) (hk : KeyedBuckets cfg.keywords)
    (hl : KeyedBuckets cfg.literals) (hb : KeyedBuckets cfg.builtin)
    (ho : KeyedBuckets cfg.others) (h0 : 0 ≤ i) (h1 : i ≤ qlen text) :
    ∃ sp j, classifyWord uc cfg st text i = some (sp, j) ∧ i ≤ j ∧ j ≤ qlen text ∧
      ((sp = [] ∧ (j = i ∨ j = skipLetters uc text i)) ∨
        ∃ w c, 0 < w.length ∧ j = i + (w.length : Int) ∧ WordEdges uc text i w.length ∧
          charAt text i = some c ∧ isLetter uc c = true ∧
          ((w ∈ cfg.types (toLatin1 c) ∧ WordMatch uc text i w ∧
              sp = [⟨i, w.length, .CodeType⟩]) ∨
           (w ∈ cfg.keywords (toLatin1 c) ∧ WordMatch uc text i w ∧
              sp = [⟨i, w.length, .CodeKeyWord⟩]) ∨
           (w ∈ cfg.literals (toLatin1 c) ∧ WordMatch uc text i w ∧
              sp = [⟨i, w.length, .CodeNumLiteral⟩]) ∨
           (w ∈ cfg.builtin (toLatin1 c) ∧ WordMatch uc text i w ∧
              sp = [⟨i, w.length, .CodeBuiltIn⟩]) ∨
           (w ∈ cfg.others (toLatin1 c) ∧ OtherMatch uc text i w ∧
              sp = [otherSpan (decide (st = cfg.codeCpp)) i w.length]))) := by
  by_cases hend : atWordEnd uc text i = some true
  · refine ⟨[], i, ?_, le_refl _, h1, Or.inl ⟨rfl, Or.inl rfl⟩⟩
    simp [classifyWord, unlessWordEnd, hend]
  · -- the cursor is at a letter
    have hlt : i < qlen text := by
      by_contra hge
      exact hend (atWordEnd_of_end text i (Or.inl (by omega)))
    obtain ⟨c, hc⟩ := charAt_lt text i h0 hlt
    have hcl : isLetter uc c = true := by
      by_contra hn
      exact hend (atWordEnd_of_end text i (Or.inr ⟨c, hc, by simpa using hn⟩))
    have hfalse := atWordEnd_of_letter text i c hc hcl
    have fin : ∀ (w : List Char), 0 < w.length → WordEdges uc text i w.length →
        atWordEnd uc text (i + (w.length : Int)) = some true ∧
          i + (w.length : Int) ≤ qlen text := by
      intro w _ hm
      refine ⟨atWordEnd_of_end text _ hm.2, ?_⟩
      rcases hm.2 with h | ⟨d, hd, _⟩
      · omega
      · have := charAt_bounds text _ d hd; omega
    unfold classifyWord
    rcases tableStep_spec cfg.types ht text _ id comparesBy_exact _ i c hc hcl _
      (applyCodeFormat_eq i _ text .CodeType) with h | ⟨w, hw, h, hs, hm, hpos⟩
    swap
    · obtain ⟨he, hle⟩ := fin w hpos hm
      refine ⟨[⟨i, w.length, .CodeType⟩], i + w.length, ?_, by omega, hle,
        Or.inr ⟨w, c, hpos, rfl, hm, hc, hcl,
          Or.inl ⟨hw, wordMatch_of_exact text i w hs hm, rfl⟩⟩⟩
      simp [unlessWordEnd, hfalse, h, thenAt, he]
    rcases tableStep_spec cfg.keywords hk text _ id comparesBy_exact _ i c hc hcl _
      (applyCodeFormat_eq i _ text .CodeKeyWord) with h2 | ⟨w, hw, h2, hs, hm, hpos⟩
    swap
    · obtain ⟨he, hle⟩ := fin w hpos hm
      refine ⟨[⟨i, w.length, .CodeKeyWord⟩], i + w.length, ?_, by omega, hle,
        Or.inr ⟨w, c, hpos, rfl, hm, hc, hcl,
          Or.inr (Or.inl ⟨hw, wordMatch_of_exact text i w hs hm, rfl⟩)⟩⟩
      simp [unlessWordEnd, hfalse, h, h2, thenAt, he]
    rcases tableStep_spec cfg.literals hl text _ id comparesBy_exact _ i c hc hcl _
      (applyCodeFormat_eq i _ text .CodeNumLiteral) with h3 | ⟨w, hw, h3, hs, hm, hpos⟩
    swap
    · obtain ⟨he, hle⟩ := fin w hpos hm
      refine ⟨[⟨i, w.length, .CodeNumLiteral⟩], i + w.length, ?_, by omega, hle,
        Or.inr ⟨w, c, hpos, rfl, hm, hc, hcl,
          Or.inr (Or.inr (Or.inl ⟨hw, wordMatch_of_exact text i w hs hm, rfl⟩))⟩⟩
      simp [unlessWordEnd, hfalse, h, h2, h3, thenAt, he]
    rcases tableStep_spec cfg.builtin hb text _ id comparesBy_exact _ i c hc hcl _
      (applyCodeFormat_eq i _ text .CodeBuiltIn) with h4 | ⟨w, hw, h4, hs, hm, hpos⟩
    swap
    · obtain ⟨he, hle⟩ := fin w hpos hm
      refine ⟨[⟨i, w.length, .CodeBuiltIn⟩], i + w.length, ?_, by omega, hle,
        Or.inr ⟨w, c, hpos, rfl, hm, hc, hcl,
          Or.inr (Or.inr (Or.inr (Or.inl ⟨hw, wordMatch_of_exact text i w hs hm, rfl⟩)))⟩⟩
      simp [unlessWordEnd, hfalse, h, h2, h3, h4, thenAt, he]
    rcases tableStep_spec cfg.others ho text _ latin1Char comparesBy_latin1 _ i c hc hcl _
      (applyOther_eq (decide (st = cfg.codeCpp)) i _ text) with h5 | ⟨w, hw, h5, hs, hm, hpos⟩
    · have hs := @skipLetters_bounds uc text i h0 h1
      refine ⟨[], skipLetters uc text i, ?_, hs.1, hs.2, Or.inl ⟨rfl, Or.inr rfl⟩⟩
      simp [unlessWordEnd, hfalse, h, h2, h3, h4, h5, thenAt]
    · obtain ⟨_, hle⟩ := fin w hpos hm
      have hne : ¬ i = i + (w.length : Int) := by omega
      refine ⟨[otherSpan (decide (st = cfg.codeCpp)) i w.length], i + w.length, ?_, by omega,
        hle, Or.inr ⟨w, c, hpos, rfl, hm, hc, hcl,
          Or.inr (Or.inr (Or.inr (Or.inr ⟨hw, ⟨hs, hm.1, hm.2⟩, rfl⟩)))⟩⟩
      simp [unlessWordEnd, hfalse, h, h2, h3, h4, h5, thenAt, hne]

/-! ## Theorems: word and number boundaries -/

theorem keyedBuckets_empty : KeyedBuckets (fun _ => []) := by
  intro key w hw; cases hw

theorem keyedBuckets_int : KeyedBuckets intKeywordConfig.keywords := by
  intro key w hw
  simp only [intKeywordConfig] at hw
  split at hw
  · simp only [List.mem_singleton] at hw
    subst hw; simp [*]
  · cases hw

theorem digitRunEnd_bounds (text : List Char) (i : Int) (h0 : 0 ≤ i) (h1 : i ≤ qlen text) :
    i ≤ digitRunEnd uc text i ∧ digitRunEnd uc text i ≤ qlen text := by
  unfold digitRunEnd qlen at *
  have h := (List.takeWhile_sublist (fun c => isNumber uc c || c == '.')
    (l := text.drop i.toNat)).length_le
  rw [List.length_drop] at h
  omega

theorem mem_of_contains_toLatin1 (l : List Char) (c : Char) (h0 : Char.ofNat 0 ∉ l)
    (h : l.contains (toLatin1 c) = true) : c ∈ l := by
  have hm : toLatin1 c ∈ l := by simpa using h
  unfold toLatin1 at hm
  split at hm
  · exact absurd hm h0
  · exact hm

theorem highlightIntegerLiterals_spec (text : List Char) (i : Int) (d : Char)
    (hd : charAt text i = some d) :
    ∃ sp j, highlightIntegerLiterals uc text i = some (sp, j) ∧ sp.length ≤ 1 ∧
      i ≤ j ∧ j ≤ qlen text ∧ ∀ s ∈ sp, NumberBoundary text i s := by
  have hb := charAt_bounds text i d hd
  -- the value of `isPreNum`
  have hpre : ∃ pre : Bool, (if i = 0 then some true
      else (charAt text (i - 1)).map (fun c => preNumChars.contains (toLatin1 c))) = some pre ∧
      (pre = true → (i = 0 ∨ ∃ c ∈ preNumChars, charAt text (i - 1) = some c)) := by
    by_cases h0 : i = 0
    · exact ⟨true, by simp [h0], fun _ => Or.inl h0⟩
    · obtain ⟨e, he⟩ := charAt_lt text (i - 1) (by omega) (by omega)
      refine ⟨preNumChars.contains (toLatin1 e), by simp [h0, he], fun h => Or.inr ⟨e, ?_, he⟩⟩
      exact mem_of_contains_toLatin1 _ _ (by decide) h
  obtain ⟨pre, hpre1, hpre2⟩ := hpre
  unfold highlightIntegerLiterals
  rw [hpre1]
  simp only [Option.bind_eq_bind, Option.some_bind]
  by_cases hlast : i + 1 ≥ qlen text
  · rw [if_pos hlast]
    refine ⟨_, _, rfl, ?_, by omega, by omega, ?_⟩
    · split <;> simp
    · intro s hs
      cases pre with
      | false => simp at hs
      | true =>
        simp only [if_true, List.mem_singleton] at hs
        subst hs
        exact ⟨rfl, rfl, by simp, hpre2 rfl, Or.inl (by show i + 1 = qlen text; omega)⟩
  · rw [if_neg hlast]
    obtain ⟨c1, hc1⟩ := charAt_lt text (i + 1) (by omega) (by omega)
    have hsub : i + 1 - 1 = i := by omega
    rw [hc1, hsub, hd]
    simp only [Option.some_bind, Option.map_some']
    -- the cursor after the optional `x`
    obtain ⟨i2, hi2, hi2a, hi2b⟩ : ∃ i2 : Int, (if c1 = 'x' then
        some (if d = '0' then i + 1 + 1 else i + 1) else some (i + 1)) = some i2 ∧
        i + 1 ≤ i2 ∧ i2 ≤ i + 2 := by
      by_cases hx : c1 = 'x'
      · by_cases hz : d = '0'
        · exact ⟨i + 1 + 1, by simp [hx, hz], by omega, by omega⟩
        · exact ⟨i + 1, by simp [hx, hz], by omega, by omega⟩
      · exact ⟨i + 1, by simp [hx], by omega, by omega⟩
    rw [hi2]
    simp only [Option.some_bind]
    cases pre with
    | false =>
      exact ⟨[], i2, by simp, by simp, by omega, by omega, fun s hs => by cases hs⟩
    | true =>
      have hr := @digitRunEnd_bounds uc text i2 (by omega) (by omega)
      simp only [if_true]
      have hsimp : digitRunEnd uc text i2 - 1 + 1 = digitRunEnd uc text i2 := by omega
      rw [hsimp]
      by_cases hend : digitRunEnd uc text i2 = qlen text
      · rw [if_pos hend]
        refine ⟨_, _, rfl, by simp, by omega, by omega, ?_⟩
        intro s hs
        simp only [List.mem_singleton] at hs
        subst hs
        exact ⟨rfl, rfl, by show 0 < digitRunEnd uc text i2 - i; omega, hpre2 rfl,
          Or.inl (by show i + (digitRunEnd uc text i2 - i) = qlen text; omega)⟩
      · rw [if_neg hend]
        obtain ⟨n, hn⟩ := charAt_lt text (digitRunEnd uc text i2) (by omega) (by omega)
        rw [hn]
        simp only [Option.some_bind]
        by_cases hpost : postNumChars.contains (toLatin1 n) = true
        · rw [if_pos hpost]
          refine ⟨_, _, rfl, by simp, by omega, by omega, ?_⟩
          intro s hs
          simp only [List.mem_singleton] at hs
          subst hs
          refine ⟨rfl, rfl, by show 0 < digitRunEnd uc text i2 - i; omega, hpre2 rfl,
            Or.inr (Or.inl ⟨n, mem_of_contains_toLatin1 _ _ (by decide) hpost, ?_⟩)⟩
          show charAt text (i + (digitRunEnd uc text i2 - i)) = some n
          rw [← hn]; congr 1; omega
        · rw [if_neg hpost]
          by_cases hsuf : suffixChars.contains (toLatin1 n) = true
          · rw [if_pos hsuf]
            refine ⟨_, _, rfl, by simp, by omega, by omega, ?_⟩
            intro s hs
            simp only [List.mem_singleton] at hs
            subst hs
            refine ⟨rfl, rfl, by show 0 < digitRunEnd uc text i2 + 1 - i; omega, hpre2 rfl,
              Or.inr (Or.inr ⟨n, mem_of_contains_toLatin1 _ _ (by decide) hsuf, ?_⟩)⟩
            show charAt text (i + (digitRunEnd uc text i2 + 1 - i) - 1) = some n
            rw [← hn]; congr 1; omega
          · rw [if_neg hsuf]
            exact ⟨[], _, rfl, by simp, by omega, by omega, fun s hs => by cases hs⟩

/-- C8: at every digit position `i`, `highlightIntegerLiterals` returns, emits at
most one span, and every span it emits is a NumberLiteral span that starts at `i`,
has the start of the text or a character of `[ ( { space , = + - * / % < >` before
it, and ends at the end of the text, before one of `] ) } space , = + - * / % > < ;`,
or with a suffix letter `u l f U L F` as its last character. With empty word tables,
the scan of `x = 42;` emits (besides the default span) exactly the NumberLiteral
span `(4, 2)`, and the scan of `var1` emits only the default span. -/
theorem number_dual_boundary (text : List Char) (i : Int)
    (hd : ∃ d, charAt text i = some d ∧ isNumber uc d = true) :
    (∃ sp j, highlightIntegerLiterals uc text i = some (sp, j) ∧ sp.length ≤ 1 ∧
      ∀ s ∈ sp, NumberBoundary text i s) ∧
    genericScan uc ⟨fun _ => [], fun _ => [], fun _ => [], fun _ => [], fun _ => [], Char.ofNat 0,
        200⟩ ['x', ' ', '=', ' ', '4', '2', ';'] 202 20 =
      ⟨[⟨0, 7, .CodeBlock⟩, ⟨4, 2, .CodeNumLiteral⟩], 202, .completed⟩ ∧
    genericScan uc ⟨fun _ => [], fun _ => [], fun _ => [], fun _ => [], fun _ => [], Char.ofNat 0,
        200⟩ ['v', 'a', 'r', '1'] 202 20 = ⟨[⟨0, 4, .CodeBlock⟩], 202, .completed⟩ ∧
    highlightIntegerLiterals uc ['v', 'a', 'r', '1'] 3 = some ([], 4) := by
  refine ⟨?_, rfl, rfl, rfl⟩
  obtain ⟨d, hd1, _⟩ := hd
  obtain ⟨sp, j, h, hlen, _, _, hall⟩ := highlightIntegerLiterals_spec text i d hd1
  exact ⟨sp, j, h, hlen, hall⟩

/-- C8 at the digit `4` of `x = 42;`. -/
theorem number_dual_boundary_witness :
    (∃ sp j, highlightIntegerLiterals plainQt ['x', ' ', '=', ' ', '4', '2', ';'] 4 = some (sp, j) ∧
      sp.length ≤ 1 ∧ ∀ s ∈ sp, NumberBoundary ['x', ' ', '=', ' ', '4', '2', ';'] 4 s) ∧
    genericScan plainQt ⟨fun _ => [], fun _ => [], fun _ => [], fun _ => [], fun _ => [], Char.ofNat 0,
        200⟩ ['x', ' ', '=', ' ', '4', '2', ';'] 202 20 =
      ⟨[⟨0, 7, .CodeBlock⟩, ⟨4, 2, .CodeNumLiteral⟩], 202, .completed⟩ ∧
    genericScan plainQt ⟨fun _ => [], fun _ => [], fun _ => [], fun _ => [], fun _ => [], Char.ofNat 0,
        200⟩ ['v', 'a', 'r', '1'] 202 20 = ⟨[⟨0, 4, .CodeBlock⟩], 202, .completed⟩ ∧
    highlightIntegerLiterals plainQt ['v', 'a', 'r', '1'] 3 = some ([], 4) :=
  number_dual_boundary ['x', ' ', '=', ' ', '4', '2', ';'] 4 ⟨'4', by decide, by decide⟩

/-! ## The scan never leaves the text -/

theorem matchLoop_within (text : List Char) (same : List Char → List Char → Bool)
    (mk : Int → Nat → Span) (P : Span → Prop)
    (B : Int) (hBl : B ≤ qlen text) (hmk : ∀ (j : Int) (n : Nat), 0 ≤ j → j + n ≤ B → P (mk j n)) :
    ∀ (words : List (List Char)),
      (∀ w ∈ words, ∀ i, 0 ≤ i → i ≤ B → same w (midRef text i w.length) = true →
        i + (w.length : Int) ≤ B) →
      ∀ (i : Int), 0 ≤ i → i ≤ B →
      ∃ sp j, matchLoop uc text same mk words i = some (sp, j) ∧ i ≤ j ∧ j ≤ B ∧
        ∀ s ∈ sp, P s := by
  intro words
  induction words with
  | nil => intro _ i _ h1; exact ⟨[], i, rfl, le_refl _, h1, fun s hs => by cases hs⟩
  | cons w ws ih =>
    intro hfit i h0 h1
    have ih' := ih (fun w' hw' => hfit w' (List.mem_cons_of_mem _ hw'))
    by_cases hm : same w (midRef text i w.length) = true
    · have hlen := hfit w (List.mem_cons_self _ _) i h0 h1 hm
      obtain ⟨sp, j, h, hj1, hj2, hP⟩ := ih' (i + (w.length : Int)) (by omega) hlen
      have hemit : ∃ sp' j', (matchLoop uc text same mk ws (i + (w.length : Int))).map
          (fun r => (mk i w.length :: r.1, r.2)) = some (sp', j') ∧ i ≤ j' ∧ j' ≤ B ∧
          ∀ s ∈ sp', P s := by
        refine ⟨mk i w.length :: sp, j, by rw [h]; rfl, by omega, hj2, ?_⟩
        intro s hs
        rcases List.mem_cons.1 hs with rfl | hs
        · exact hmk _ _ h0 hlen
        · exact hP s hs
      by_cases he : i + (w.length : Int) = qlen text
      · rw [matchLoop, if_pos hm, if_pos he]; exact hemit
      · obtain ⟨c, hc⟩ := charAt_lt text (i + (w.length : Int)) (by omega) (by omega)
        rw [matchLoop, if_pos hm, if_neg he, hc]
        simp only [Option.some_bind]
        by_cases hl : isLetter uc c = true
        · simp only [hl, Bool.not_true, Bool.false_eq_true, if_false]
          exact ih' i h0 h1
        · have hl' : isLetter uc c = false := by simpa using hl
          simp only [hl', Bool.not_false, if_true]
          exact hemit
    · rw [matchLoop, if_neg hm]
      exact ih' i h0 h1

theorem tableStep_within (data : WordTable) (text : List Char)
    (same : List Char → List Char → Bool) (mk : Int → Nat → Span)
    (P : Span → Prop) (B : Int) (hBl : B ≤ qlen text)
    (hmk : ∀ (j : Int) (n : Nat), 0 ≤ j → j + n ≤ B → P (mk j n))
    (hfit : ∀ key, ∀ w ∈ data key, ∀ i, 0 ≤ i → i ≤ B →
      same w (midRef text i w.length) = true → i + (w.length : Int) ≤ B)
    (i : Int) (h0 : 0 ≤ i) (h1 : i < qlen text) (h2 : i ≤ B) :
    ∃ sp j, (atWordStart uc data text i).bind (fun b =>
        if b = true then
          (charAt text i).bind (fun c => matchLoop uc text same mk (data (toLatin1 c)) i)
        else some ([], i)) = some (sp, j) ∧ i ≤ j ∧ j ≤ B ∧ ∀ s ∈ sp, P s := by
  obtain ⟨c, hc⟩ := charAt_lt text i h0 h1
  have hidle : ∃ sp j, (some ([], i) : Option (List Span × Int)) = some (sp, j) ∧ i ≤ j ∧
      j ≤ B ∧ ∀ s ∈ sp, P s :=
    ⟨[], i, rfl, le_refl _, h2, fun s hs => by cases hs⟩
  rcases atWordStart_letter data text i c hc with ⟨h, _⟩ | ⟨h, _⟩
  · rw [h]; exact hidle
  · rw [h]
    cases hb : !(data (toLatin1 c)).isEmpty with
    | false => exact hidle
    | true =>
      simp only [Option.some_bind, if_true, hc]
      exact matchLoop_within text same mk P B hBl hmk _ (hfit _) i h0 h2

theorem stage_within (text : List Char) (P : Span → Prop) (B : Int) (i : Int)
    (r : Option (List Span × Int)) (k : Int → Option (List Span × Int))
    (h0 : 0 ≤ i) (h1 : i ≤ qlen text) (h2 : i ≤ B)
    (hr : i < qlen text → ∃ sp j, r = some (sp, j) ∧ i ≤ j ∧ j ≤ B ∧ ∀ s ∈ sp, P s)
    (hk : ∀ j, i ≤ j → j ≤ B →
      ∃ sp j', k j = some (sp, j') ∧ j ≤ j' ∧ j' ≤ B ∧ ∀ s ∈ sp, P s) :
    ∃ sp j, unlessWordEnd uc text i (thenAt r k) = some (sp, j) ∧ i ≤ j ∧ j ≤ B ∧
      ∀ s ∈ sp, P s := by
  by_cases hend : atWordEnd uc text i = some true
  · exact ⟨[], i, by simp [unlessWordEnd, hend], le_refl _, h2, fun s hs => by cases hs⟩
  · have hlt : i < qlen text := by
      by_contra hge
      exact hend (atWordEnd_of_end text i (Or.inl (by omega)))
    obtain ⟨c, hc⟩ := charAt_lt text i h0 hlt
    have hcl : isLetter uc c = true := by
      by_contra hn
      exact hend (atWordEnd_of_end text i (Or.inr ⟨c, hc, by simpa using hn⟩))
    have hfalse := atWordEnd_of_letter text i c hc hcl
    obtain ⟨sp, j, e, hj1, hj2, hP⟩ := hr hlt
    obtain ⟨sp2, j2, e2, hj3, hj4, hP2⟩ := hk j hj1 hj2
    refine ⟨sp ++ sp2, j2, by simp [unlessWordEnd, hfalse, e, thenAt, e2], by omega, hj4, ?_⟩
    intro s hs
    rcases List.mem_append.1 hs with hs | hs
    · exact hP s hs
    · exact hP2 s hs

theorem takeWhile_length_le (p : Char → Bool) :
    ∀ (l : List Char) (n : Nat) (c : Char), l.get? n = some c → p c = false →
      (l.takeWhile p).length ≤ n := by
  intro l
  induction l with
  | nil => intro n c h; simp at h
  | cons x xs ih =>
    intro n c h hp
    cases n with
    | zero =>
      simp at h; subst h
      simp [List.takeWhile, hp]
    | succ m =>
      simp at h
      rw [List.takeWhile]
      split
      · have := ih m c (by simpa using h) hp
        simp; omega
      · simp

theorem skipLetters_within (text : List Char) (i B : Int) (h0 : 0 ≤ i) (h1 : i ≤ B)
    (hB : B = qlen text ∨ ∃ c, charAt text B = some c ∧ isLetter uc c = false) :
    i ≤ skipLetters uc text i ∧ skipLetters uc text i ≤ B := by
  rcases hB with hB | ⟨c, hc, hl⟩
  · have := @skipLetters_bounds uc text i h0 (by omega)
    omega
  · have hb := charAt_bounds text B c hc
    have hget : (text.drop i.toNat).get? (B - i).toNat = some c := by
      rw [charAt_drop]
      have e : ((i.toNat : Nat) : Int) + (((B - i).toNat : Nat) : Int) = B := by omega
      rw [e, hc]
    have := takeWhile_length_le (isLetter uc) _ _ c hget hl
    unfold skipLetters
    omega

theorem classifyWord_within (cfg : LangConfig) (st : Int) (text : List Char) (B : Int)
    (hBl : B ≤ qlen text)
    (hB : B = qlen text ∨ ∃ c, charAt text B = some c ∧ isLetter uc c = false)
    (hfit : ∀ data ∈ [cfg.types, cfg.keywords, cfg.literals, cfg.builtin, cfg.others],
      ∀ key, ∀ w ∈ data key, ∀ i, 0 ≤ i → i ≤ B →
        (w = midRef text i w.length ∨ w = (midRef text i w.length).map latin1Char) →
        i + (w.length : Int) ≤ B)
    (i : Int) (h0 : 0 ≤ i) (h1 : i ≤ B) :
    ∃ sp j, classifyWord uc cfg st text i = some (sp, j) ∧ i ≤ j ∧ j ≤ B ∧
      ∀ s ∈ sp, isWordCategory s.cat = true ∧ s.start + s.count ≤ B := by
  have hmkw : ∀ cat, isWordCategory cat = true → ∀ (j : Int) (n : Nat), 0 ≤ j → j + n ≤ B →
      (fun s : Span => isWordCategory s.cat = true ∧ s.start + s.count ≤ B)
        ((fun (j : Int) (n : Nat) => (⟨j, n, cat⟩ : Span)) j n) :=
    fun cat hcat j n _ hjn => ⟨hcat, hjn⟩
  have hfitE : ∀ data ∈ [cfg.types, cfg.keywords, cfg.literals, cfg.builtin, cfg.others],
      ∀ key, ∀ w ∈ data key, ∀ i, 0 ≤ i → i ≤ B →
        (fun (w seg : List Char) => w == seg) w (midRef text i w.length) = true →
        i + (w.length : Int) ≤ B := by
    intro data hd key w hw i hi0 hi1 hm
    exact hfit data hd key w hw i hi0 hi1 (Or.inl (by simpa using hm))
  have hfitL : ∀ key, ∀ w ∈ cfg.others key, ∀ i, 0 ≤ i → i ≤ B →
      latin1Equal uc w (midRef text i w.length) = true → i + (w.length : Int) ≤ B := by
    intro key w hw i hi0 hi1 hm
    exact hfit cfg.others (by simp) key w hw i hi0 hi1 (Or.inr (comparesBy_latin1.1 _ _ hm))
  unfold classifyWord
  refine stage_within text (fun s => isWordCategory s.cat = true ∧ s.start + s.count ≤ B) B i
    _ _ h0 (by omega) h1 (fun hlt => ?_) (fun i1 a1 b1 => ?_)
  · rw [applyCodeFormat_eq]
    exact tableStep_within _ text _ _ _ B hBl (hmkw .CodeType rfl) (hfitE _ (by simp)) i h0 hlt
      h1
  refine stage_within text (fun s => isWordCategory s.cat = true ∧ s.start + s.count ≤ B) B i1
    _ _ (by omega) (by omega) b1 (fun hlt => ?_) (fun i2 a2 b2 => ?_)
  · rw [applyCodeFormat_eq]
    exact tableStep_within _ text _ _ _ B hBl (hmkw .CodeKeyWord rfl) (hfitE _ (by simp)) i1 (by omega) hlt
      b1
  refine stage_within text (fun s => isWordCategory s.cat = true ∧ s.start + s.count ≤ B) B i2
    _ _ (by omega) (by omega) b2 (fun hlt => ?_) (fun i3 a3 b3 => ?_)
  · rw [applyCodeFormat_eq]
    exact tableStep_within _ text _ _ _ B hBl (hmkw .CodeNumLiteral rfl) (hfitE _ (by simp)) i2 (by omega) hlt
      b2
  refine stage_within text (fun s => isWordCategory s.cat = true ∧ s.start + s.count ≤ B) B i3
    _ _ (by omega) (by omega) b3 (fun hlt => ?_) (fun i4 a4 b4 => ?_)
  · rw [applyCodeFormat_eq]
    exact tableStep_within _ text _ _ _ B hBl (hmkw .CodeBuiltIn rfl) (hfitE _ (by simp)) i3 (by omega) hlt
      b3
  refine stage_within text (fun s => isWordCategory s.cat = true ∧ s.start + s.count ≤ B) B i4
    _ _ (by omega) (by omega) b4 (fun hlt => ?_) (fun i5 a5 b5 => ?_)
  · rw [applyOther_eq]
    refine tableStep_within _ text _ _ _ B hBl ?_ hfitL i4 (by omega) hlt b4
    intro j n _ hjn
    unfold otherSpan
    split
    · exact ⟨rfl, by show j - 1 + ((n : Int) + 1) ≤ B; omega⟩
    · exact ⟨rfl, hjn⟩
  · by_cases he : i = i5
    · have hs := skipLetters_within text i5 B (by omega) b5 hB
      exact ⟨[], skipLetters uc text i5, by simp [he], hs.1, hs.2, fun s hs => by cases hs⟩
    · exact ⟨[], i5, by simp [he], le_refl _, b5, fun s hs => by cases hs⟩

/-- Lines 292-350 at a cursor inside the text or at its end, for any tables: the
classification returns, the cursor does not move backwards and stays within the
text, and every span emitted has the category of a word table. -/
theorem classifyWord_bounds (cfg : LangConfig) (st : Int) (text : List Char) (i : Int)
    (h0 : 0 ≤ i) (h1 : i ≤ qlen text) :
    ∃ sp j, classifyWord uc cfg st text i = some (sp, j) ∧ i ≤ j ∧ j ≤ qlen text ∧
      ∀ s ∈ sp, isWordCategory s.cat = true := by
  obtain ⟨sp, j, h, hj1, hj2, hP⟩ := classifyWord_within cfg st text (qlen text) (le_refl _)
    (Or.inl rfl) (fun _ _ key w _ i hi0 hi1 hm => by
      rcases hm with hm | hm
      · exact segment_length id text w i hi0 hi1 (by simpa using hm)
      · exact segment_length latin1Char text w i hi0 hi1 hm) i h0 h1
  exact ⟨sp, j, h, hj1, hj2, fun s hs => (hP s hs).1⟩

/-! ## Scanning a stretch of text without comment or string characters -/

theorem whileTail_cases (text : List Char) (sp : List Span) (j st : Int) (hj : j ≤ qlen text) :
    (whileTail text sp j st = .afterWhile sp j st ∧ j = qlen text) ∨
    (whileTail text sp j st = .whileHead sp (j + 1) st ∧ j < qlen text) := by
  unfold whileTail
  by_cases h : j ≥ qlen text
  · left; exact ⟨by simp [h], by omega⟩
  · right; exact ⟨by simp [h], by omega⟩

/-- One visit of the head of the `while` loop at a cursor `i` whose character (if
any) is no `/`, no quote and not the line-comment character: no fault, the state
is kept, the cursor moves forward inside the text, no Comment span is emitted. -/
theorem whileHead_plain (cfg : LangConfig) (text : List Char) (fuel : Nat) (i st : Int)
    (hc : cfg.comment = Char.ofNat 0) (h0 : 0 ≤ i) (h1 : i ≤ qlen text)
    (hp : ∀ ch, charAt text i = some ch → ch ≠ '/' ∧ ch ≠ '"' ∧ ch ≠ '\'' ∧ ch ≠ Char.ofNat 0) :
    (∃ sp, whileHead uc cfg text fuel i st = .ret sp st ∧ ∀ s ∈ sp, s.cat ≠ .CodeComment) ∨
    (∃ sp j, whileHead uc cfg text fuel i st = .whileHead sp j st ∧ i < j ∧ j ≤ qlen text ∧
      ∀ s ∈ sp, s.cat ≠ .CodeComment) ∨
    (∃ sp j, whileHead uc cfg text fuel i st = .afterWhile sp j st ∧ i ≤ j ∧ j ≤ qlen text ∧
      ∀ s ∈ sp, s.cat ≠ .CodeComment) := by
  have hnil : ∀ s ∈ ([] : List Span), s.cat ≠ .CodeComment := fun s hs => by cases hs
  by_cases hlt : i < qlen text
  swap
  · right; right
    exact ⟨[], i, by simp [whileHead, hlt], le_refl _, h1, hnil⟩
  obtain ⟨c, hci⟩ := charAt_lt text i h0 hlt
  obtain ⟨hs1, hs2, hs3, hs4⟩ := hp c hci
  by_cases hl : isLetter uc c = true
  · right; right
    exact ⟨[], i, by simp [whileHead, hlt, hci, hl], le_refl _, h1, hnil⟩
  have hl' : isLetter uc c = false := by simpa using hl
  have hw : whileHead uc cfg text fuel i st = whileBody uc cfg text fuel i st c := by
    simp [whileHead, hlt, hci, hl']
  rw [hw]
  unfold whileBody
  by_cases hsp : isSpace uc c = true
  · rw [if_pos hsp]
    by_cases he : i + 1 = qlen text
    · left; exact ⟨[], by simp [he], hnil⟩
    · obtain ⟨d, hd⟩ := charAt_lt text (i + 1) (by omega) (by omega)
      rw [if_neg he, hd]
      by_cases hdl : isLetter uc d = true
      · right; right
        exact ⟨[], i + 1, by simp [hdl], by omega, by omega, hnil⟩
      · right; left
        exact ⟨[], i + 1, by simp [hdl], by omega, by omega, hnil⟩
  · rw [if_neg hsp]
    have hA : ¬ (cfg.comment.val = 0 ∧ c = '/') := fun h => hs1 h.2
    have hB : ¬ c = cfg.comment := by rw [hc]; exact hs4
    rw [if_neg hA, if_neg hB]
    by_cases hn : isNumber uc c = true
    · rw [if_pos hn]
      obtain ⟨sp, j, h, _, hj1, hj2, hall⟩ := highlightIntegerLiterals_spec text i c hci
      rw [h]
      have hcat : ∀ s ∈ sp, s.cat ≠ .CodeComment := by
        intro s hs; rw [(hall s hs).1]; decide
      rcases whileTail_cases text sp j st hj2 with ⟨e, _⟩ | ⟨e, hjl⟩
      · right; right
        exact ⟨sp, j, e, hj1, hj2, hcat⟩
      · right; left
        exact ⟨sp, j + 1, e, by omega, by omega, hcat⟩
    · rw [if_neg hn]
      have hq : ¬ (c = '"' ∨ c = '\'') := by
        rintro (h | h)
        · exact hs2 h
        · exact hs3 h
      rw [if_neg hq]
      rcases whileTail_cases text [] i st h1 with ⟨_, e2⟩ | ⟨e, _⟩
      · omega
      · right; left
        exact ⟨[], i + 1, e, by omega, by omega, hnil⟩

theorem noCommentRun_after (st : Int) (sp : List Span) (r : Result)
    (hsp : ∀ s ∈ sp, s.cat ≠ .CodeComment) (hr : NoCommentRun st r) :
    NoCommentRun st (r.after sp) := by
  refine ⟨hr.1, hr.2.1, ?_⟩
  intro s hs
  rw [after_spans] at hs
  rcases List.mem_append.1 hs with h | h
  · exact hsp s h
  · exact hr.2.2 s h

theorem scanLoop_while_ret (cfg : LangConfig) (text : List Char) (f : Nat) (i st : Int)
    (sp : List Span) (st1 : Int) (h : whileHead uc cfg text f i st = .ret sp st1) :
    scanLoop uc cfg text (f + 1) false i st = ⟨sp, st1, .returned⟩ := by
  rw [scanLoop]; simp only [Bool.false_eq_true, if_false]; rw [h]

theorem scanLoop_while_next (cfg : LangConfig) (text : List Char) (f : Nat) (i st : Int)
    (sp : List Span) (j st1 : Int) (h : whileHead uc cfg text f i st = .whileHead sp j st1) :
    scanLoop uc cfg text (f + 1) false i st = (scanLoop uc cfg text f false j st1).after sp := by
  rw [scanLoop]; simp only [Bool.false_eq_true, if_false]; rw [h]

theorem scanLoop_while_word (cfg : LangConfig) (text : List Char) (f : Nat) (i st : Int)
    (sp : List Span) (j st1 : Int) (sp2 : List Span) (k : Int)
    (h : whileHead uc cfg text f i st = .afterWhile sp j st1)
    (hw : classifyWord uc cfg st1 text j = some (sp2, k)) :
    scanLoop uc cfg text (f + 1) false i st =
      (scanLoop uc cfg text f true (k + 1) st1).after (sp ++ sp2) := by
  rw [scanLoop]; simp only [Bool.false_eq_true, if_false]; rw [h]; simp only [hw]

theorem scanLoop_for_even (cfg : LangConfig) (text : List Char) (f : Nat) (i st : Int)
    (hi : i < qlen text) (hst : st % 2 = 0) :
    scanLoop uc cfg text (f + 1) true i st = (scanLoop uc cfg text f false i st).after [] := by
  have : ¬ st % 2 ≠ 0 := by omega
  rw [scanLoop]; simp only [if_true, forHead, hi, this, if_false]

theorem scanLoop_for_done (cfg : LangConfig) (text : List Char) (f : Nat) (i st : Int)
    (hi : qlen text ≤ i) :
    scanLoop uc cfg text (f + 1) true i st = ⟨[], st, .completed⟩ := by
  have : ¬ i < qlen text := by omega
  rw [scanLoop]; simp only [if_true, forHead, this, if_false]

/-- From a cursor `n` on, the text holds no `/`, no quote and no U+0000: in a
language without line-comment character and from an even state, every run of the
main loop started at or after `n` ends (with enough fuel), keeps the state and emits
no Comment span. -/
theorem scanLoop_plain (cfg : LangConfig) (text : List Char) (st n : Int)
    (hc : cfg.comment = Char.ofNat 0) (hst : st % 2 = 0) (hn : 0 ≤ n)
    (hp : ∀ j, n ≤ j → ∀ ch, charAt text j = some ch →
      ch ≠ '/' ∧ ch ≠ '"' ∧ ch ≠ '\'' ∧ ch ≠ Char.ofNat 0) :
    ∀ fuel : Nat,
      (∀ i, n ≤ i → i ≤ qlen text + 1 → (2 * (qlen text + 1 - i) + 1).toNat ≤ fuel →
        NoCommentRun st (scanLoop uc cfg text fuel true i st)) ∧
      (∀ i, n ≤ i → i ≤ qlen text → (2 * (qlen text + 1 - i)).toNat ≤ fuel →
        NoCommentRun st (scanLoop uc cfg text fuel false i st)) := by
  intro fuel
  induction fuel with
  | zero =>
    constructor
    · intro i _ h2 h3; omega
    · intro i _ h2 h3; omega
  | succ f ih =>
    constructor
    · intro i h1 h2 h3
      by_cases hlt : i < qlen text
      · rw [scanLoop_for_even cfg text f i st hlt hst]
        exact noCommentRun_after st [] _ (fun s hs => by cases hs)
          (ih.2 i h1 (by omega) (by omega))
      · rw [scanLoop_for_done cfg text f i st (by omega)]
        exact ⟨Or.inl rfl, rfl, fun s hs => by cases hs⟩
    · intro i h1 h2 h3
      rcases whileHead_plain cfg text f i st hc (by omega) h2 (hp i h1) with
        ⟨sp, h, hsp⟩ | ⟨sp, j, h, hj1, hj2, hsp⟩ | ⟨sp, j, h, hj1, hj2, hsp⟩
      · rw [scanLoop_while_ret cfg text f i st sp st h]
        exact ⟨Or.inr rfl, rfl, hsp⟩
      · rw [scanLoop_while_next cfg text f i st sp j st h]
        exact noCommentRun_after st sp _ hsp (ih.2 j (by omega) hj2 (by omega))
      · obtain ⟨sp2, k, hw, hk1, hk2, hcat⟩ := classifyWord_bounds cfg st text j (by omega) hj2
        rw [scanLoop_while_word cfg text f i st sp j st sp2 k h hw]
        refine noCommentRun_after st _ _ ?_ (ih.1 (k + 1) (by omega) (by omega) (by omega))
        intro s hs
        rcases List.mem_append.1 hs with h' | h'
        · exact hsp s h'
        · have := hcat s h'
          intro hcm; rw [hcm] at this; cases this

/-! ## Theorems: comment carried over two blocks -/

theorem findFrom_closer_append (b c : List Char) :
    ∀ base : Nat,
      findFrom (fun s => ['*', '/'].isPrefixOf s) (b ++ ['*', '/']) base = some (base + b.length) →
      findFrom (fun s => ['*', '/'].isPrefixOf s) (b ++ '*' :: '/' :: c) base =
        some (base + b.length) := by
  induction b with
  | nil => intro base _; simp [findFrom, List.isPrefixOf]
  | cons x b ih =>
    intro base h
    have hx : ['*', '/'].isPrefixOf (x :: b ++ ['*', '/']) =
        ['*', '/'].isPrefixOf (x :: b ++ '*' :: '/' :: c) := by
      cases b with
      | nil => simp [List.isPrefixOf]
      | cons y b => simp [List.isPrefixOf]
    have h' : (if ['*', '/'].isPrefixOf (x :: b ++ ['*', '/']) = true then some base
        else findFrom (fun s => ['*', '/'].isPrefixOf s) (b ++ ['*', '/']) (base + 1)) =
        some (base + (x :: b).length) := h
    show (if ['*', '/'].isPrefixOf (x :: b ++ '*' :: '/' :: c) = true then some base
        else findFrom (fun s => ['*', '/'].isPrefixOf s) (b ++ '*' :: '/' :: c) (base + 1)) =
        some (base + (x :: b).length)
    rw [← hx]
    by_cases hp : ['*', '/'].isPrefixOf (x :: b ++ ['*', '/']) = true
    · rw [if_pos hp] at h'
      simp at h'
    · rw [if_neg hp] at h' ⊢
      have e : base + (x :: b).length = base + 1 + b.length := by simp; omega
      rw [e] at h' ⊢
      exact ih (base + 1) h'

theorem indexOfStr_closer_append (b c : List Char)
    (h : indexOfStr (b ++ ['*', '/']) ['*', '/'] = b.length) :
    indexOfStr (b ++ '*' :: '/' :: c) ['*', '/'] = b.length := by
  unfold indexOfStr at h ⊢
  have key := findFrom_closer_append b c 0
  cases hf : findFrom (fun s => ['*', '/'].isPrefixOf s) (b ++ ['*', '/']) 0 with
  | none => rw [hf] at h; simp at h
  | some k =>
    rw [hf] at h
    simp only at h
    have hk : k = 0 + b.length := by omega
    rw [key (by rw [hf, hk])]
    simp

theorem charAt_after_closer (b c : List Char) (j : Int) (ch : Char)
    (hj : (b.length : Int) + 2 ≤ j) (h : charAt (b ++ '*' :: '/' :: c) j = some ch) : ch ∈ c := by
  have ht : b ++ '*' :: '/' :: c = (b ++ ['*', '/']) ++ c := by simp
  have hl : ((b ++ ['*', '/']).length : Int) = (b.length : Int) + 2 := by simp
  have := charAt_append (b ++ ['*', '/']) c (j - ((b.length : Int) + 2)) (by omega)
  rw [hl] at this
  have e : (b.length : Int) + 2 + (j - ((b.length : Int) + 2)) = j := by omega
  rw [e, ← ht, h] at this
  exact charAt_mem c _ ch this.symm

/-- The comment carry of C1 for texts without U+0000: in a language without
line-comment character and with even base state `L`, the first block `/*` ++ `a`
(no `*/` in it) gets the default span and a Comment span over the whole block and
ends in the state `L + 1`; the next block `b` ++ `*/` ++ `c` (first `*/` at `len b`,
no `/`, quote or U+0000 in `c`), entered with that state, gets the Comment span
`(0, len b + 2)`, no other Comment span, and ends in the state `L`. -/
theorem comment_carry_without_nul (cfg1 cfg2 : LangConfig) (L prev : Int) (a b c : List Char)
    (hL : L % 2 = 0) (h1 : cfg1.comment = Char.ofNat 0) (h2 : cfg2.comment = Char.ofNat 0)
    (ha : indexOfStr ('/' :: '*' :: a) ['*', '/'] = -1)
    (hb : indexOfStr (b ++ ['*', '/']) ['*', '/'] = b.length)
    (hc : ∀ ch ∈ c, ch ≠ '/' ∧ ch ≠ '"' ∧ ch ≠ '\'' ∧ ch ≠ Char.ofNat 0)
    (fuel : Nat) (hfuel : 2 * c.length + 4 ≤ fuel) :
    genericScan uc cfg1 ('/' :: '*' :: a) (entryState true prev L) fuel =
      ⟨[⟨0, qlen ('/' :: '*' :: a), .CodeBlock⟩, ⟨0, qlen ('/' :: '*' :: a), .CodeComment⟩],
        L + 1, .returned⟩ ∧
    ∃ rest ex, genericScan uc cfg2 (b ++ '*' :: '/' :: c) (entryState false (L + 1) L) fuel =
        ⟨⟨0, qlen (b ++ '*' :: '/' :: c), .CodeBlock⟩ :: ⟨0, (b.length : Int) + 2, .CodeComment⟩ ::
          rest, L, ex⟩ ∧
      (ex = .completed ∨ ex = .returned) ∧ ∀ s ∈ rest, s.cat ≠ .CodeComment := by
  obtain ⟨f, rfl⟩ : ∃ f, fuel = f + 2 := ⟨fuel - 2, by omega⟩
  constructor
  · -- first block
    have hlen : (1 : Int) < qlen ('/' :: '*' :: a) := by simp [qlen]
    have hlen0 : (0 : Int) < qlen ('/' :: '*' :: a) := by omega
    have hodd : ¬ L % 2 ≠ 0 := by omega
    have hcv : cfg1.comment.val = 0 := by rw [h1]; rfl
    have hw : whileHead uc cfg1 ('/' :: '*' :: a) f 0 L =
        .ret [⟨0, qlen ('/' :: '*' :: a), .CodeComment⟩] (L + 1) := by
      have c0 : charAt ('/' :: '*' :: a) 0 = some '/' := by simp [charAt]
      have c1 : charAt ('/' :: '*' :: a) 1 = some '*' := by simp [charAt]
      have hsp : isSpace uc '/' = false := rfl
      have hlt : isLetter uc '/' = false := rfl
      simp [whileHead, hlen0, c0, hlt, whileBody, hsp, hcv, hlen, c1, commentPart, ha, hL]
    simp only [genericScan, entryState, if_true, List.isEmpty_cons, Bool.false_eq_true, if_false]
    rw [scanLoop_for_even cfg1 _ (f + 1) 0 L hlen0 hL, scanLoop_while_ret cfg1 _ f 0 L _ _ hw]
    rfl
  · -- second block
    have hne : ¬ L + 1 = L := by omega
    have hodd : (L + 1) % 2 ≠ 0 := by omega
    have hidx := indexOfStr_closer_append b c hb
    have hlen : qlen (b ++ '*' :: '/' :: c) = (b.length : Int) + 2 + c.length := by
      simp [qlen]; omega
    have hemp : (b ++ '*' :: '/' :: c).isEmpty = false := by
      cases b <;> simp
    have hpos : (0 : Int) < qlen (b ++ '*' :: '/' :: c) := by omega
    have hm1 : ¬ ((b.length : Int) = -1) := by omega
    simp only [genericScan, entryState, hne, hemp, Bool.false_eq_true, if_false]
    by_cases hcn : c = []
    · -- the closer ends the block
      subst hcn
      have hge : (b.length : Int) + 2 ≥ qlen (b ++ ['*', '/']) := by simp [qlen]
      have hfor : forHead (b ++ ['*', '/']) 0 (L + 1) =
          .ret [⟨0, (b.length : Int) + 2, .CodeComment⟩] L := by
        simp [forHead, hpos, hodd, commentPart, hidx, hm1, hge]
      refine ⟨[], .returned, ?_, Or.inr rfl, fun s hs => by cases hs⟩
      rw [scanLoop]; simp only [if_true]; rw [hfor]; rfl
    · have hcl : 0 < c.length := List.length_pos.2 hcn
      have hlt : ¬ ((b.length : Int) + 2 ≥ qlen (b ++ '*' :: '/' :: c)) := by omega
      have hfor : forHead (b ++ '*' :: '/' :: c) 0 (L + 1) =
          .whileHead [⟨0, (b.length : Int) + 2, .CodeComment⟩] ((b.length : Int) + 2 + 1) L := by
        simp [forHead, hpos, hodd, commentPart, hidx, hm1, hlt, whileTail]
      have hrun := (@scanLoop_plain uc cfg2 (b ++ '*' :: '/' :: c) L ((b.length : Int) + 2) h2 hL
        (by omega) (fun j hj ch hch => hc ch (charAt_after_closer b c j ch hj hch)) (f + 1)).2
        ((b.length : Int) + 2 + 1) (by omega) (by omega) (by omega)
      refine ⟨(scanLoop uc cfg2 (b ++ '*' :: '/' :: c) (f + 1) false ((b.length : Int) + 2 + 1)
        L).spans, (scanLoop uc cfg2 (b ++ '*' :: '/' :: c) (f + 1) false ((b.length : Int) + 2 + 1)
        L).exit, ?_, hrun.1, hrun.2.2⟩
      rw [scanLoop]; simp only [if_true]; rw [hfor]
      simp only [Result.after, List.singleton_append, List.cons_append, List.nil_append,
        hrun.2.1]

/-- C1 (evaluation of the code): in a language without line-comment character the
`else if` of line 274 compares the character with the null `QChar` without the
`isNull()` test of line 243. The block `end */` ++ two spaces ++ U+0000, entered in
the comment state 201, gets the Comment span `(0, 6)` and a second Comment span
`(8, 9)` at the U+0000 character, beyond the end of the comment. -/
theorem comment_carry_nul_character (t k b l o : WordTable) (cpp : Int) :
    genericScan uc ⟨t, k, b, l, o, Char.ofNat 0, cpp⟩
        ['e', 'n', 'd', ' ', '*', '/', ' ', ' ', Char.ofNat 0] (entryState false 201 200) 20 =
      ⟨[⟨0, 9, .CodeBlock⟩, ⟨0, 6, .CodeComment⟩, ⟨8, 9, .CodeComment⟩], 200, .completed⟩ := by
  rfl
/-! ## Scanning up to a line comment -/

theorem digitRunEnd_within (text : List Char) (i B : Int) (b : Char) (h0 : 0 ≤ i) (h1 : i ≤ B)
    (hB : charAt text B = some b) (hbn : isNumber uc b = false) (hbd : b ≠ '.') :
    digitRunEnd uc text i ≤ B := by
  have hget : (text.drop i.toNat).get? (B - i).toNat = some b := by
    rw [charAt_drop]
    have e : ((i.toNat : Nat) : Int) + (((B - i).toNat : Nat) : Int) = B := by omega
    rw [e, hB]
  have := takeWhile_length_le (fun c => isNumber uc c || c == '.') _ _ b hget
    (by simp [hbn, hbd])
  unfold digitRunEnd
  omega

theorem suffixChars_letter (c : Char) (h : suffixChars.contains (toLatin1 c) = true) :
    isLetter uc c = true := by
  unfold toLatin1 at h
  split at h
  · exact absurd h (by decide)
  · simp only [suffixChars, List.contains_iff_exists_mem_beq, List.mem_cons, List.mem_singleton,
      List.not_mem_nil, or_false, beq_iff_eq] at h
    obtain ⟨a, ha, rfl⟩ := h
    rcases ha with rfl | rfl | rfl | rfl | rfl | rfl <;> rfl

/-- The number helper at a cursor before a character `b` at `B` that is neither a
letter nor a number nor `.`: the returned cursor does not pass `B` and every span
ends at the returned cursor. -/
theorem highlightIntegerLiterals_before (text : List Char) (i B : Int) (d b : Char)
    (hd : charAt text i = some d) (hB : charAt text B = some b)
    (hbl : isLetter uc b = false) (hbn : isNumber uc b = false) (hbd : b ≠ '.') (hiB : i < B) :
    ∃ sp j, highlightIntegerLiterals uc text i = some (sp, j) ∧ i ≤ j ∧ j ≤ B ∧
      ∀ s ∈ sp, s.cat = .CodeNumLiteral ∧ s.start + s.count ≤ j := by
  have hb := charAt_bounds text i d hd
  have hbB := charAt_bounds text B b hB
  have hpre : ∃ pre : Bool, (if i = 0 then some true
      else (charAt text (i - 1)).map (fun c => preNumChars.contains (toLatin1 c))) = some pre := by
    by_cases h0 : i = 0
    · exact ⟨true, by simp [h0]⟩
    · obtain ⟨e, he⟩ := charAt_lt text (i - 1) (by omega) (by omega)
      exact ⟨preNumChars.contains (toLatin1 e), by simp [h0, he]⟩
  obtain ⟨pre, hpre1⟩ := hpre
  unfold highlightIntegerLiterals
  rw [hpre1]
  simp only [Option.bind_eq_bind, Option.some_bind]
  have hlast : ¬ i + 1 ≥ qlen text := by omega
  rw [if_neg hlast]
  obtain ⟨c1, hc1⟩ := charAt_lt text (i + 1) (by omega) (by omega)
  have hsub : i + 1 - 1 = i := by omega
  rw [hc1, hsub, hd]
  simp only [Option.some_bind, Option.map_some']
  obtain ⟨i2, hi2, hi2a, hi2b⟩ : ∃ i2 : Int, (if c1 = 'x' then
      some (if d = '0' then i + 1 + 1 else i + 1) else some (i + 1)) = some i2 ∧
      i + 1 ≤ i2 ∧ i2 ≤ B := by
    by_cases hx : c1 = 'x'
    · have hne : i + 1 ≠ B := by
        intro he; rw [he, hB] at hc1
        have := Option.some.inj hc1
        rw [this, hx, show isLetter uc 'x' = true from rfl] at hbl; exact absurd hbl (by decide)
      by_cases hz : d = '0'
      · exact ⟨i + 1 + 1, by simp [hx, hz], by omega, by omega⟩
      · exact ⟨i + 1, by simp [hx, hz], by omega, by omega⟩
    · exact ⟨i + 1, by simp [hx], by omega, by omega⟩
  rw [hi2]
  simp only [Option.some_bind]
  cases pre with
  | false =>
    exact ⟨[], i2, by simp, by omega, by omega, fun s hs => by cases hs⟩
  | true =>
    have hr := @digitRunEnd_bounds uc text i2 (by omega) (by omega)
    have hrB := @digitRunEnd_within uc text i2 B b (by omega) hi2b hB hbn hbd
    simp only [if_true]
    have hsimp : digitRunEnd uc text i2 - 1 + 1 = digitRunEnd uc text i2 := by omega
    rw [hsimp]
    have hend : ¬ digitRunEnd uc text i2 = qlen text := by omega
    rw [if_neg hend]
    obtain ⟨n, hn⟩ := charAt_lt text (digitRunEnd uc text i2) (by omega) (by omega)
    rw [hn]
    simp only [Option.some_bind]
    by_cases hpost : postNumChars.contains (toLatin1 n) = true
    · rw [if_pos hpost]
      refine ⟨_, _, rfl, by omega, by omega, ?_⟩
      intro s hs
      simp only [List.mem_singleton] at hs
      subst hs
      exact ⟨rfl, by show i + (digitRunEnd uc text i2 - i) ≤ digitRunEnd uc text i2; omega⟩
    · rw [if_neg hpost]
      by_cases hsuf : suffixChars.contains (toLatin1 n) = true
      · rw [if_pos hsuf]
        have hne : digitRunEnd uc text i2 ≠ B := by
          intro he; rw [he, hB] at hn
          have := Option.some.inj hn
          have hnl := @suffixChars_letter uc n hsuf
          rw [← this, hbl] at hnl
          exact absurd hnl (by decide)
        refine ⟨_, _, rfl, by omega, by omega, ?_⟩
        intro s hs
        simp only [List.mem_singleton] at hs
        subst hs
        exact ⟨rfl, by
          show i + (digitRunEnd uc text i2 + 1 - i) ≤ digitRunEnd uc text i2 + 1; omega⟩
      · rw [if_neg hsuf]
        exact ⟨[], _, rfl, by omega, by omega, fun s hs => by cases hs⟩

theorem midRef_covers (text : List Char) (i B : Int) (n : Nat) (c : Char) (h0 : 0 ≤ i)
    (h1 : i ≤ B) (h2 : B < i + (n : Int)) (hB : charAt text B = some c) :
    (midRef text i n).get? (B - i).toNat = some c := by
  simp only [midRef, h0, if_true, List.get?_eq_getElem?]
  rw [List.getElem?_take_of_lt (by omega), ← List.get?_eq_getElem?, charAt_drop]
  have e : ((i.toNat : Nat) : Int) + (((B - i).toNat : Nat) : Int) = B := by omega
  rw [e, hB]

theorem tablesAvoid_fit (cfg : LangConfig) (b : Char) (hfree : TablesAvoid cfg b)
    (text : List Char) (B : Int) (hB : charAt text B = some b) :
    ∀ data ∈ [cfg.types, cfg.keywords, cfg.literals, cfg.builtin, cfg.others],
      ∀ key, ∀ w ∈ data key, ∀ i, 0 ≤ i → i ≤ B →
        (w = midRef text i w.length ∨ w = (midRef text i w.length).map latin1Char) →
        i + (w.length : Int) ≤ B := by
  intro data hdata key w hw i h0 h1 hm
  by_contra hgt
  have hget := midRef_covers text i B w.length b h0 h1 (by omega) hB
  rcases hm with hm | hm
  · rw [← hm] at hget
    exact (hfree data hdata key w hw).1 (List.get?_mem hget)
  · have hget2 : w.get? (B - i).toNat = some (latin1Char b) := by
      rw [hm, List.get?_eq_getElem?, List.getElem?_map, ← List.get?_eq_getElem?, hget]; rfl
    exact (hfree data hdata key w hw).2 (List.get?_mem hget2)

theorem whileHead_at_line_comment (cfg : LangConfig) (text : List Char) (fuel : Nat)
    (p st : Int) (hc : cfg.comment = Char.ofNat 0)
    (hp0 : charAt text p = some '/') (hp1 : charAt text (p + 1) = some '/') :
    whileHead uc cfg text fuel p st = .ret [⟨p, qlen text, .CodeComment⟩] st := by
  have hb := charAt_bounds text p '/' hp0
  have hb1 := charAt_bounds text (p + 1) '/' hp1
  have hcv : cfg.comment.val = 0 := by rw [hc]; rfl
  have hl : isLetter uc '/' = false := rfl
  have hs : isSpace uc '/' = false := rfl
  simp [whileHead, hb.2, hp0, hl, whileBody, hs, hcv, hb1.2, hp1]

/-- One visit of the head of the `while` loop at a cursor `i` that holds no quote
character, no U+0000 and no start of a comment, at or before a character `b` at
`B` that is neither a letter nor a number nor `.`: whatever the fuel, control goes
back to the head with a cursor beyond `i`, or to the word classification at a
letter; the cursor does not pass `B + 1`, and the spans emitted are no Comment
spans and end at or before the new cursor. -/
theorem whileHead_step (cfg : LangConfig) (text : List Char) (i B st : Int) (b c : Char)
    (hc : cfg.comment = Char.ofNat 0) (h0 : 0 ≤ i) (hiB : i ≤ B)
    (hB : charAt text B = some b) (hB1 : B + 1 < qlen text)
    (hbl : isLetter uc b = false) (hbn : isNumber uc b = false) (hbd : b ≠ '.')
    (hci : charAt text i = some c) (hq1 : c ≠ '"') (hq2 : c ≠ '\'') (hnul : c ≠ Char.ofNat 0)
    (hslash : c = '/' → charAt text (i + 1) ≠ some '/' ∧ charAt text (i + 1) ≠ some '*') :
    ∃ sp j, (((∀ f, whileHead uc cfg text f i st = .whileHead sp j st) ∧ i < j) ∨
        ((∀ f, whileHead uc cfg text f i st = .afterWhile sp j st) ∧
          ∃ d, charAt text j = some d ∧ isLetter uc d = true)) ∧
      i ≤ j ∧ j ≤ B + 1 ∧ ∀ s ∈ sp, s.cat ≠ .CodeComment ∧ s.start + s.count ≤ j := by
  have hlt : i < qlen text := by omega
  by_cases hl : isLetter uc c = true
  · have hne : i ≠ B := by
      intro h; rw [h, hB] at hci
      have := Option.some.inj hci
      rw [this, hl] at hbl; exact absurd hbl (by decide)
    exact ⟨[], i, Or.inr ⟨fun f => by simp [whileHead, hlt, hci, hl], c, hci, hl⟩, le_refl _,
      by omega, fun s hs => by cases hs⟩
  have hl' : isLetter uc c = false := by simpa using hl
  have hw : ∀ f, whileHead uc cfg text f i st = whileBody uc cfg text f i st c := by
    intro f; simp [whileHead, hlt, hci, hl']
  have hstep : whileTail text [] i st = .whileHead [] (i + 1) st := by
    have : ¬ i ≥ qlen text := by omega
    simp [whileTail, this]
  have hplain : ∀ j : Int, i < j → j ≤ B + 1 → (∀ f, whileBody uc cfg text f i st c =
      .whileHead [] j st) → ∃ sp j, (((∀ f, whileHead uc cfg text f i st = .whileHead sp j st) ∧
        i < j) ∨ ((∀ f, whileHead uc cfg text f i st = .afterWhile sp j st) ∧
          ∃ d, charAt text j = some d ∧ isLetter uc d = true)) ∧
      i ≤ j ∧ j ≤ B + 1 ∧ ∀ s ∈ sp, s.cat ≠ .CodeComment ∧ s.start + s.count ≤ j :=
    fun j h1 h2 h => ⟨[], j, Or.inl ⟨fun f => by rw [hw, h], h1⟩, by omega, h2,
      fun s hs => by cases hs⟩
  by_cases hs : isSpace uc c = true
  · have he : ¬ i + 1 = qlen text := by omega
    obtain ⟨d, hd⟩ := charAt_lt text (i + 1) (by omega) (by omega)
    by_cases hdl : isLetter uc d = true
    · refine ⟨[], i + 1, Or.inr ⟨fun f => ?_, d, hd, hdl⟩, by omega, by omega,
        fun s hs => by cases hs⟩
      rw [hw]; unfold whileBody; rw [if_pos hs, if_neg he, hd]; simp [hdl]
    · refine hplain (i + 1) (by omega) (by omega) (fun f => ?_)
      unfold whileBody; rw [if_pos hs, if_neg he, hd]; simp [hdl]
  · by_cases hsl : c = '/'
    · have hcv : cfg.comment.val = 0 := by rw [hc]; rfl
      have hA : cfg.comment.val = 0 ∧ c = '/' := ⟨hcv, hsl⟩
      have hi1 : i + 1 < qlen text := by omega
      obtain ⟨e, he⟩ := charAt_lt text (i + 1) (by omega) hi1
      have hne := hslash hsl
      rw [he] at hne
      have e1 : ¬ e = '/' := fun h => hne.1 (by rw [h])
      have e2 : ¬ e = '*' := fun h => hne.2 (by rw [h])
      refine hplain (i + 1) (by omega) (by omega) (fun f => ?_)
      unfold whileBody
      rw [if_neg hs, if_pos hA, if_pos hi1, he]
      simp only [e1, e2, if_false, hstep]
    · have hA : ¬ (cfg.comment.val = 0 ∧ c = '/') := fun h => hsl h.2
      have hC : ¬ c = cfg.comment := by rw [hc]; exact hnul
      by_cases hn : isNumber uc c = true
      · have hiB2 : i < B := by
          have : i ≠ B := by
            intro h; rw [h, hB] at hci
            have := Option.some.inj hci
            rw [this, hn] at hbn; exact absurd hbn (by decide)
          omega
        obtain ⟨sp, j, h, hj1, hj2, hall⟩ :=
          @highlightIntegerLiterals_before uc text i B c b hci hB hbl hbn hbd hiB2
        have hjl : ¬ j ≥ qlen text := by omega
        refine ⟨sp, j + 1, Or.inl ⟨fun f => ?_, by omega⟩, by omega, by omega, ?_⟩
        · rw [hw]; unfold whileBody
          rw [if_neg hs, if_neg hA, if_neg hC, if_pos hn, h]
          simp [whileTail, hjl]
        · intro s hs'
          have := hall s hs'
          exact ⟨by rw [this.1]; decide, by omega⟩
      · have hq : ¬ (c = '"' ∨ c = '\'') := by
          rintro (h | h)
          · exact hq1 h
          · exact hq2 h
        refine hplain (i + 1) (by omega) (by omega) (fun f => ?_)
        unfold whileBody
        rw [if_neg hs, if_neg hA, if_neg hC, if_neg hn, if_neg hq, hstep]

/-! The spans of the word classification end at or before the returned cursor. -/

theorem matchLoop_upto (text : List Char) (same : List Char → List Char → Bool)
    (mk : Int → Nat → Span) (P : Span → Int → Prop)
    (hmk : ∀ (j : Int) (n : Nat) (k : Int), j + n ≤ k → P (mk j n) k) :
    ∀ (words : List (List Char)) (i : Int) (sp : List Span) (j : Int),
      matchLoop uc text same mk words i = some (sp, j) → i ≤ j ∧ ∀ s ∈ sp, P s j := by
  intro words
  induction words with
  | nil =>
    intro i sp j h
    simp only [matchLoop, Option.some.injEq, Prod.mk.injEq] at h
    obtain ⟨rfl, rfl⟩ := h
    exact ⟨le_refl _, fun s hs => by cases hs⟩
  | cons w ws ih =>
    intro i sp j h
    have hemit : (matchLoop uc text same mk ws (i + (w.length : Int))).map
        (fun r => (mk i w.length :: r.1, r.2)) = some (sp, j) → i ≤ j ∧ ∀ s ∈ sp, P s j := by
      intro h
      cases hr : matchLoop uc text same mk ws (i + (w.length : Int)) with
      | none => rw [hr] at h; cases h
      | some r =>
        obtain ⟨sp1, j1⟩ := r
        rw [hr] at h
        simp only [Option.map_some', Option.some.injEq, Prod.mk.injEq] at h
        obtain ⟨rfl, rfl⟩ := h
        obtain ⟨a, b⟩ := ih _ _ _ hr
        refine ⟨by omega, ?_⟩
        intro s hs
        rcases List.mem_cons.1 hs with rfl | hs
        · exact hmk _ _ _ a
        · exact b s hs
    rw [matchLoop] at h
    by_cases hm : same w (midRef text i w.length) = true
    · rw [if_pos hm] at h
      by_cases he : i + (w.length : Int) = qlen text
      · rw [if_pos he] at h; exact hemit h
      · rw [if_neg he] at h
        cases hc : charAt text (i + (w.length : Int)) with
        | none => rw [hc] at h; cases h
        | some c =>
          rw [hc] at h
          simp only [Option.some_bind] at h
          by_cases hl : isLetter uc c = true
          · simp only [hl, Bool.not_true, Bool.false_eq_true, if_false] at h
            exact ih _ _ _ h
          · have hl' : isLetter uc c = false := by simpa using hl
            simp only [hl', Bool.not_false, if_true] at h
            exact hemit h
    · rw [if_neg hm] at h
      exact ih _ _ _ h

theorem tableStep_upto (data : WordTable) (text : List Char)
    (same : List Char → List Char → Bool) (mk : Int → Nat → Span) (P : Span → Int → Prop)
    (hmk : ∀ (j : Int) (n : Nat) (k : Int), j + n ≤ k → P (mk j n) k)
    (i : Int) (sp : List Span) (j : Int)
    (h : (atWordStart uc data text i).bind (fun b =>
        if b = true then
          (charAt text i).bind (fun c => matchLoop uc text same mk (data (toLatin1 c)) i)
        else some ([], i)) = some (sp, j)) : i ≤ j ∧ ∀ s ∈ sp, P s j := by
  have hidle : (some ([], i) : Option (List Span × Int)) = some (sp, j) →
      i ≤ j ∧ ∀ s ∈ sp, P s j := by
    intro h
    simp only [Option.some.injEq, Prod.mk.injEq] at h
    obtain ⟨rfl, rfl⟩ := h
    exact ⟨le_refl _, fun s hs => by cases hs⟩
  cases ha : atWordStart uc data text i with
  | none => rw [ha] at h; cases h
  | some a =>
    rw [ha] at h
    simp only [Option.some_bind] at h
    cases a with
    | false => exact hidle (by simpa using h)
    | true =>
      simp only [if_true] at h
      cases hc : charAt text i with
      | none => rw [hc] at h; cases h
      | some c =>
        rw [hc] at h
        exact matchLoop_upto text same mk P hmk _ _ _ _ h

theorem stage_upto (text : List Char) (P : Span → Int → Prop)
    (hmono : ∀ s (j k : Int), j ≤ k → P s j → P s k) (i : Int)
    (r : Option (List Span × Int)) (k : Int → Option (List Span × Int))
    (hr : ∀ sp j, r = some (sp, j) → i ≤ j ∧ ∀ s ∈ sp, P s j)
    (hk : ∀ j, i ≤ j → ∀ sp j', k j = some (sp, j') → j ≤ j' ∧ ∀ s ∈ sp, P s j')
    (sp : List Span) (j : Int) (h : unlessWordEnd uc text i (thenAt r k) = some (sp, j)) :
    i ≤ j ∧ ∀ s ∈ sp, P s j := by
  unfold unlessWordEnd at h
  cases he : atWordEnd uc text i with
  | none => rw [he] at h; cases h
  | some e =>
    rw [he] at h
    cases e with
    | true =>
      simp only [Option.some.injEq, Prod.mk.injEq] at h
      obtain ⟨rfl, rfl⟩ := h
      exact ⟨le_refl _, fun s hs => by cases hs⟩
    | false =>
      simp only at h
      unfold thenAt at h
      cases hr1 : r with
      | none => rw [hr1] at h; cases h
      | some q =>
        obtain ⟨sp1, j1⟩ := q
        rw [hr1] at h
        simp only at h
        cases hk1 : k j1 with
        | none => rw [hk1] at h; cases h
        | some q2 =>
          obtain ⟨sp2, j2⟩ := q2
          rw [hk1] at h
          simp only [Option.map_some', Option.some.injEq, Prod.mk.injEq] at h
          obtain ⟨rfl, rfl⟩ := h
          obtain ⟨a1, b1⟩ := hr sp1 j1 hr1
          obtain ⟨a2, b2⟩ := hk j1 a1 sp2 _ hk1
          refine ⟨by omega, ?_⟩
          intro s hs
          rcases List.mem_append.1 hs with hs | hs
          · exact hmono s j1 _ a2 (b1 s hs)
          · exact b2 s hs

/-- Lines 292-350, for any tables and any cursor: when the classification returns,
the cursor has not moved backwards and every span emitted is a word span that ends
at or before the returned cursor. -/
theorem classifyWord_upto (cfg : LangConfig) (st : Int) (text : List Char) (i : Int)
    (sp : List Span) (j : Int) (h : classifyWord uc cfg st text i = some (sp, j)) :
    i ≤ j ∧ ∀ s ∈ sp, isWordCategory s.cat = true ∧ s.start + s.count ≤ j := by
  have hmono : ∀ (s : Span) (j k : Int), j ≤ k →
      (isWordCategory s.cat = true ∧ s.start + s.count ≤ j) →
      (isWordCategory s.cat = true ∧ s.start + s.count ≤ k) :=
    fun s j k hjk hs => ⟨hs.1, by omega⟩
  have hmkw : ∀ cat, isWordCategory cat = true → ∀ (j : Int) (n : Nat) (k : Int), j + n ≤ k →
      (fun (s : Span) (k : Int) => isWordCategory s.cat = true ∧ s.start + s.count ≤ k)
        ((fun (j : Int) (n : Nat) => (⟨j, n, cat⟩ : Span)) j n) k :=
    fun cat hcat j n k hjn => ⟨hcat, hjn⟩
  unfold classifyWord at h
  refine stage_upto text (fun (s : Span) (k : Int) => isWordCategory s.cat = true ∧ s.start + s.count ≤ k)
    hmono i _ _ (fun sp0 j0 h0 => ?_) (fun i1 a1 => ?_) sp j h
  · rw [applyCodeFormat_eq] at h0
    exact tableStep_upto _ text _ _ (fun (s : Span) (k : Int) => isWordCategory s.cat = true ∧ s.start + s.count ≤ k)
      (hmkw .CodeType rfl) i sp0 j0 h0
  refine stage_upto text (fun (s : Span) (k : Int) => isWordCategory s.cat = true ∧ s.start + s.count ≤ k)
    hmono i1 _ _ (fun sp0 j0 h0 => ?_) (fun i2 a2 => ?_)
  · rw [applyCodeFormat_eq] at h0
    exact tableStep_upto _ text _ _ (fun (s : Span) (k : Int) => isWordCategory s.cat = true ∧ s.start + s.count ≤ k)
      (hmkw .CodeKeyWord rfl) i1 sp0 j0 h0
  refine stage_upto text (fun (s : Span) (k : Int) => isWordCategory s.cat = true ∧ s.start + s.count ≤ k)
    hmono i2 _ _ (fun sp0 j0 h0 => ?_) (fun i3 a3 => ?_)
  · rw [applyCodeFormat_eq] at h0
    exact tableStep_upto _ text _ _ (fun (s : Span) (k : Int) => isWordCategory s.cat = true ∧ s.start + s.count ≤ k)
      (hmkw .CodeNumLiteral rfl) i2 sp0 j0 h0
  refine stage_upto text (fun (s : Span) (k : Int) => isWordCategory s.cat = true ∧ s.start + s.count ≤ k)
    hmono i3 _ _ (fun sp0 j0 h0 => ?_) (fun i4 a4 => ?_)
  · rw [applyCodeFormat_eq] at h0
    exact tableStep_upto _ text _ _ (fun (s : Span) (k : Int) => isWordCategory s.cat = true ∧ s.start + s.count ≤ k)
      (hmkw .CodeBuiltIn rfl) i3 sp0 j0 h0
  refine stage_upto text (fun (s : Span) (k : Int) => isWordCategory s.cat = true ∧ s.start + s.count ≤ k)
    hmono i4 _ _ (fun sp0 j0 h0 => ?_) (fun i5 a5 => ?_)
  · rw [applyOther_eq] at h0
    refine tableStep_upto _ text _ _ (fun (s : Span) (k : Int) => isWordCategory s.cat = true ∧ s.start + s.count ≤ k)
      ?_ i4 sp0 j0 h0
    intro j n k hjn
    unfold otherSpan
    split
    · exact ⟨rfl, by show j - 1 + ((n : Int) + 1) ≤ k; omega⟩
    · exact ⟨rfl, hjn⟩
  · intro sp0 j0 h0
    simp only [Option.some.injEq, Prod.mk.injEq] at h0
    obtain ⟨rfl, rfl⟩ := h0
    refine ⟨?_, fun s hs => by cases hs⟩
    split
    · unfold skipLetters; omega
    · exact le_refl _

theorem after_after (a b : List Span) (r : Result) : (r.after a).after b = r.after (b ++ a) := by
  simp [Result.after, List.append_assoc]

/-- The run of the main loop up to a visit of the head of the `while` loop listed by
`HeadBefore`: it takes at most `2 * i + 1` visits of loop heads, and the spans
emitted on the way are no Comment spans and end at or before the cursor `i`. -/
theorem headBefore_run (cfg : LangConfig) (text : List Char) (p st : Int)
    (hc : cfg.comment = Char.ofNat 0) (hst : st % 2 = 0)
    (hp0 : charAt text p = some '/') (hp1 : charAt text (p + 1) = some '/')
    (hpre : ∀ j, j < p → ∀ ch, charAt text j = some ch → ch ≠ '"' ∧ ch ≠ '\'' ∧
      ch ≠ Char.ofNat 0 ∧
      (ch = '/' → charAt text (j + 1) ≠ some '/' ∧ charAt text (j + 1) ≠ some '*')) :
    ∀ i, HeadBefore uc cfg text st p i → 0 ≤ i ∧ ∃ n : Nat, (n : Int) ≤ 2 * i + 1 ∧
      ∃ pre, (∀ f, scanLoop uc cfg text (n + f) true 0 st =
          (scanLoop uc cfg text f false i st).after pre) ∧
        ∀ s ∈ pre, s.cat ≠ .CodeComment ∧ s.start + s.count ≤ i := by
  have hbp := charAt_bounds text p '/' hp0
  have hbp1 := charAt_bounds text (p + 1) '/' hp1
  have hstep : ∀ i, 0 ≤ i → i < p → ∃ sp j,
      (((∀ f, whileHead uc cfg text f i st = .whileHead sp j st) ∧ i < j) ∨
        ((∀ f, whileHead uc cfg text f i st = .afterWhile sp j st) ∧
          ∃ d, charAt text j = some d ∧ isLetter uc d = true)) ∧
      i ≤ j ∧ j ≤ p + 1 ∧ ∀ s ∈ sp, s.cat ≠ .CodeComment ∧ s.start + s.count ≤ j := by
    intro i h0 hlt
    obtain ⟨c, hci⟩ := charAt_lt text i h0 (by omega)
    obtain ⟨hq1, hq2, hnul, hslash⟩ := hpre i hlt c hci
    exact whileHead_step cfg text i p st '/' c hc h0 (by omega) hp0 hbp1.2 rfl rfl (by decide)
      hci hq1 hq2 hnul hslash
  intro i h
  induction h with
  | first hq =>
    refine ⟨le_refl _, 1, by decide, [], fun f => ?_, fun s hs => by cases hs⟩
    rw [Nat.add_comm 1 f]
    exact scanLoop_for_even cfg text f 0 st hq hst
  | step i j sp fuel _ hlt hw ih =>
    obtain ⟨h0, n, hn, pre, hrun, hpre2⟩ := ih
    obtain ⟨sp1, j1, hform, hj1, _, hsp⟩ := hstep i h0 hlt
    have hall : (∀ f, whileHead uc cfg text f i st = .whileHead sp j st) ∧ i < j ∧
        ∀ s ∈ sp, s.cat ≠ .CodeComment ∧ s.start + s.count ≤ j := by
      rcases hform with ⟨hf, hlt2⟩ | ⟨hf, _⟩
      · have e := (hf fuel).symm.trans hw
        simp only [Ctl.whileHead.injEq] at e
        obtain ⟨rfl, rfl, _⟩ := e
        exact ⟨hf, hlt2, hsp⟩
      · have e := (hf fuel).symm.trans hw
        cases e
    obtain ⟨hf, hlt2, hsp2⟩ := hall
    refine ⟨by omega, n + 1, by push_cast; omega, pre ++ sp, fun f => ?_, ?_⟩
    · rw [Nat.add_assoc, Nat.add_comm 1 f, hrun (f + 1),
        scanLoop_while_next cfg text f i st sp j st (hf f), after_after]
    · intro s hs
      rcases List.mem_append.1 hs with hs | hs
      · have := hpre2 s hs
        exact ⟨this.1, by omega⟩
      · exact hsp2 s hs
  | word i j k sp sp2 fuel _ hlt hw hcw hk ih =>
    obtain ⟨h0, n, hn, pre, hrun, hpre2⟩ := ih
    obtain ⟨sp1, j1, hform, hj1, _, hsp⟩ := hstep i h0 hlt
    have hall : (∀ f, whileHead uc cfg text f i st = .afterWhile sp j st) ∧ i ≤ j ∧
        ∀ s ∈ sp, s.cat ≠ .CodeComment ∧ s.start + s.count ≤ j := by
      rcases hform with ⟨hf, _⟩ | ⟨hf, _⟩
      · have e := (hf fuel).symm.trans hw
        cases e
      · have e := (hf fuel).symm.trans hw
        simp only [Ctl.afterWhile.injEq] at e
        obtain ⟨rfl, rfl, _⟩ := e
        exact ⟨hf, hj1, hsp⟩
    obtain ⟨hf, hij, hsp2⟩ := hall
    obtain ⟨hjk, hword⟩ := classifyWord_upto cfg st text j sp2 k hcw
    refine ⟨by omega, n + 2, by push_cast; omega, pre ++ (sp ++ sp2), fun f => ?_, ?_⟩
    · rw [Nat.add_assoc, Nat.add_comm 2 f, hrun (f + 2),
        scanLoop_while_word cfg text (f + 1) i st sp j st sp2 k (hf (f + 1)) hcw,
        scanLoop_for_even cfg text f (k + 1) st hk hst, after_after, after_after,
        List.append_nil]
    · intro s hs
      rcases List.mem_append.1 hs with hs | hs
      · have := hpre2 s hs
        exact ⟨this.1, by omega⟩
      · rcases List.mem_append.1 hs with hs | hs
        · have := hsp2 s hs
          exact ⟨this.1, by omega⟩
        · have := hword s hs
          refine ⟨?_, by omega⟩
          intro hcm; rw [hcm] at this; exact absurd this.1 (by decide)

/-- From a visit of the head of the `while` loop at or before `p`, the head is
visited at `p` when the character before `p` is neither a letter nor a number nor
`.` and stands in no table word. -/
theorem headBefore_reach (cfg : LangConfig) (text : List Char) (p st : Int) (b : Char)
    (hc : cfg.comment = Char.ofNat 0)
    (hp0 : charAt text p = some '/')
    (hpre : ∀ j, j < p → ∀ ch, charAt text j = some ch → ch ≠ '"' ∧ ch ≠ '\'' ∧
      ch ≠ Char.ofNat 0 ∧
      (ch = '/' → charAt text (j + 1) ≠ some '/' ∧ charAt text (j + 1) ≠ some '*'))
    (hb : charAt text (p - 1) = some b) (hbl : isLetter uc b = false)
    (hbn : isNumber uc b = false) (hbd : b ≠ '.') (hfree : TablesAvoid cfg b) :
    ∀ (m : Nat) (i : Int), HeadBefore uc cfg text st p i → 0 ≤ i → i ≤ p →
      (p - i).toNat ≤ m → HeadBefore uc cfg text st p p := by
  have hbp := charAt_bounds text p '/' hp0
  intro m
  induction m with
  | zero =>
    intro i h _ h1 hm
    have : i = p := by omega
    rw [this] at h; exact h
  | succ m ih =>
    intro i h h0 h1 hm
    by_cases hip : i = p
    · rw [hip] at h; exact h
    have hlt : i < p := by omega
    obtain ⟨c, hci⟩ := charAt_lt text i h0 (by omega)
    obtain ⟨hq1, hq2, hnul, hslash⟩ := hpre i hlt c hci
    obtain ⟨sp, j, hform, hj1, hj2, _⟩ := whileHead_step cfg text i (p - 1) st b c hc h0
      (by omega) hb (by omega) hbl hbn hbd hci hq1 hq2 hnul hslash
    rcases hform with ⟨hf, hlt2⟩ | ⟨hf, d, hd, hdl⟩
    · exact ih j (HeadBefore.step i j sp 0 h hlt (hf 0)) (by omega) (by omega) (by omega)
    · have hjp : j ≠ p := by
        intro he; rw [he, hp0] at hd
        have := Option.some.inj hd
        rw [← this, show isLetter uc '/' = false from rfl] at hdl; exact absurd hdl (by decide)
      obtain ⟨sp2, k, hw, hk1, hk2, _⟩ := @classifyWord_within uc cfg st text (p - 1)
        (by omega) (Or.inr ⟨b, hb, hbl⟩) (tablesAvoid_fit cfg b hfree text (p - 1) hb)
        j (by omega) (by omega)
      exact ih (k + 1) (HeadBefore.word i j k sp sp2 0 h hlt (hf 0) hw (by omega))
        (by omega) (by omega) (by omega)

/-! ## Theorems: line comment -/

/-- C6 (as amended): in a language without line-comment character, scanning from an
even state a text with `//` at `p` whose part before `p` holds no quote character,
no U+0000, no `//` and no `/*`. If the head of the `while` loop of line 234 is
visited with the cursor at `p`, the scan returns there after emitting the Comment
span `(p, len)` (the arguments of line 246, covering the rest of the block), and
besides the default span every span emitted before it is no Comment span and ends
at or before `p`. The head is visited with the cursor at `p` whenever `p = 0` or the
character before `p` is neither a letter nor a number nor `.` and stands in no table
word. -/
theorem line_comment (cfg : LangConfig) (text : List Char) (p st : Int)
    (hc : cfg.comment = Char.ofNat 0) (hst : st % 2 = 0)
    (hp0 : charAt text p = some '/') (hp1 : charAt text (p + 1) = some '/')
    (hpre : ∀ j, j < p → ∀ ch, charAt text j = some ch → ch ≠ '"' ∧ ch ≠ '\'' ∧
      ch ≠ Char.ofNat 0 ∧
      (ch = '/' → charAt text (j + 1) ≠ some '/' ∧ charAt text (j + 1) ≠ some '*'))
    (fuel : Nat) (hfuel : (2 * p + 2).toNat ≤ fuel) :
    (HeadBefore uc cfg text st p p →
      ∃ pre, genericScan uc cfg text st fuel =
          ⟨⟨0, qlen text, .CodeBlock⟩ :: (pre ++ [⟨p, qlen text, .CodeComment⟩]), st,
            .returned⟩ ∧
        ∀ s ∈ pre, s.cat ≠ .CodeComment ∧ s.start + s.count ≤ p) ∧
    ((p = 0 ∨ ∃ b, charAt text (p - 1) = some b ∧ isLetter uc b = false ∧
        isNumber uc b = false ∧ b ≠ '.' ∧ TablesAvoid cfg b) →
      HeadBefore uc cfg text st p p) := by
  have hb := charAt_bounds text p '/' hp0
  have hne : text.isEmpty = false := by
    cases text with
    | nil => simp [qlen] at hb; omega
    | cons x xs => rfl
  constructor
  · intro h
    obtain ⟨_, n, hn, pre, hrun, hpre2⟩ := headBefore_run cfg text p st hc hst hp0 hp1 hpre p h
    refine ⟨pre, ?_, hpre2⟩
    have hfu : fuel = n + ((fuel - n - 1) + 1) := by omega
    have hscan : scanLoop uc cfg text fuel true 0 st =
        ⟨pre ++ [⟨p, qlen text, .CodeComment⟩], st, .returned⟩ := by
      rw [hfu, hrun, scanLoop_while_ret cfg text _ p st _ st
        (whileHead_at_line_comment cfg text _ p st hc hp0 hp1)]
      rfl
    simp only [genericScan, hne, Bool.false_eq_true, if_false, hscan, Result.after,
      List.singleton_append]
  · intro h
    have hfirst : HeadBefore uc cfg text st p 0 := HeadBefore.first (by omega)
    rcases h with h | ⟨b, hb1, hbl, hbn, hbd, hfree⟩
    · subst h; exact hfirst
    · exact headBefore_reach cfg text p st b hc hp0 hpre hb1 hbl hbn hbd hfree p.toNat 0
        hfirst (le_refl _) hb.1 (by omega)

theorem tablesAvoid_int : TablesAvoid intKeywordConfig ';' := by
  intro data hd key w hw
  simp only [intKeywordConfig, List.mem_cons, List.mem_singleton, List.not_mem_nil,
    or_false] at hd
  rcases hd with rfl | rfl | rfl | rfl | rfl
  · cases hw
  · simp only at hw
    split at hw
    · simp only [List.mem_singleton] at hw
      subst hw; decide
    · cases hw
  · cases hw
  · cases hw
  · cases hw

/-- C6 at the text `int x;// c` with the keyword `int` in the table: `p = 6`, and the
character before `p` is `;`. -/
theorem line_comment_witness :
    ∃ pre, genericScan plainQt intKeywordConfig
        ['i', 'n', 't', ' ', 'x', ';', '/', '/', ' ', 'c'] 202 14 =
        ⟨⟨0, qlen ['i', 'n', 't', ' ', 'x', ';', '/', '/', ' ', 'c'], .CodeBlock⟩ ::
          (pre ++ [⟨6, qlen ['i', 'n', 't', ' ', 'x', ';', '/', '/', ' ', 'c'],
            .CodeComment⟩]), 202, .returned⟩ ∧
      ∀ s ∈ pre, s.cat ≠ .CodeComment ∧ s.start + s.count ≤ 6 :=
  have h := @line_comment plainQt intKeywordConfig
    ['i', 'n', 't', ' ', 'x', ';', '/', '/', ' ', 'c'] 6 202
    rfl (by decide) (by decide) (by decide)
    (fun j hj ch hch => by
      have hb := charAt_bounds _ j ch hch
      have h0 := hb.1
      interval_cases j <;>
        (simp only [charAt] at hch
         have := Option.some.inj hch
         subst this
         decide))
    14 (by decide)
  h.1 (h.2 (Or.inr ⟨';', by decide, rfl, rfl, by decide, tablesAvoid_int⟩))

/-- C6 as stated fails. In `a//b` the first `//` is at 1 and nothing but the letter
`a` stands before it; with empty word tables the scan from the even state 200 emits
only the default span: the `++i` of the `for` loop steps over the character after
the word. In `1//x` the number helper returns 1 and line 289 steps over the first `/`.
In the text U+0000 `//` the character U+0000 equals the null line-comment character
(line 274) and the Comment span starts at 0. -/
theorem line_comment_counterexample :
    indexOfStr ['a', '/', '/', 'b'] ['/', '/'] = 1 ∧
    (∀ q : QtData, genericScan q ⟨fun _ => [], fun _ => [], fun _ => [], fun _ => [],
        fun _ => [], Char.ofNat 0, 200⟩ ['a', '/', '/', 'b'] 200 20 =
      ⟨[⟨0, 4, .CodeBlock⟩], 200, .completed⟩) ∧
    indexOfStr ['1', '/', '/', 'x'] ['/', '/'] = 1 ∧
    (∀ q : QtData, genericScan q ⟨fun _ => [], fun _ => [], fun _ => [], fun _ => [],
        fun _ => [], Char.ofNat 0, 200⟩ ['1', '/', '/', 'x'] 200 20 =
      ⟨[⟨0, 4, .CodeBlock⟩, ⟨0, 1, .CodeNumLiteral⟩], 200, .completed⟩) ∧
    indexOfStr [Char.ofNat 0, '/', '/'] ['/', '/'] = 1 ∧
    (∀ q : QtData, genericScan q ⟨fun _ => [], fun _ => [], fun _ => [], fun _ => [],
        fun _ => [], Char.ofNat 0, 200⟩ [Char.ofNat 0, '/', '/'] 200 20 =
      ⟨[⟨0, 3, .CodeBlock⟩, ⟨0, 3, .CodeComment⟩], 200, .completed⟩) :=
  ⟨by decide, fun _ => rfl, by decide, fun _ => rfl, by decide, fun _ => rfl⟩

/-- Line comments right after a character that is neither a letter nor a number, with
empty word tables: `x;// c`, `}// c` and `x = 1;// c` get the Comment span from the
`//` on. -/
theorem line_comment_after_separator :
    genericScan uc ⟨fun _ => [], fun _ => [], fun _ => [], fun _ => [], fun _ => [],
        Char.ofNat 0, 200⟩ ['x', ';', '/', '/', ' ', 'c'] 200 20 =
      ⟨[⟨0, 6, .CodeBlock⟩, ⟨2, 6, .CodeComment⟩], 200, .returned⟩ ∧
    genericScan uc ⟨fun _ => [], fun _ => [], fun _ => [], fun _ => [], fun _ => [],
        Char.ofNat 0, 200⟩ ['}', '/', '/', ' ', 'c'] 200 20 =
      ⟨[⟨0, 5, .CodeBlock⟩, ⟨1, 5, .CodeComment⟩], 200, .returned⟩ ∧
    genericScan uc ⟨fun _ => [], fun _ => [], fun _ => [], fun _ => [], fun _ => [],
        Char.ofNat 0, 200⟩ ['x', ' ', '=', ' ', '1', ';', '/', '/', ' ', 'c'] 200 20 =
      ⟨[⟨0, 10, .CodeBlock⟩, ⟨4, 1, .CodeNumLiteral⟩, ⟨6, 10, .CodeComment⟩], 200,
        .returned⟩ :=
  ⟨rfl, rfl, rfl⟩

/-! ## Theorems: unterminated strings, YAML keys, post-processors -/

theorem postResult_after_nil (r : PostResult) : r.after [] = r := rfl

theorem postResult_after_spans (sp : List Span) (r : PostResult) :
    (r.after sp).spans = sp ++ r.spans := rfl

theorem postResult_after_exit (sp : List Span) (r : PostResult) : (r.after sp).exit = r.exit :=
  rfl

/-- C11 (evaluation of the code): the string opened at 0 in the 4-character text
quote, `a`, backslash, `b` has no closing quote and ends in the middle of an escape.
Lines 378-385 find neither a space nor a quote after the backslash, so the helper
emits the NumberLiteral span `(2, -3)` and the String span `(-1, 1)`, restarts at 0
and reads `text.at(-1)`. With an `x` in front (string opened at 1) the restarted
scan takes the opening quote for the terminator and the helper returns 2, not 5. -/
theorem unterminated_string_escape :
    highlightStringLiterals '"' ['"', 'a', '\\', 'b'] 0 10 =
      ⟨[⟨0, 1, .CodeString⟩, ⟨1, 1, .CodeString⟩, ⟨2, -3, .CodeNumLiteral⟩,
        ⟨-1, 1, .CodeString⟩], 0, .outOfBounds⟩ ∧
    highlightStringLiterals '"' ['x', '"', 'a', '\\', 'b'] 1 10 =
      ⟨[⟨1, 1, .CodeString⟩, ⟨2, 1, .CodeString⟩, ⟨3, -4, .CodeNumLiteral⟩,
        ⟨-1, 1, .CodeString⟩, ⟨0, 1, .CodeString⟩, ⟨1, 1, .CodeString⟩], 2, .returned⟩ := by
  decide

/-- C15 (evaluation of the code): for the block `name:` the test
`colon+1 < textLen` of line 527 fails and no Keyword span is emitted. With a space
in front (` name:`) the run reads no index outside the text and emits nothing; on
`name:` itself line 508 first reads `text.at(-1)`. -/
theorem yaml_key_at_block_end (stray : Option Char) :
    ymlHighlighter uc stray [' ', 'n', 'a', 'm', 'e', ':'] 10 = ⟨[], .completed⟩ ∧
    ymlHighlighter uc (some (Char.ofNat 0)) ['n', 'a', 'm', 'e', ':'] 10 = ⟨[], .completed⟩ ∧
    ymlHighlighter uc none ['n', 'a', 'm', 'e', ':'] 10 = ⟨[], .outOfBounds⟩ := by
  refine ⟨?_, rfl, rfl⟩
  rfl

/-- C20 (evaluation of the code): on the block `a{.b}` the selector at 2 has no space
after it, line 556 searches `{` from the start of the text and finds it at 1, line
561 emits the Keyword span `(2, -1)` and line 562 puts the cursor back to 1: the loop
visits 2 again, whatever the fuel. -/
theorem cssHighlighter_never_ends (valid : List Char → Int → Int → Bool)
    (stray : Option Char) (fuel : Nat) :
    (cssHighlighter uc valid stray ['a', '{', '.', 'b', '}'] fuel).exit = .outOfFuel := by
  have cyc : ∀ f : Nat, (cssLoop uc valid stray ['a', '{', '.', 'b', '}'] f 2).exit = .outOfFuel := by
    intro f
    induction f with
    | zero => rfl
    | succ f ih =>
      have h : (cssLoop uc valid stray ['a', '{', '.', 'b', '}'] (f + 1) 2).exit =
          (cssLoop uc valid stray ['a', '{', '.', 'b', '}'] f 2).exit := rfl
      rw [h, ih]
  match fuel with
  | 0 => rfl
  | 1 => rfl
  | f + 2 =>
    have h : (cssHighlighter uc valid stray ['a', '{', '.', 'b', '}'] (f + 2)).exit =
        (cssLoop uc valid stray ['a', '{', '.', 'b', '}'] f 2).exit := rfl
    rw [h, cyc]

/-- C19 (evaluation of the code): a CSS block `.a` with two trailing spaces. The
generic scan ends by the `return` of line 238 at the trailing space, so line 353 is
not reached and `highlightSyntax` emits only the default span, although
`cssHighlighter` on the same text emits the selector span `(0, 2)`. The same for
the YAML block ` key: v` with two trailing spaces and the key span `(1, 3)`. With
a single trailing space the post-processor runs. -/
theorem postprocessor_skipped_after_return (valid : List Char → Int → Int → Bool) :
    highlightSyntax uc ⟨⟨fun _ => [], fun _ => [], fun _ => [], fun _ => [], fun _ => [],
        Char.ofNat 0, 200⟩, false, true, false⟩ valid none ['.', 'a', ' ', ' '] 220 30 =
      ⟨[⟨0, 4, .CodeBlock⟩], 220, .returned⟩ ∧
    cssHighlighter uc valid none ['.', 'a', ' ', ' '] 30 = ⟨[⟨0, 2, .CodeKeyWord⟩], .completed⟩ ∧
    highlightSyntax uc ⟨⟨fun _ => [], fun _ => [], fun _ => [], fun _ => [], fun _ => [],
        '#', 200⟩, false, false, true⟩ valid none [' ', 'k', 'e', 'y', ':', ' ', 'v', ' ', ' ']
        230 30 = ⟨[⟨0, 9, .CodeBlock⟩], 230, .returned⟩ ∧
    ymlHighlighter uc none [' ', 'k', 'e', 'y', ':', ' ', 'v', ' ', ' '] 30 =
      ⟨[⟨1, 3, .CodeKeyWord⟩], .completed⟩ ∧
    highlightSyntax uc ⟨⟨fun _ => [], fun _ => [], fun _ => [], fun _ => [], fun _ => [],
        Char.ofNat 0, 200⟩, false, true, false⟩ valid none ['.', 'a', ' '] 220 30 =
      ⟨[⟨0, 3, .CodeBlock⟩, ⟨0, 2, .CodeKeyWord⟩], 220, .completed⟩ := by
  refine ⟨rfl, rfl, rfl, rfl, rfl⟩

theorem thenPost_mem (r : Result) (run : Bool) (post : PostResult) (s : Span)
    (h : s ∈ r.spans) : s ∈ (thenPost r run post).spans := by
  unfold thenPost
  cases run with
  | false => exact h
  | true =>
    simp only [if_true]
    split
    · exact h
    · exact h
    · exact List.mem_append_left _ h

/-- C12: for every language case (XML included), entry state, text and fuel, every
offset of `[0, len)` lies in a span emitted by `highlightSyntax`, namely in the
default span `(0, len)` that is emitted first; this holds for every run, whether
or not it ends. -/
theorem coverage (lang : LangCase) (valid : List Char → Int → Int → Bool)
    (stray : Option Char) (text : List Char) (st : Int) (fuel : Nat) (o : Int)
    (h0 : 0 ≤ o) (h1 : o < qlen text) :
    ∃ s ∈ (highlightSyntax uc lang valid stray text st fuel).spans,
      s = ⟨0, qlen text, .CodeBlock⟩ ∧ s.start ≤ o ∧ o < s.start + s.count := by
  have hne : text.isEmpty = false := by
    cases text with
    | nil => simp [qlen] at h1; omega
    | cons x xs => rfl
  refine ⟨⟨0, qlen text, .CodeBlock⟩, ?_, rfl, h0, by simpa using h1⟩
  unfold highlightSyntax
  simp only [hne, Bool.false_eq_true, if_false]
  have hg : (⟨0, qlen text, .CodeBlock⟩ : Span) ∈ (genericScan uc lang.cfg text st fuel).spans := by
    simp [genericScan, hne, Result.after]
  cases lang.isXML with
  | true =>
    simp [xmlHighlighter, hne, PostResult.after]
  | false =>
    simp only [Bool.false_eq_true, if_false]
    split
    · exact thenPost_mem _ _ _ _ (thenPost_mem _ _ _ _ hg)
    · exact hg

/-- C12 at the block `int x`, offset 4, in a language with the keyword `int`. -/
theorem coverage_witness :
    ∃ s ∈ (highlightSyntax plainQt ⟨intKeywordConfig, false, false, false⟩ (fun _ _ _ => false)
        none ['i', 'n', 't', ' ', 'x'] 202 20).spans,
      s = ⟨0, qlen ['i', 'n', 't', ' ', 'x'], .CodeBlock⟩ ∧ s.start ≤ 4 ∧
        4 < s.start + s.count :=
  coverage ⟨intKeywordConfig, false, false, false⟩ (fun _ _ _ => false) none
    ['i', 'n', 't', ' ', 'x'] 202 20 4 (by decide) (by decide)

/-- C16 (as amended): on the block `path: C:\x` (p a t h : space C : backslash x),
in a run where the read of line 508 before the first character yields a character
`c` that is no quote, the YAML post-processor emits exactly one Keyword span, `(0, 4)`
over the key `path` (its colon is followed by a space), and none for the drive
letter `C`. With a space in front of the block no read leaves the text and the
only span is the Keyword span `(1, 4)`. -/
theorem yaml_path_block (c : Char) (h1 : c ≠ '"') (h2 : c ≠ '\'') :
    ymlHighlighter uc (some c) ['p', 'a', 't', 'h', ':', ' ', 'C', ':', '\\', 'x'] 20 =
      ⟨[⟨0, 4, .CodeKeyWord⟩], .completed⟩ ∧
    ∀ stray, ymlHighlighter uc stray [' ', 'p', 'a', 't', 'h', ':', ' ', 'C', ':', '\\', 'x'] 20 =
      ⟨[⟨1, 4, .CodeKeyWord⟩], .completed⟩ := by
  refine ⟨?_, fun stray => rfl⟩
  have hq : ¬ (c = '"' ∨ c = '\'') := by
    rintro (h | h)
    · exact h1 h
    · exact h2 h
  have hb : ymlBody uc (some c) ['p', 'a', 't', 'h', ':', ' ', 'C', ':', '\\', 'x'] 0 false =
      (.next [⟨0, 4, .CodeKeyWord⟩] 0, true) := by
    have e1 : charAtOr (some c) ['p', 'a', 't', 'h', ':', ' ', 'C', ':', '\\', 'x'] 0 =
        some 'p' := rfl
    have e2 : charAtOr (some c) ['p', 'a', 't', 'h', ':', ' ', 'C', ':', '\\', 'x'] (0 - 1) =
        some c := rfl
    have e3 : indexOfChar ['p', 'a', 't', 'h', ':', ' ', 'C', ':', '\\', 'x'] ':' 0 = 4 := rfl
    have e4 : ymlKeyAndLink (some c) ['p', 'a', 't', 'h', ':', ' ', 'C', ':', '\\', 'x'] 0 'p'
        false 4 = some ([⟨0, 4, .CodeKeyWord⟩], true) := rfl
    have e5 : isLetter uc 'p' = true := rfl
    unfold ymlBody
    rw [e1]
    simp only [e5, Bool.not_true, Bool.false_eq_true, if_false, false_and, e2, hq, e3, e4]
    rfl
  have hrest : ymlLoop uc (some c) ['p', 'a', 't', 'h', ':', ' ', 'C', ':', '\\', 'x'] 19 (0 + 1)
      true = ⟨[], .completed⟩ := rfl
  have hlt : (0 : Int) < qlen ['p', 'a', 't', 'h', ':', ' ', 'C', ':', '\\', 'x'] := by decide
  show ymlLoop uc (some c) ['p', 'a', 't', 'h', ':', ' ', 'C', ':', '\\', 'x'] (19 + 1) 0 false = _
  rw [ymlLoop, if_pos hlt, hb]
  simp only [hrest]
  rfl

/-- C16 for a read before the first character that yields U+0000. -/
theorem yaml_path_block_witness :
    ymlHighlighter plainQt (some (Char.ofNat 0))
        ['p', 'a', 't', 'h', ':', ' ', 'C', ':', '\\', 'x'] 20 =
      ⟨[⟨0, 4, .CodeKeyWord⟩], .completed⟩ ∧
    ∀ stray, ymlHighlighter plainQt stray
        [' ', 'p', 'a', 't', 'h', ':', ' ', 'C', ':', '\\', 'x'] 20 =
      ⟨[⟨1, 4, .CodeKeyWord⟩], .completed⟩ :=
  yaml_path_block (Char.ofNat 0) (by decide) (by decide)

/-- C16 as stated fails: on the block `path: C:\x` the run that goes on after the
read before the first character (here yielding U+0000) emits the Keyword span
`(0, 4)`; with a space in front of the block, where no read leaves the text, the
Keyword span `(1, 4)` is emitted in every run. Both hold whatever the tables of Qt. -/
theorem yaml_path_block_counterexample :
    (∀ q : QtData, (⟨0, 4, .CodeKeyWord⟩ : Span) ∈ (ymlHighlighter q (some (Char.ofNat 0))
      ['p', 'a', 't', 'h', ':', ' ', 'C', ':', '\\', 'x'] 20).spans) ∧
    (∀ q : QtData, (⟨1, 4, .CodeKeyWord⟩ : Span) ∈ (ymlHighlighter q none
      [' ', 'p', 'a', 't', 'h', ':', ' ', 'C', ':', '\\', 'x'] 20).spans) := by
  constructor
  · intro q
    rw [show (ymlHighlighter q (some (Char.ofNat 0))
      ['p', 'a', 't', 'h', ':', ' ', 'C', ':', '\\', 'x'] 20).spans = [⟨0, 4, .CodeKeyWord⟩]
      from rfl]
    exact List.mem_singleton.2 rfl
  · intro q
    rw [show (ymlHighlighter q none
      [' ', 'p', 'a', 't', 'h', ':', ' ', 'C', ':', '\\', 'x'] 20).spans = [⟨1, 4, .CodeKeyWord⟩]
      from rfl]
    exact List.mem_singleton.2 rfl

/-! ## Theorems: XML spans -/

theorem lastFrom_spec (ch : Char) :
    ∀ (l : List Char) (base : Nat) (acc : Option Nat) (k : Nat),
      lastFrom ch l base acc = some k →
      acc = some k ∨ (base ≤ k ∧ l.get? (k - base) = some ch) := by
  intro l
  induction l with
  | nil => intro base acc k h; left; simpa [lastFrom] using h
  | cons c cs ih =>
    intro base acc k h
    rw [lastFrom] at h
    rcases ih (base + 1) _ k h with h1 | ⟨h1, h2⟩
    · by_cases hc : c = ch
      · rw [if_pos hc] at h1
        right
        have : base = k := by simpa using h1
        subst this
        simp [hc]
      · rw [if_neg hc] at h1
        left; exact h1
    · right
      refine ⟨by omega, ?_⟩
      have e : k - base = (k - (base + 1)) + 1 := by omega
      rw [e]
      simpa using h2

theorem lastIndexOfChar_spec (text : List Char) (ch : Char) (f r : Int)
    (h : lastIndexOfChar text ch f = r) (hr : 0 ≤ r) : charAt text r = some ch := by
  dsimp only [lastIndexOfChar] at h
  generalize (if f < 0 then f + qlen text else f) = f' at h
  by_cases hout : f' < 0 ∨ f' ≥ qlen text
  · rw [if_pos hout] at h; omega
  · rw [if_neg hout] at h
    cases hk : lastFrom ch (text.take (f'.toNat + 1)) 0 none with
    | none => rw [hk] at h; simp only at h; omega
    | some k =>
      rw [hk] at h
      simp only at h
      rcases lastFrom_spec ch _ 0 none k hk with h1 | ⟨_, h2⟩
      · cases h1
      · subst h
        rw [charAt_nat]
        simp only [Nat.sub_zero] at h2
        rw [List.get?_eq_getElem?] at h2 ⊢
        rw [List.getElem?_take] at h2
        split at h2
        · exact h2
        · cases h2

theorem xmlQuoteLoop_closing (stray : Option Char) (text : List Char) (j q : Int)
    (hj : 0 ≤ j) (hq : charAt text q = some '"')
    (hmin : ∀ k, j < k → k < q → charAt text k ≠ some '"') :
    ∀ (fuel : Nat) (i : Int), j < i → i ≤ q → (q - i).toNat + 1 ≤ fuel →
      ∃ k, xmlQuoteLoop stray text fuel i (i - j) = some (k, q - j + 1) ∧ (k = q ∨ k = q + 1) := by
  have hb := charAt_bounds text q '"' hq
  intro fuel
  induction fuel with
  | zero => intro i _ _ h; omega
  | succ f ih =>
    intro i h1 h2 h3
    have hlt : i < qlen text := by omega
    rw [xmlQuoteLoop, if_pos hlt]
    by_cases hiq : i = q
    · subst hiq
      have : charAtOr stray text i = some '"' := by simp [charAtOr, hq]
      rw [this]
      refine ⟨i + 1, ?_, Or.inr rfl⟩
      simp only [Option.some_bind, if_true]
    · obtain ⟨c, hc⟩ := charAt_lt text i (by omega) hlt
      have hcq : c ≠ '"' := by
        intro h; rw [h] at hc; exact hmin i h1 (by omega) hc
      have : charAtOr stray text i = some c := by simp [charAtOr, hc]
      rw [this]
      simp only [Option.some_bind, hcq, if_false]
      by_cases hend : i + 1 + 1 ≥ qlen text
      · rw [if_pos hend]
        refine ⟨i + 1, ?_, Or.inl (by omega)⟩
        congr 2
        omega
      · rw [if_neg hend]
        obtain ⟨k, hk, hk2⟩ := ih (i + 1) (by omega) (by omega) (by omega)
        refine ⟨k, ?_, hk2⟩
        have e : i - j + 1 = i + 1 - j := by omega
        rw [e]; exact hk

theorem charAtOr_inside (stray : Option Char) (text : List Char) (i : Int) (c : Char)
    (h : charAt text i = some c) : charAtOr stray text i = some c := by
  simp [charAtOr, h]

/-- The loop of lines 660-672 entered after a `"` at `j`: the count it leaves is that
of a String span up to the next `"`, or up to the end of the block. -/
theorem xmlQuoteLoop_rule (stray : Option Char) (text : List Char) (j : Int) :
    ∀ (fuel : Nat) (i cnt : Int), j < i → 0 ≤ i → i + 1 < qlen text → cnt = i - j →
      (∀ k, j < k → k < i → charAt text k ≠ some '"') →
      ∀ k n, xmlQuoteLoop stray text fuel i cnt = some (k, n) →
        i ≤ k ∧
        ((∃ q, j < q ∧ q + 1 < qlen text ∧ charAt text q = some '"' ∧
            (∀ k, j < k → k < q → charAt text k ≠ some '"') ∧ n = q - j + 1) ∨
         ((∀ k, j < k → k + 1 < qlen text → charAt text k ≠ some '"') ∧
            n = qlen text - j)) := by
  intro fuel
  induction fuel with
  | zero => intro i cnt _ _ _ _ _ k n h; cases h
  | succ f ih =>
    intro i cnt hji h0 h1 hcnt hno k n h
    have hlt : i < qlen text := by omega
    obtain ⟨c, hc⟩ := charAt_lt text i h0 hlt
    rw [xmlQuoteLoop, if_pos hlt, charAtOr_inside stray text i c hc] at h
    simp only [Option.some_bind] at h
    by_cases hq : c = '"'
    · rw [if_pos hq] at h
      simp only [Option.some.injEq, Prod.mk.injEq] at h
      refine ⟨by omega, Or.inl ⟨i, hji, h1, by rw [hc, hq], hno, by omega⟩⟩
    · rw [if_neg hq] at h
      by_cases hend : i + 1 + 1 ≥ qlen text
      · rw [if_pos hend] at h
        simp only [Option.some.injEq, Prod.mk.injEq] at h
        refine ⟨by omega, Or.inr ⟨?_, by omega⟩⟩
        intro k' hk1 hk2
        by_cases hk : k' < i
        · exact hno k' hk1 hk
        · have : k' = i := by omega
          rw [this, hc]
          intro hcc
          exact hq (Option.some.inj hcc)
      · rw [if_neg hend] at h
        obtain ⟨hk, hr⟩ := ih (i + 1) (cnt + 1) (by omega) (by omega) (by omega) (by omega)
          (by
            intro k' hk1 hk2
            by_cases hk : k' < i
            · exact hno k' hk1 hk
            · have : k' = i := by omega
              rw [this, hc]
              intro hcc
              exact hq (Option.some.inj hcc)) k n h
        exact ⟨by omega, hr⟩

/-- One pass through the body of the loop of `xmlHighlighter` at a cursor inside the
text: the cursor does not move backwards and every span follows `XmlSpanRule`. -/
theorem xmlBody_rule (stray : Option Char) (text : List Char) (fuel : Nat) (i : Int)
    (h0 : 0 ≤ i) (h1 : i < qlen text) :
    (∀ s ∈ (xmlBody stray text fuel i).spans, XmlSpanRule text s) ∧
    ∀ sp j, xmlBody stray text fuel i = .next sp j → i ≤ j := by
  obtain ⟨c, hc⟩ := charAt_lt text i h0 h1
  have hnil : ∀ s ∈ ([] : List Span), XmlSpanRule text s := fun s hs => by cases hs
  -- lines 636-644
  have htag : (∃ sp1 j, xmlTag stray text i = some (sp1, j) ∧ i ≤ j ∧ j < qlen text ∧
      (∀ s ∈ sp1, XmlSpanRule text s)) ∨ xmlTag stray text i = none := by
    unfold xmlTag
    rw [charAtOr_inside stray text i c hc]
    simp only [Option.some_bind]
    by_cases hlt : c = '<'
    · rw [if_pos hlt]
      cases hd : charAtOr stray text (i + 1) with
      | none => right; rfl
      | some d =>
        left
        simp only [Option.some_bind]
        by_cases hbang : d ≠ '!'
        · rw [if_pos hbang]
          by_cases hfound : indexOfChar text '>' i > 0
          · rw [if_pos hfound]
            simp only [Option.map_some']
            rcases indexOfChar_spec text '>' i h0 with ⟨h, _⟩ | ⟨hge, hat, _⟩
            · omega
            · have hb := charAt_bounds text _ '>' hat
              have hne0 : indexOfChar text '>' i ≠ i := by
                intro e
                rw [e, hc, hlt] at hat
                cases hat
              obtain ⟨d', hd'⟩ := charAt_lt text (i + 1) (by omega) (by omega)
              have hdd : d' = d := by
                have := charAtOr_inside stray text (i + 1) d' hd'
                rw [hd] at this
                exact (Option.some.inj this).symm
              rw [hdd] at hd'
              refine ⟨_, _, rfl, ?_, ?_, ?_⟩
              · split <;> omega
              · by_cases hslash : d = '/'
                · rw [if_pos hslash]
                  have hne1 : indexOfChar text '>' i ≠ i + 1 := by
                    intro e
                    rw [e, hd', hslash] at hat
                    cases hat
                  omega
                · rw [if_neg hslash]; omega
              · intro s hs
                simp only [List.mem_singleton] at hs
                left
                exact ⟨i, d, _, by rw [hc, hlt], hd', hbang, rfl, hfound, hs⟩
          · rw [if_neg hfound]
            exact ⟨_, _, rfl, le_refl _, h1, hnil⟩
        · rw [if_neg hbang]
          exact ⟨_, _, rfl, le_refl _, h1, hnil⟩
    · rw [if_neg hlt]
      left
      exact ⟨_, _, rfl, le_refl _, h1, hnil⟩
  rcases htag with ⟨sp1, j, ht, hj0, hj1, hsp1⟩ | ht
  swap
  · unfold xmlBody
    rw [ht]
    exact ⟨hnil, fun sp j h => by cases h⟩
  obtain ⟨e, he⟩ := charAt_lt text j (by omega) hj1
  have he' := charAtOr_inside stray text j e he
  -- lines 646-652
  have hattr : ∃ sp2, xmlAttribute stray text j = some sp2 ∧ ∀ s ∈ sp2, XmlSpanRule text s := by
    unfold xmlAttribute
    rw [he']
    simp only [Option.map_some']
    refine ⟨_, rfl, ?_⟩
    intro s hs
    by_cases heq : e = '='
    · rw [if_pos heq] at hs
      by_cases hpos : (if lastIndexOfChar text ' ' j = j - 1 then
          lastIndexOfChar text ' ' (j - 2) else lastIndexOfChar text ' ' j) > 0
      · rw [if_pos hpos] at hs
        simp only [List.mem_singleton] at hs
        right; left
        exact ⟨j, _, by rw [he, heq], rfl, hpos, hs⟩
      · rw [if_neg hpos] at hs
        cases hs
    · rw [if_neg heq] at hs
      cases hs
  obtain ⟨sp2, ha, hsp2⟩ := hattr
  have h12 : ∀ s ∈ sp1 ++ sp2, XmlSpanRule text s := by
    intro s hs
    rcases List.mem_append.1 hs with h | h
    · exact hsp1 s h
    · exact hsp2 s h
  unfold xmlBody
  rw [ht]
  simp only
  rw [ha]
  simp only
  rw [he']
  simp only
  by_cases hq : e = '"'
  · rw [if_pos hq]
    by_cases hend : j + 1 + 1 ≥ qlen text
    · rw [if_pos hend]
      exact ⟨h12, fun sp j h => by cases h⟩
    · rw [if_neg hend]
      cases hl : xmlQuoteLoop stray text fuel (j + 1) 1 with
      | none => exact ⟨h12, fun sp j h => by cases h⟩
      | some r =>
        obtain ⟨k, n⟩ := r
        obtain ⟨hk, hr⟩ := xmlQuoteLoop_rule stray text j fuel (j + 1) 1 (by omega) (by omega)
          (by omega) (by omega) (fun k' a b => by omega) k n hl
        refine ⟨?_, ?_⟩
        · intro s hs
          simp only [PostCtl.spans] at hs
          rcases List.mem_append.1 hs with h | h
          · exact h12 s h
          · simp only [List.mem_singleton] at h
            right; right
            refine ⟨j, by rw [he, hq], by omega, ?_⟩
            rcases hr with ⟨q, a, b, c1, d1, en⟩ | ⟨a, en⟩
            · exact Or.inl ⟨q, a, b, c1, d1, by rw [h, en]⟩
            · exact Or.inr ⟨a, by rw [h, en]⟩
        · intro sp j' h
          simp only [PostCtl.next.injEq] at h
          omega
  · rw [if_neg hq]
    refine ⟨h12, ?_⟩
    intro sp j' h
    simp only [PostCtl.next.injEq] at h
    omega

theorem xmlLoop_rule (stray : Option Char) (text : List Char) :
    ∀ (fuel : Nat) (i : Int), 0 ≤ i →
      ∀ s ∈ (xmlLoop stray text fuel i).spans, XmlSpanRule text s := by
  intro fuel
  induction fuel with
  | zero => intro i _ s hs; cases hs
  | succ f ih =>
    intro i h0 s hs
    rw [xmlLoop] at hs
    by_cases h1 : i < qlen text
    · rw [if_pos h1] at hs
      obtain ⟨hb, hnext⟩ := xmlBody_rule stray text f i h0 h1
      cases hbody : xmlBody stray text f i with
      | next sp j =>
        rw [hbody] at hs hb
        simp only [postResult_after_spans] at hs
        rcases List.mem_append.1 hs with h | h
        · exact hb s h
        · exact ih (j + 1) (by have := hnext sp j hbody; omega) s h
      | ret sp => rw [hbody] at hs hb; exact hb s hs
      | fault sp e => rw [hbody] at hs hb; exact hb s hs
    · rw [if_neg h1] at hs
      cases hs

/-- C17 (as amended): the 14-character block `<tag attr="v">` gets, after the default
span, the Keyword span `(1, 12)` (from the tag name up to the closing `>`, the
attribute included), the Builtin span `(4, 5)` (from the space before `attr` up to
the `=`) and the String span `(10, 3)` over the quoted value. In general, on every
text and for every fuel, every span of the scanner is the default span or follows
`XmlSpanRule`: a Keyword span from the character after `<` or `</` up to the first
`>` found from the `<` on, a Builtin span from the space found by
`lastIndexOf(' ', e)` (by `lastIndexOf(' ', e - 2)` when the former stands right
before the `=` at `e`) up to the `=`, or a String span from a `"` that at least two
characters follow up to the next `"` inclusive, or up to the end of the block when
that `"` is the last character or there is none. -/
theorem xml_spans (stray : Option Char) (text : List Char) (fuel : Nat) (s : Span)
    (hs : s ∈ (xmlHighlighter stray text fuel).spans) :
    xmlHighlighter stray ['<', 't', 'a', 'g', ' ', 'a', 't', 't', 'r', '=', '"', 'v', '"', '>']
        30 = ⟨[⟨0, 14, .CodeBlock⟩, ⟨1, 12, .CodeKeyWord⟩, ⟨4, 5, .CodeBuiltIn⟩,
          ⟨10, 3, .CodeString⟩], .completed⟩ ∧
    (s = ⟨0, qlen text, .CodeBlock⟩ ∨ XmlSpanRule text s) := by
  refine ⟨rfl, ?_⟩
  unfold xmlHighlighter at hs
  split at hs
  · cases hs
  · rw [postResult_after_spans] at hs
    rcases List.mem_append.1 hs with h | h
    · left; simpa using h
    · right; exact xmlLoop_rule stray text fuel 0 (le_refl _) s h

/-- C17 at the String span of the block `<tag attr="v">`. -/
theorem xml_spans_witness :
    xmlHighlighter none ['<', 't', 'a', 'g', ' ', 'a', 't', 't', 'r', '=', '"', 'v', '"', '>']
        30 = ⟨[⟨0, 14, .CodeBlock⟩, ⟨1, 12, .CodeKeyWord⟩, ⟨4, 5, .CodeBuiltIn⟩,
          ⟨10, 3, .CodeString⟩], .completed⟩ ∧
    ((⟨10, 3, .CodeString⟩ : Span) =
        ⟨0, qlen ['<', 't', 'a', 'g', ' ', 'a', 't', 't', 'r', '=', '"', 'v', '"', '>'],
          .CodeBlock⟩ ∨
      XmlSpanRule ['<', 't', 'a', 'g', ' ', 'a', 't', 't', 'r', '=', '"', 'v', '"', '>']
        ⟨10, 3, .CodeString⟩) :=
  xml_spans none ['<', 't', 'a', 'g', ' ', 'a', 't', 't', 'r', '=', '"', 'v', '"', '>'] 30
    ⟨10, 3, .CodeString⟩ (by decide)

/-- C17 as stated fails: on the block `<tag attr="v">` the scanner emits the Keyword
span `(1, 12)` and the Builtin span `(4, 5)`, and neither the Keyword span `(1, 3)`
over `tag` nor the Builtin span `(5, 4)` over `attr`. -/
theorem xml_spans_counterexample :
    (xmlHighlighter none ['<', 't', 'a', 'g', ' ', 'a', 't', 't', 'r', '=', '"', 'v', '"', '>']
        30).spans = [⟨0, 14, .CodeBlock⟩, ⟨1, 12, .CodeKeyWord⟩, ⟨4, 5, .CodeBuiltIn⟩,
          ⟨10, 3, .CodeString⟩] ∧
    (⟨1, 3, .CodeKeyWord⟩ : Span) ∉ (xmlHighlighter none
      ['<', 't', 'a', 'g', ' ', 'a', 't', 't', 'r', '=', '"', 'v', '"', '>'] 30).spans ∧
    (⟨5, 4, .CodeBuiltIn⟩ : Span) ∉ (xmlHighlighter none
      ['<', 't', 'a', 'g', ' ', 'a', 't', 't', 'r', '=', '"', 'v', '"', '>'] 30).spans := by
  decide

/-! ## Theorems: classification priority -/

theorem matchLoop_emits (text : List Char) (same : List Char → List Char → Bool)
    (mk : Int → Nat → Span) (i : Int) (w : List Char)
    (hm : same w (midRef text i w.length) = true)
    (hafter : i + (w.length : Int) = qlen text ∨
      ∃ c, charAt text (i + (w.length : Int)) = some c ∧ isLetter uc c = false) :
    ∀ words : List (List Char), w ∈ words →
      ∀ r, matchLoop uc text same mk words i = some r → r.1 ≠ [] := by
  intro words
  induction words with
  | nil => intro hw; cases hw
  | cons x xs ih =>
    intro hw r hr
    have hcons : ∀ (o : Option (List Span × Int)),
        o.map (fun q => (mk i x.length :: q.1, q.2)) = some r → r.1 ≠ [] := by
      intro o ho
      cases o with
      | none => cases ho
      | some q =>
        simp only [Option.map_some', Option.some.injEq] at ho
        rw [← ho]; simp
    by_cases hx : same x (midRef text i x.length) = true
    · rw [matchLoop, if_pos hx] at hr
      by_cases he : i + (x.length : Int) = qlen text
      · rw [if_pos he] at hr
        exact hcons _ hr
      · rw [if_neg he] at hr
        cases hc : charAt text (i + (x.length : Int)) with
        | none => rw [hc] at hr; cases hr
        | some c =>
          rw [hc] at hr
          simp only [Option.some_bind] at hr
          by_cases hl : isLetter uc c = true
          · simp only [hl, Bool.not_true, Bool.false_eq_true, if_false] at hr
            have hne : w ≠ x := by
              intro hwx
              subst hwx
              rcases hafter with h | ⟨c', hc', hl'⟩
              · exact he h
              · rw [hc] at hc'; cases hc'; rw [hl] at hl'; cases hl'
            rcases List.mem_cons.1 hw with h | h
            · exact absurd h hne
            · exact ih h r hr
          · have hl' : isLetter uc c = false := by simpa using hl
            simp only [hl', Bool.not_false, if_true] at hr
            exact hcons _ hr
    · rw [matchLoop, if_neg hx] at hr
      have hne : w ≠ x := by
        intro hwx; subst hwx; exact hx hm
      rcases List.mem_cons.1 hw with h | h
      · exact absurd h hne
      · exact ih h r hr

/-- A table tried at a letter that leaves the cursor in place and emits nothing has
no word in the bucket that stands at `i` as a whole word. -/
theorem tableStep_idle (data : WordTable) (text : List Char)
    (same : List Char → List Char → Bool) (mk : Int → Nat → Span)
    (i : Int) (c : Char) (hc : charAt text i = some c)
    (h : (atWordStart uc data text i).bind (fun b =>
      if b = true then
        (charAt text i).bind (fun c => matchLoop uc text same mk (data (toLatin1 c)) i)
      else some ([], i)) = some ([], i)) :
    ∀ w ∈ data (toLatin1 c),
      ¬ (same w ((text.drop i.toNat).take w.length) = true ∧ WordEdges uc text i w.length) := by
  intro w hw hm
  have hbnd := charAt_bounds text i c hc
  rcases atWordStart_letter data text i c hc with ⟨_, hno⟩ | ⟨h1, _⟩
  · exact hno hm.2.1
  · have hne : (data (toLatin1 c)).isEmpty = false := by
      cases hd : data (toLatin1 c) with
      | nil => rw [hd] at hw; cases hw
      | cons x xs => rfl
    rw [h1] at h
    simp only [Option.some_bind, hne, Bool.not_false, if_true, hc] at h
    have hmid : same w (midRef text i w.length) = true := by
      have : midRef text i w.length = (text.drop i.toNat).take w.length := by
        simp [midRef, hbnd.1]
      rw [this]; exact hm.1
    exact matchLoop_emits text same mk i w hmid hm.2.2 (data (toLatin1 c)) hw _ h rfl

theorem wordMatch_exact (text : List Char) (i : Int) (w : List Char)
    (hm : WordMatch uc text i w) :
    (fun (w seg : List Char) => w == seg) w ((text.drop i.toNat).take w.length) = true ∧
      WordEdges uc text i w.length := by
  refine ⟨?_, hm.2.1, hm.2.2⟩
  simp only [beq_iff_eq]
  exact hm.1.symm

/-- C18: with keyed buckets, at a cursor `i` on a letter `c` the word classification of
lines 292-350 returns and emits at most one span; the span belongs to the first
table, in the order Type, Keyword, Literal, Builtin, Other, whose bucket holds a
word standing at `i` as a whole word (for the table Other the word is compared with
the text converted to Latin-1, line 330), and nothing is emitted when no table has
one. A word of the Type table that stands at `i` therefore gives a Type span and
no other. -/
theorem classification_priority (cfg : LangConfig) (st : Int) (text : List Char) (i : Int)
    (c : Char) (ht : KeyedBuckets cfg.types) (hk : KeyedBuckets cfg.keywords)
    (hl : KeyedBuckets cfg.literals) (hb : KeyedBuckets cfg.builtin)
    (ho : KeyedBuckets cfg.others) (hc : charAt text i = some c) (hcl : isLetter uc c = true) :
    ∃ sp j, classifyWord uc cfg st text i = some (sp, j) ∧ sp.length ≤ 1 ∧
      ((∃ w ∈ cfg.types (toLatin1 c), WordMatch uc text i w ∧ sp = [⟨i, w.length, .CodeType⟩]) ∨
       ((∀ w ∈ cfg.types (toLatin1 c), ¬ WordMatch uc text i w) ∧
         ∃ w ∈ cfg.keywords (toLatin1 c), WordMatch uc text i w ∧ sp = [⟨i, w.length, .CodeKeyWord⟩]) ∨
       ((∀ w ∈ cfg.types (toLatin1 c), ¬ WordMatch uc text i w) ∧
         (∀ w ∈ cfg.keywords (toLatin1 c), ¬ WordMatch uc text i w) ∧
         ∃ w ∈ cfg.literals (toLatin1 c), WordMatch uc text i w ∧ sp = [⟨i, w.length, .CodeNumLiteral⟩]) ∨
       ((∀ w ∈ cfg.types (toLatin1 c), ¬ WordMatch uc text i w) ∧
         (∀ w ∈ cfg.keywords (toLatin1 c), ¬ WordMatch uc text i w) ∧
         (∀ w ∈ cfg.literals (toLatin1 c), ¬ WordMatch uc text i w) ∧
         ∃ w ∈ cfg.builtin (toLatin1 c), WordMatch uc text i w ∧ sp = [⟨i, w.length, .CodeBuiltIn⟩]) ∨
       ((∀ w ∈ cfg.types (toLatin1 c), ¬ WordMatch uc text i w) ∧
         (∀ w ∈ cfg.keywords (toLatin1 c), ¬ WordMatch uc text i w) ∧
         (∀ w ∈ cfg.literals (toLatin1 c), ¬ WordMatch uc text i w) ∧
         (∀ w ∈ cfg.builtin (toLatin1 c), ¬ WordMatch uc text i w) ∧
         ∃ w ∈ cfg.others (toLatin1 c), OtherMatch uc text i w ∧
           sp = [otherSpan (decide (st = cfg.codeCpp)) i w.length]) ∨
       ((∀ w ∈ cfg.types (toLatin1 c), ¬ WordMatch uc text i w) ∧
         (∀ w ∈ cfg.keywords (toLatin1 c), ¬ WordMatch uc text i w) ∧
         (∀ w ∈ cfg.literals (toLatin1 c), ¬ WordMatch uc text i w) ∧
         (∀ w ∈ cfg.builtin (toLatin1 c), ¬ WordMatch uc text i w) ∧
         (∀ w ∈ cfg.others (toLatin1 c), ¬ OtherMatch uc text i w) ∧ sp = [])) ∧
      (∀ w ∈ cfg.types (toLatin1 c), WordMatch uc text i w →
        ∃ w' ∈ cfg.types (toLatin1 c), sp = [⟨i, w'.length, .CodeType⟩]) := by
  have hfalse := atWordEnd_of_letter text i c hc hcl
  have fin : ∀ (w : List Char), WordEdges uc text i w.length →
      atWordEnd uc text (i + (w.length : Int)) = some true :=
    fun w hm => atWordEnd_of_end text _ hm.2
  have idle : ∀ (data : WordTable) (cat : Category),
      applyCodeFormat uc i data text cat = some ([], i) →
      ∀ w ∈ data (toLatin1 c), ¬ WordMatch uc text i w := by
    intro data cat h w hw hm
    exact tableStep_idle data text _ _ i c hc ((applyCodeFormat_eq i data text cat) ▸ h) w hw
      (wordMatch_exact text i w hm)
  unfold classifyWord
  rcases tableStep_spec cfg.types ht text _ id comparesBy_exact _ i c hc hcl _
    (applyCodeFormat_eq i _ text .CodeType) with h | ⟨w, hw, h, hs, hm, hpos⟩
  swap
  · refine ⟨[⟨i, w.length, .CodeType⟩], i + w.length, ?_, by simp,
      Or.inl ⟨w, hw, wordMatch_of_exact text i w hs hm, rfl⟩, fun _ _ _ => ⟨w, hw, rfl⟩⟩
    simp [unlessWordEnd, hfalse, h, thenAt, fin w hm]
  have n1 := idle cfg.types .CodeType h
  have hT : ∀ sp : List Span, ∀ w ∈ cfg.types (toLatin1 c), WordMatch uc text i w →
      ∃ w' ∈ cfg.types (toLatin1 c), sp = [⟨i, w'.length, .CodeType⟩] :=
    fun sp w hw hm => absurd hm (n1 w hw)
  rcases tableStep_spec cfg.keywords hk text _ id comparesBy_exact _ i c hc hcl _
    (applyCodeFormat_eq i _ text .CodeKeyWord) with h2 | ⟨w, hw, h2, hs, hm, hpos⟩
  swap
  · refine ⟨[⟨i, w.length, .CodeKeyWord⟩], i + w.length, ?_, by simp,
      Or.inr (Or.inl ⟨n1, w, hw, wordMatch_of_exact text i w hs hm, rfl⟩), hT _⟩
    simp [unlessWordEnd, hfalse, h, h2, thenAt, fin w hm]
  have n2 := idle cfg.keywords .CodeKeyWord h2
  rcases tableStep_spec cfg.literals hl text _ id comparesBy_exact _ i c hc hcl _
    (applyCodeFormat_eq i _ text .CodeNumLiteral) with h3 | ⟨w, hw, h3, hs, hm, hpos⟩
  swap
  · refine ⟨[⟨i, w.length, .CodeNumLiteral⟩], i + w.length, ?_, by simp,
      Or.inr (Or.inr (Or.inl ⟨n1, n2, w, hw, wordMatch_of_exact text i w hs hm, rfl⟩)), hT _⟩
    simp [unlessWordEnd, hfalse, h, h2, h3, thenAt, fin w hm]
  have n3 := idle cfg.literals .CodeNumLiteral h3
  rcases tableStep_spec cfg.builtin hb text _ id comparesBy_exact _ i c hc hcl _
    (applyCodeFormat_eq i _ text .CodeBuiltIn) with h4 | ⟨w, hw, h4, hs, hm, hpos⟩
  swap
  · refine ⟨[⟨i, w.length, .CodeBuiltIn⟩], i + w.length, ?_, by simp,
      Or.inr (Or.inr (Or.inr (Or.inl
        ⟨n1, n2, n3, w, hw, wordMatch_of_exact text i w hs hm, rfl⟩))), hT _⟩
    simp [unlessWordEnd, hfalse, h, h2, h3, h4, thenAt, fin w hm]
  have n4 := idle cfg.builtin .CodeBuiltIn h4
  rcases tableStep_spec cfg.others ho text _ latin1Char comparesBy_latin1 _ i c hc hcl _
    (applyOther_eq (decide (st = cfg.codeCpp)) i _ text) with h5 | ⟨w, hw, h5, hs, hm, hpos⟩
  · have n5 : ∀ w ∈ cfg.others (toLatin1 c), ¬ OtherMatch uc text i w := by
      intro w hw hm
      exact tableStep_idle cfg.others text _ _ i c hc
        ((applyOther_eq (decide (st = cfg.codeCpp)) i cfg.others text) ▸ h5) w hw
        ⟨hm.1, hm.2.1, hm.2.2⟩
    refine ⟨[], skipLetters uc text i, ?_, by simp,
      Or.inr (Or.inr (Or.inr (Or.inr (Or.inr ⟨n1, n2, n3, n4, n5, rfl⟩)))), hT _⟩
    simp [unlessWordEnd, hfalse, h, h2, h3, h4, h5, thenAt]
  · have hne : ¬ i = i + (w.length : Int) := by omega
    refine ⟨[otherSpan (decide (st = cfg.codeCpp)) i w.length], i + w.length, ?_, by simp,
      Or.inr (Or.inr (Or.inr (Or.inr (Or.inl
        ⟨n1, n2, n3, n4, w, hw, ⟨hs, hm.1, hm.2⟩, rfl⟩)))), hT _⟩
    simp [unlessWordEnd, hfalse, h, h2, h3, h4, h5, thenAt, hne]

theorem keyedBuckets_int_both :
    KeyedBuckets intTypeKeywordConfig.types ∧ KeyedBuckets intTypeKeywordConfig.keywords := by
  constructor <;>
  · intro key w hw
    simp only [intTypeKeywordConfig] at hw
    split at hw
    · simp only [List.mem_singleton] at hw
      subst hw; simp [*]
    · cases hw

/-- C18 at the text `int x`, cursor 0, with `int` in the Type table and in the
Keyword table: one span, of category Type. -/
theorem classification_priority_witness :
    ∃ sp j, classifyWord plainQt intTypeKeywordConfig 202 ['i', 'n', 't', ' ', 'x'] 0 =
        some (sp, j) ∧
      sp.length ≤ 1 ∧
      ∃ w' ∈ intTypeKeywordConfig.types (toLatin1 'i'), sp = [⟨0, w'.length, .CodeType⟩] := by
  obtain ⟨sp, j, h1, h2, _, h4⟩ := @classification_priority plainQt intTypeKeywordConfig 202
    ['i', 'n', 't', ' ', 'x'] 0 'i' keyedBuckets_int_both.1 keyedBuckets_int_both.2
    keyedBuckets_empty keyedBuckets_empty keyedBuckets_empty (by decide) (by decide)
  exact ⟨sp, j, h1, h2, h4 ['i', 'n', 't'] (by decide)
    ⟨by decide, Or.inl rfl, Or.inr ⟨' ', by decide, by decide⟩⟩⟩

/-- The scan of `int x` with `int` in both tables: the Type span `(0, 3)` and no
Keyword span. -/
theorem type_before_keyword_example :
    genericScan uc intTypeKeywordConfig ['i', 'n', 't', ' ', 'x'] 202 20 =
      ⟨[⟨0, 5, .CodeBlock⟩, ⟨0, 3, .CodeType⟩], 202, .completed⟩ :=
  rfl

/-! ## Theorems: YAML key -/

theorem ymlKeyAndLink_found (stray : Option Char) (text : List Char) (i : Int) (c : Char)
    (colon : Int) :
    ∃ link, ymlKeyAndLink stray text i c true colon = some (link, true) ∧
      ∀ s ∈ link, s.cat = .Link := by
  unfold ymlKeyAndLink
  simp only [Bool.not_true, Bool.false_eq_true, false_and, if_false, Option.map_some',
    List.nil_append, Bool.or_false]
  split
  · exact ⟨_, rfl, fun s hs => by simp only [List.mem_singleton] at hs; rw [hs]⟩
  · exact ⟨_, rfl, fun s hs => by cases hs⟩

/-- Once `colonFound` is set, the body of the loop keeps it set and emits no
Keyword span. -/
theorem ymlBody_found (stray : Option Char) (text : List Char) (i : Int) :
    (ymlBody uc stray text i true).2 = true ∧
      ∀ s ∈ (ymlBody uc stray text i true).1.spans, s.cat ≠ .CodeKeyWord := by
  have hnil : ∀ s ∈ ([] : List Span), s.cat ≠ .CodeKeyWord := fun s hs => by cases hs
  unfold ymlBody
  cases charAtOr stray text i with
  | none => exact ⟨rfl, hnil⟩
  | some c =>
    simp only
    split
    · exact ⟨rfl, hnil⟩
    · split
      · exact ⟨rfl, hnil⟩
      · cases charAtOr stray text (i - 1) with
        | none => exact ⟨rfl, hnil⟩
        | some b =>
          simp only
          split
          · exact ⟨rfl, hnil⟩
          · split
            · exact ⟨rfl, hnil⟩
            · obtain ⟨link, hlink, hcat⟩ :=
                ymlKeyAndLink_found stray text i c (indexOfChar text ':' i)
              rw [hlink]
              refine ⟨rfl, ?_⟩
              intro s hs
              have := hcat s hs
              rw [this]; decide

theorem ymlLoop_found (stray : Option Char) (text : List Char) :
    ∀ (fuel : Nat) (i : Int), ∀ s ∈ (ymlLoop uc stray text fuel i true).spans,
      s.cat ≠ .CodeKeyWord := by
  intro fuel
  induction fuel with
  | zero => intro i s hs; cases hs
  | succ f ih =>
    intro i s hs
    rw [ymlLoop] at hs
    split at hs
    · have hb := @ymlBody_found uc stray text i
      revert hs
      rcases h : ymlBody uc stray text i true with ⟨ctl, cf⟩
      rw [h] at hb
      cases ctl with
      | next sp j =>
        intro hs
        simp only at hs hb
        rw [hb.1, postResult_after_spans] at hs
        rcases List.mem_append.1 hs with h1 | h1
        · exact hb.2 s h1
        · exact ih (j + 1) s h1
      | ret sp => intro hs; exact hb.2 s hs
      | fault sp e => intro hs; exact hb.2 s hs
    · cases hs

theorem ymlLoop_skip (stray : Option Char) (text : List Char) (cf : Bool) (fuel : Nat) :
    ∀ (n : Nat) (i : Int), 0 ≤ i →
      (∀ j, i ≤ j → j < i + n → ∃ ch, charAt text j = some ch ∧ isLetter uc ch = false) →
      ymlLoop uc stray text (fuel + n) i cf = ymlLoop uc stray text fuel (i + n) cf := by
  intro n
  induction n with
  | zero => intro i _ _; simp
  | succ n ih =>
    intro i h0 hskip
    obtain ⟨ch, hch, hl⟩ := hskip i (le_refl _) (by push_cast; omega)
    have hb := charAt_bounds text i ch hch
    have hc : charAtOr stray text i = some ch := by simp [charAtOr, hch]
    have hbody : ymlBody uc stray text i cf = (.next [] i, cf) := by
      unfold ymlBody
      rw [hc]
      simp [hl]
    have e : fuel + (n + 1) = (fuel + n) + 1 := by omega
    rw [e, ymlLoop, if_pos hb.2, hbody]
    simp only [postResult_after_nil]
    rw [ih (i + 1) (by omega) (fun j h1 h2 => hskip j (by omega) (by push_cast; omega))]
    congr 1
    push_cast; omega

/-- The YAML key of C14 when the read before the first letter stays harmless: the
first letter of the text is at `p`, the read of line 508 at `p - 1` yields a
character that is no quote (inside the text for `p ≥ 1`; for `p = 0` it is the read
at index -1), the first `:` from `p` on is at `c`, `c + 1 < len` and no backslash
stands at `c + 1`. Then the first span emitted by `ymlHighlighter` is the Keyword span
`(p, c - p)` and no later span is a Keyword span. -/
theorem yaml_key_after_harmless_read (stray : Option Char) (text : List Char) (p c : Int)
    (l : Char)
    (hfirst : ∀ j, 0 ≤ j → j < p → ∃ ch, charAt text j = some ch ∧ isLetter uc ch = false)
    (hp : charAt text p = some l) (hl : isLetter uc l = true)
    (hbefore : ∃ b, charAtOr stray text (p - 1) = some b ∧ b ≠ '"' ∧ b ≠ '\'')
    (hc : indexOfChar text ':' p = c) (hc0 : 0 ≤ c) (hc1 : c + 1 < qlen text)
    (hc2 : charAt text (c + 1) ≠ some '\\')
    (fuel : Nat) (hfuel : p.toNat + 1 ≤ fuel) :
    ∃ rest, (ymlHighlighter uc stray text fuel).spans = ⟨p, c - p, .CodeKeyWord⟩ :: rest ∧
      ∀ s ∈ rest, s.cat ≠ .CodeKeyWord := by
  have hb := charAt_bounds text p l hp
  have hne : text.isEmpty = false := by
    cases text with
    | nil => simp [qlen] at hb; omega
    | cons x xs => rfl
  obtain ⟨f, rfl⟩ : ∃ f, fuel = (f + 1) + p.toNat := ⟨fuel - p.toNat - 1, by omega⟩
  obtain ⟨b, hb1, hb2, hb3⟩ := hbefore
  obtain ⟨d, hd⟩ := charAt_lt text (c + 1) (by omega) hc1
  have hdb : d ≠ '\\' := by intro h; rw [h] at hd; exact hc2 hd
  -- the body of the loop at the first letter
  obtain ⟨link, hkey, hlink⟩ : ∃ link, ymlKeyAndLink stray text p l false c =
      some (⟨p, c - p, .CodeKeyWord⟩ :: link, true) ∧ ∀ s ∈ link, s.cat = .Link := by
    have hd' : charAtOr stray text (c + 1) = some d := by simp [charAtOr, hd]
    have hbne : (d != '\\') = true := by simp [hdb]
    have hcond : (!false) = true ∧ c + 1 < qlen text := ⟨rfl, hc1⟩
    unfold ymlKeyAndLink
    rw [if_pos hcond, hd']
    simp only [Option.map_some', hbne, if_true, Bool.or_true, List.singleton_append]
    split
    · exact ⟨_, rfl, fun s hs => by simp only [List.mem_singleton] at hs; rw [hs]⟩
    · exact ⟨_, rfl, fun s hs => by cases hs⟩
  have hbody : ymlBody uc stray text p false = (.next (⟨p, c - p, .CodeKeyWord⟩ :: link) p, true) := by
    have hcp : charAtOr stray text p = some l := by simp [charAtOr, hp]
    have hq : ¬ (b = '"' ∨ b = '\'') := by
      rintro (h | h)
      · exact hb2 h
      · exact hb3 h
    have hcm : ¬ c = -1 := by omega
    unfold ymlBody
    rw [hcp]
    simp only [hl, Bool.not_true, Bool.false_eq_true, if_false, false_and, hb1, hq, hc, hcm, hkey]
  have hskip := ymlLoop_skip stray text false (f + 1) p.toNat 0 (le_refl _)
    (fun j h1 h2 => hfirst j h1 (by omega))
  have e0 : (0 : Int) + (p.toNat : Int) = p := by omega
  rw [e0] at hskip
  refine ⟨link ++ (ymlLoop uc stray text f (p + 1) true).spans, ?_, ?_⟩
  · simp only [ymlHighlighter, hne, Bool.false_eq_true, if_false]
    rw [hskip, ymlLoop, if_pos hb.2, hbody]
    simp only [postResult_after_spans, List.cons_append]
  · intro s hs
    rcases List.mem_append.1 hs with h | h
    · rw [hlink s h]; decide
    · exact ymlLoop_found stray text f (p + 1) s h

/-- C14 (evaluation of the code): on the block `name: value` the first letter is at
0 and line 508 reads `text.at(i-1)` at index -1, outside the text, before the key
is looked for: a run that stops at that read emits no span at all; a run that
goes on with U+0000 for that read emits the Keyword span `(0, 4)`. -/
theorem yaml_key_first_column :
    ymlHighlighter uc none ['n', 'a', 'm', 'e', ':', ' ', 'v', 'a', 'l', 'u', 'e'] 20 =
      ⟨[], .outOfBounds⟩ ∧
    ymlHighlighter uc (some (Char.ofNat 0)) ['n', 'a', 'm', 'e', ':', ' ', 'v', 'a', 'l', 'u', 'e']
      20 = ⟨[⟨0, 4, .CodeKeyWord⟩], .completed⟩ :=
  ⟨rfl, rfl⟩

/-! ## Theorems: span bounds -/

theorem findFrom_prefix_bound (pat : List Char) :
    ∀ (l : List Char) (base k : Nat), findFrom (fun s => pat.isPrefixOf s) l base = some k →
      base ≤ k ∧ k + pat.length ≤ base + l.length := by
  intro l
  induction l with
  | nil => intro base k h; simp [findFrom] at h
  | cons c cs ih =>
    intro base k h
    rw [findFrom] at h
    by_cases hp : pat.isPrefixOf (c :: cs) = true
    · rw [if_pos hp] at h
      have hk : base = k := by simpa using h
      have hle := (List.isPrefixOf_iff_prefix.1 hp).length_le
      omega
    · rw [if_neg hp] at h
      have := ih (base + 1) k h
      simp only [List.length_cons]
      omega

theorem indexOfStr_bound (text pat : List Char) (h : indexOfStr text pat ≠ -1) :
    0 ≤ indexOfStr text pat ∧ indexOfStr text pat + (pat.length : Int) ≤ qlen text := by
  unfold indexOfStr at h ⊢
  cases hf : findFrom (fun s => pat.isPrefixOf s) text 0 with
  | none => rw [hf] at h; exact absurd rfl h
  | some k =>
    have := findFrom_prefix_bound pat text 0 k hf
    simp only [qlen]
    omega

theorem indexOfChar_ge (text : List Char) (ch : Char) (k : Int) (hk : 0 ≤ k) :
    indexOfChar text ch k = -1 ∨
      (k ≤ indexOfChar text ch k ∧ indexOfChar text ch k < qlen text ∧
        charAt text (indexOfChar text ch k) = some ch) := by
  rcases indexOfChar_spec text ch k hk with ⟨h, _⟩ | ⟨h1, h2, _⟩
  · exact Or.inl h
  · exact Or.inr ⟨h1, (charAt_bounds text _ ch h2).2, h2⟩

theorem commentPart_ok (text : List Char) (i st : Int) (h0 : 0 ≤ i) (h1 : i < qlen text) :
    (∀ s ∈ (commentPart text i st).spans, SpanInBlock text s ∨ SlipSpan text s) ∧
      (commentPart text i st).inText text := by
  unfold commentPart
  by_cases hn : indexOfStr text ['*', '/'] = -1
  · simp only [hn, if_true, Ctl.spans, Ctl.inText, List.mem_singleton, and_true]
    intro s hs
    rw [hs]
    exact Or.inl ⟨h0, h1, by show 0 < qlen text; omega, Or.inr ⟨rfl, rfl⟩⟩
  · have hb := indexOfStr_bound text ['*', '/'] hn
    simp only [List.length_cons, List.length_nil, Nat.zero_add, Nat.reduceAdd,
      Nat.cast_ofNat] at hb
    have hspan : ∀ s ∈ [(⟨i, indexOfStr text ['*', '/'] + 2 - i, .CodeComment⟩ : Span)],
        SpanInBlock text s ∨ SlipSpan text s := by
      intro s hs
      simp only [List.mem_singleton] at hs
      rw [hs]
      by_cases hc : 0 < indexOfStr text ['*', '/'] + 2 - i
      · exact Or.inl ⟨h0, h1, hc, Or.inl (by
          show i + (indexOfStr text ['*', '/'] + 2 - i) ≤ qlen text; omega)⟩
      · exact Or.inr (Or.inl ⟨rfl, hn, by
          show i + (indexOfStr text ['*', '/'] + 2 - i) = _; omega, by
          show indexOfStr text ['*', '/'] + 2 - i ≤ 0; omega⟩)
    simp only [hn, if_false]
    by_cases hge : indexOfStr text ['*', '/'] + 2 ≥ qlen text
    · simp only [hge, if_true, Ctl.spans, Ctl.inText, and_true]
      exact hspan
    · have hw : ¬ (indexOfStr text ['*', '/'] + 2 ≥ qlen text) := hge
      simp only [hge, if_false, whileTail, Ctl.spans, Ctl.inText]
      exact ⟨hspan, by omega, by omega⟩

theorem stringLoop_edge (Q : Char) (text : List Char) (fuel : Nat) (i : Int)
    (h1 : charAt text i = some Q) (h2 : charAt text (i - 1) = none) :
    stringLoop Q text (fuel + 1) i = ⟨[], i, .outOfBounds⟩ := by
  have hb := charAt_bounds text i Q h1
  simp [stringLoop, hb.2, h1, h2]

/-- The loop of the string helper from a cursor in `[0, len]`: every span is in the
block or is recorded at an escape that no space and no quote character `Q` follows,
and the cursor handed back lies in `[0, len]`. -/
theorem stringLoop_ok (Q : Char) (text : List Char) (hQ : Q ≠ '\\') :
    ∀ (fuel : Nat) (i : Int), 0 ≤ i → i ≤ qlen text →
      (∀ s ∈ (stringLoop Q text fuel i).spans, SpanInBlock text s ∨
        ∃ j, charAt text j = some '\\' ∧ indexOfChar text ' ' j = -1 ∧
          indexOfChar text Q j = -1 ∧
          (s = ⟨j, -1 - j, .CodeNumLiteral⟩ ∨ s = ⟨-1, 1, .CodeString⟩)) ∧
      0 ≤ (stringLoop Q text fuel i).pos ∧ (stringLoop Q text fuel i).pos ≤ qlen text := by
  intro fuel
  induction fuel with
  | zero =>
    intro i h0 h1
    exact ⟨(fun s hs => by cases hs), h0, h1⟩
  | succ f ih =>
    intro i h0 h1
    by_cases hlt : i < qlen text
    swap
    · rw [stringLoop_end Q text f i (by omega)]
      exact ⟨(fun s hs => by cases hs), h0, h1⟩
    obtain ⟨c, hc⟩ := charAt_lt text i h0 hlt
    have hone : ∀ k, 0 ≤ k → k < qlen text → SpanInBlock text ⟨k, 1, .CodeString⟩ :=
      fun k hk0 hk1 => ⟨hk0, hk1, by simp, Or.inl (by show k + 1 ≤ qlen text; omega)⟩
    have hcont : (stringLoop Q text (f + 1) i =
        { stringLoop Q text f ((escapeStep Q text c i).1 + 1) with
          spans := (escapeStep Q text c i).2 ++ ⟨(escapeStep Q text c i).1, 1, .CodeString⟩ ::
            (stringLoop Q text f ((escapeStep Q text c i).1 + 1)).spans }) →
        (∀ s ∈ (stringLoop Q text (f + 1) i).spans, SpanInBlock text s ∨
          ∃ j, charAt text j = some '\\' ∧ indexOfChar text ' ' j = -1 ∧
            indexOfChar text Q j = -1 ∧
            (s = ⟨j, -1 - j, .CodeNumLiteral⟩ ∨ s = ⟨-1, 1, .CodeString⟩)) ∧
        0 ≤ (stringLoop Q text (f + 1) i).pos ∧ (stringLoop Q text (f + 1) i).pos ≤ qlen text := by
      intro hrw
      rw [hrw]
      by_cases hcb : c = '\\'
      · -- an escape
        have hsp : ∃ sp : Int, escapeStep Q text c i = (sp, [⟨i, sp - i, .CodeNumLiteral⟩]) ∧
            ((i < sp ∧ sp < qlen text) ∨
              (sp = -1 ∧ indexOfChar text ' ' i = -1 ∧ indexOfChar text Q i = -1)) := by
          rcases indexOfChar_ge text ' ' i h0 with hs | ⟨hs1, hs2, hs3⟩
          · rcases indexOfChar_ge text Q i h0 with hq | ⟨hq1, hq2, hq3⟩
            · exact ⟨-1, by simp [escapeStep, hcb, hs, hq], Or.inr ⟨rfl, hs, hq⟩⟩
            · have hne : indexOfChar text Q i ≠ i := by
                intro he; rw [he, hc] at hq3
                have := Option.some.inj hq3
                exact hQ (by rw [← this, hcb])
              exact ⟨indexOfChar text Q i, by simp [escapeStep, hcb, hs],
                Or.inl ⟨by omega, hq2⟩⟩
          · have hne : indexOfChar text ' ' i ≠ i := by
              intro he; rw [he, hc] at hs3
              have := Option.some.inj hs3
              rw [hcb] at this; exact absurd this (by decide)
            have hne1 : ¬ indexOfChar text ' ' i = -1 := by omega
            exact ⟨indexOfChar text ' ' i, by simp [escapeStep, hcb, hne1],
              Or.inl ⟨by omega, hs2⟩⟩
        obtain ⟨sp, hstep, hcase⟩ := hsp
        rw [hstep]
        obtain ⟨e1, e2, e3⟩ := ih (sp + 1) (by omega) (by omega)
        refine ⟨?_, e2, e3⟩
        intro s hs
        simp only [List.singleton_append, List.mem_cons] at hs
        rcases hs with rfl | rfl | hs
        · rcases hcase with ⟨a, b⟩ | ⟨a, b, d⟩
          · exact Or.inl ⟨h0, hlt, by show 0 < sp - i; omega, Or.inl (by
              show i + (sp - i) ≤ qlen text; omega)⟩
          · exact Or.inr ⟨i, by rw [hc, hcb], b, d, Or.inl (by rw [a])⟩
        · rcases hcase with ⟨a, b⟩ | ⟨a, b, d⟩
          · exact Or.inl (hone sp (by omega) b)
          · exact Or.inr ⟨i, by rw [hc, hcb], b, d, Or.inr (by rw [a])⟩
        · exact e1 s hs
      · have hstep : escapeStep Q text c i = (i, []) := by simp [escapeStep, hcb]
        rw [hstep]
        obtain ⟨e1, e2, e3⟩ := ih (i + 1) (by omega) (by omega)
        refine ⟨?_, e2, e3⟩
        intro s hs
        simp only [List.nil_append, List.mem_cons] at hs
        rcases hs with rfl | hs
        · exact Or.inl (hone i h0 hlt)
        · exact e1 s hs
    by_cases hcq : c = Q
    · cases hprev : charAt text (i - 1) with
      | none =>
        rw [stringLoop_edge Q text f i (by rw [hc, hcq]) hprev]
        exact ⟨(fun s hs => by cases hs), h0, h1⟩
      | some d =>
        by_cases hd : d = '\\'
        · exact hcont (stringLoop_cont Q text f i c hc (fun _ => by rw [hprev, hd]))
        · have hb := charAt_bounds text (i - 1) d hprev
          rw [stringLoop_term Q text f i (by omega) (by rw [hc, hcq])
            (by rw [hprev]; intro h; exact hd (Option.some.inj h))]
          refine ⟨?_, by show 0 ≤ i + 1; omega, by show i + 1 ≤ qlen text; omega⟩
          intro s hs
          simp only [List.mem_singleton] at hs
          rw [hs]; exact Or.inl (hone i h0 hlt)
    · exact hcont (stringLoop_cont Q text f i c hc (fun h => absurd h hcq))

theorem numberBoundary_inBlock (text : List Char) (i : Int) (s : Span) (h0 : 0 ≤ i)
    (h1 : i < qlen text) (h : NumberBoundary text i s) : SpanInBlock text s := by
  obtain ⟨_, hs, hc, _, hend⟩ := h
  refine ⟨by omega, by omega, hc, Or.inl ?_⟩
  rcases hend with h | ⟨c, _, h⟩ | ⟨c, _, h⟩
  · omega
  · have := charAt_bounds text _ c h; omega
  · have := charAt_bounds text _ c h; omega

theorem whileTail_ok (text : List Char) (sp : List Span) (j st : Int) (h0 : 0 ≤ j)
    (h1 : j ≤ qlen text) (hsp : ∀ s ∈ sp, SpanInBlock text s ∨ SlipSpan text s) :
    (∀ s ∈ (whileTail text sp j st).spans, SpanInBlock text s ∨ SlipSpan text s) ∧
      (whileTail text sp j st).inText text := by
  rcases whileTail_cases text sp j st h1 with ⟨e, _⟩ | ⟨e, hjl⟩
  · rw [e]; exact ⟨hsp, h0, h1⟩
  · rw [e]; exact ⟨hsp, by omega, by omega⟩

/-- One visit of the head of the `while` loop at a cursor in `[0, len]`: every span
emitted is in the block or is one of the spans of `SlipSpan`, and control goes on
with a cursor in `[0, len]`. -/
theorem whileHead_ok (cfg : LangConfig) (text : List Char) (fuel : Nat) (i st : Int)
    (h0 : 0 ≤ i) (h1 : i ≤ qlen text) :
    (∀ s ∈ (whileHead uc cfg text fuel i st).spans, SpanInBlock text s ∨ SlipSpan text s) ∧
      (whileHead uc cfg text fuel i st).inText text := by
  have hnil : ∀ s ∈ ([] : List Span), SpanInBlock text s ∨ SlipSpan text s :=
    fun s hs => by cases hs
  have hcomment : ∀ s ∈ [(⟨i, qlen text, .CodeComment⟩ : Span)], i < qlen text →
      SpanInBlock text s ∨ SlipSpan text s := by
    intro s hs hlt
    simp only [List.mem_singleton] at hs
    rw [hs]
    exact Or.inl ⟨h0, hlt, by show 0 < qlen text; omega, Or.inr ⟨rfl, rfl⟩⟩
  by_cases hlt : i < qlen text
  swap
  · have : whileHead uc cfg text fuel i st = .afterWhile [] i st := by simp [whileHead, hlt]
    rw [this]; exact ⟨hnil, h0, h1⟩
  obtain ⟨c, hci⟩ := charAt_lt text i h0 hlt
  by_cases hl : isLetter uc c = true
  · have : whileHead uc cfg text fuel i st = .afterWhile [] i st := by
      simp [whileHead, hlt, hci, hl]
    rw [this]; exact ⟨hnil, h0, h1⟩
  have hl' : isLetter uc c = false := by simpa using hl
  have hw : whileHead uc cfg text fuel i st = whileBody uc cfg text fuel i st c := by
    simp [whileHead, hlt, hci, hl']
  rw [hw]
  unfold whileBody
  by_cases hsp : isSpace uc c = true
  · rw [if_pos hsp]
    by_cases he : i + 1 = qlen text
    · rw [if_pos he]; exact ⟨hnil, trivial⟩
    · obtain ⟨d, hd⟩ := charAt_lt text (i + 1) (by omega) (by omega)
      rw [if_neg he, hd]
      by_cases hdl : isLetter uc d = true
      · simp only [hdl, if_true]; exact ⟨hnil, by omega, by omega⟩
      · simp only [hdl, Bool.false_eq_true, if_false]; exact ⟨hnil, by omega, by omega⟩
  · rw [if_neg hsp]
    by_cases hA : cfg.comment.val = 0 ∧ c = '/'
    · rw [if_pos hA]
      by_cases hi1 : i + 1 < qlen text
      · rw [if_pos hi1]
        obtain ⟨e, he⟩ := charAt_lt text (i + 1) (by omega) hi1
        rw [he]
        by_cases e1 : e = '/'
        · simp only [e1, if_true]
          exact ⟨fun s hs => hcomment s hs hlt, trivial⟩
        · by_cases e2 : e = '*'
          · simp only [e1, if_false, e2, if_true]
            exact commentPart_ok text i st h0 hlt
          · simp only [e1, e2, if_false]
            exact whileTail_ok text [] i st h0 h1 hnil
      · rw [if_neg hi1]
        exact whileTail_ok text [] i st h0 h1 hnil
    · rw [if_neg hA]
      by_cases hB : c = cfg.comment
      · rw [if_pos hB]
        exact whileTail_ok text _ (qlen text) st (by omega) (le_refl _)
          (fun s hs => hcomment s hs hlt)
      · rw [if_neg hB]
        by_cases hn : isNumber uc c = true
        · rw [if_pos hn]
          obtain ⟨sp, j, h, _, hj1, hj2, hall⟩ := @highlightIntegerLiterals_spec uc text i c hci
          rw [h]
          exact whileTail_ok text sp j st (by omega) hj2
            (fun s hs => Or.inl (numberBoundary_inBlock text i s h0 hlt (hall s hs)))
        · rw [if_neg hn]
          by_cases hq : c = '"' ∨ c = '\''
          · rw [if_pos hq]
            have hQ : c ≠ '\\' := by
              rcases hq with h | h <;> (rw [h]; decide)
            obtain ⟨s1, s2, s3⟩ := stringLoop_ok c text hQ fuel (i + 1) (by omega) (by omega)
            have hspans : ∀ s ∈ (highlightStringLiterals c text i fuel).spans,
                SpanInBlock text s ∨ SlipSpan text s := by
              intro s hs
              simp only [highlightStringLiterals, ScanResult.emit, List.mem_cons] at hs
              rcases hs with rfl | hs
              · exact Or.inl ⟨h0, hlt, by simp, Or.inl (by show i + 1 ≤ qlen text; omega)⟩
              · rcases s1 s hs with h | ⟨j, a, b, d, e⟩
                · exact Or.inl h
                · refine Or.inr (Or.inr (Or.inl ⟨j, a, b, ?_, e⟩))
                  rcases hq with h | h
                  · left; rw [← h]; exact d
                  · right; rw [← h]; exact d
            have hpos : (highlightStringLiterals c text i fuel).pos =
                (stringLoop c text fuel (i + 1)).pos := rfl
            simp only
            cases hex : (highlightStringLiterals c text i fuel).exit with
            | returned =>
              simp only
              exact whileTail_ok text _ _ st (by rw [hpos]; exact s2) (by rw [hpos]; exact s3)
                hspans
            | completed => exact ⟨hspans, trivial⟩
            | outOfBounds => exact ⟨hspans, trivial⟩
            | outOfFuel => exact ⟨hspans, trivial⟩
          · rw [if_neg hq]
            exact whileTail_ok text [] i st h0 h1 hnil

theorem forHead_ok (text : List Char) (i st : Int) (h0 : 0 ≤ i) :
    (∀ s ∈ (forHead text i st).spans, SpanInBlock text s ∨ SlipSpan text s) ∧
      (forHead text i st).inText text := by
  unfold forHead
  by_cases hlt : i < qlen text
  · rw [if_pos hlt]
    by_cases hst : st % 2 ≠ 0
    · rw [if_pos hst]; exact commentPart_ok text i st h0 hlt
    · rw [if_neg hst]; exact ⟨(fun s hs => by cases hs), h0, by omega⟩
  · rw [if_neg hlt]; exact ⟨(fun s hs => by cases hs), trivial⟩

/-- Lines 292-350 at a cursor in `[0, len]`, for tables with keyed buckets: the
classification returns with a cursor in `[0, len]`, and every span is in the block
or is the Other span that lines 333-335 record at `-1`. -/
theorem classifyWord_ok (cfg : LangConfig) (st : Int) (text : List Char) (i : Int)
    (ht : KeyedBuckets cfg.types) (hk : KeyedBuckets cfg.keywords)
    (hl : KeyedBuckets cfg.literals) (hb : KeyedBuckets cfg.builtin)
    (ho : KeyedBuckets cfg.others) (h0 : 0 ≤ i) (h1 : i ≤ qlen text) :
    ∃ sp j, classifyWord uc cfg st text i = some (sp, j) ∧ i ≤ j ∧ j ≤ qlen text ∧
      ∀ s ∈ sp, SpanInBlock text s ∨ SlipSpan text s := by
  obtain ⟨sp, j, h, hj1, hj2, hcase⟩ := @classifyWord_spec uc cfg st text i ht hk hl hb ho h0 h1
  refine ⟨sp, j, h, hj1, hj2, ?_⟩
  intro s hs
  rcases hcase with ⟨hnil, _⟩ | ⟨w, c, hpos, hj, _, _, _, hsp⟩
  · rw [hnil] at hs; cases hs
  · have hwpos : (0 : Int) < (w.length : Int) := by omega
    have key : ∀ cat, SpanInBlock text ⟨i, w.length, cat⟩ := fun cat =>
      ⟨h0, by show i < qlen text; omega, hwpos, Or.inl (by
        show i + (w.length : Int) ≤ qlen text; omega)⟩
    rcases hsp with ⟨_, _, e⟩ | ⟨_, _, e⟩ | ⟨_, _, e⟩ | ⟨_, _, e⟩ | ⟨_, _, e⟩
    · rw [e] at hs; simp only [List.mem_singleton] at hs; rw [hs]; exact Or.inl (key _)
    · rw [e] at hs; simp only [List.mem_singleton] at hs; rw [hs]; exact Or.inl (key _)
    · rw [e] at hs; simp only [List.mem_singleton] at hs; rw [hs]; exact Or.inl (key _)
    · rw [e] at hs; simp only [List.mem_singleton] at hs; rw [hs]; exact Or.inl (key _)
    · rw [e] at hs
      simp only [List.mem_singleton] at hs
      rw [hs]
      unfold otherSpan
      split
      · by_cases hi0 : i = 0
        · exact Or.inr (Or.inr (Or.inr (Or.inl ⟨rfl, by show i - 1 = -1; omega⟩)))
        · exact Or.inl ⟨by show 0 ≤ i - 1; omega, by show i - 1 < qlen text; omega,
            by show 0 < (w.length : Int) + 1; omega, Or.inl (by
              show i - 1 + ((w.length : Int) + 1) ≤ qlen text; omega)⟩
      · exact Or.inl (key _)

theorem scanLoop_ok (cfg : LangConfig) (text : List Char)
    (ht : KeyedBuckets cfg.types) (hk : KeyedBuckets cfg.keywords)
    (hl : KeyedBuckets cfg.literals) (hb : KeyedBuckets cfg.builtin)
    (ho : KeyedBuckets cfg.others) :
    ∀ (fuel : Nat) (atFor : Bool) (i st : Int), 0 ≤ i → (atFor = false → i ≤ qlen text) →
      ∀ s ∈ (scanLoop uc cfg text fuel atFor i st).spans,
        SpanInBlock text s ∨ SlipSpan text s := by
  intro fuel
  induction fuel with
  | zero => intro atFor i st _ _ s hs; cases hs
  | succ f ih =>
    intro atFor i st h0 h1 s hs
    have key : ∀ ctl : Ctl, (∀ s ∈ ctl.spans, SpanInBlock text s ∨ SlipSpan text s) →
        ctl.inText text →
        (∀ sp j st1, ctl = .whileHead sp j st1 →
          s ∈ ((scanLoop uc cfg text f false j st1).after sp).spans →
          SpanInBlock text s ∨ SlipSpan text s) ∧
        (∀ sp j st1, ctl = .afterWhile sp j st1 →
          s ∈ (match classifyWord uc cfg st1 text j with
            | none => (⟨sp, st1, .outOfBounds⟩ : Result)
            | some (sp2, k) => (scanLoop uc cfg text f true (k + 1) st1).after (sp ++ sp2)).spans →
          SpanInBlock text s ∨ SlipSpan text s) := by
      intro ctl hsp hin
      constructor
      · intro sp j st1 he hs
        rw [he] at hsp hin
        rw [after_spans] at hs
        rcases List.mem_append.1 hs with h | h
        · exact hsp s h
        · exact ih false j st1 hin.1 (fun _ => hin.2) s h
      · intro sp j st1 he hs
        rw [he] at hsp hin
        obtain ⟨sp2, k, hw, hk1, hk2, hcat⟩ :=
          @classifyWord_ok uc cfg st1 text j ht hk hl hb ho hin.1 hin.2
        have hj := hin.1
        rw [hw] at hs
        simp only [after_spans] at hs
        rcases List.mem_append.1 hs with h | h
        · rcases List.mem_append.1 h with h' | h'
          · exact hsp s h'
          · exact hcat s h'
        · exact ih true (k + 1) st1 (by omega) (fun h => by cases h) s h
    cases atFor with
    | true =>
      have hctl := forHead_ok text i st h0
      rw [scanLoop] at hs
      simp only [if_true] at hs
      cases hc : forHead text i st with
      | ret sp st1 => rw [hc] at hs hctl; exact hctl.1 s hs
      | done st1 => rw [hc] at hs; cases hs
      | fault sp st1 e => rw [hc] at hs hctl; exact hctl.1 s hs
      | whileHead sp j st1 =>
        rw [hc] at hs; exact (key _ hctl.1 hctl.2).1 sp j st1 hc hs
      | afterWhile sp j st1 =>
        rw [hc] at hs; exact (key _ hctl.1 hctl.2).2 sp j st1 hc hs
    | false =>
      have hctl := @whileHead_ok uc cfg text f i st h0 (h1 rfl)
      rw [scanLoop] at hs
      simp only [Bool.false_eq_true, if_false] at hs
      cases hc : whileHead uc cfg text f i st with
      | ret sp st1 => rw [hc] at hs hctl; exact hctl.1 s hs
      | done st1 => rw [hc] at hs; cases hs
      | fault sp st1 e => rw [hc] at hs hctl; exact hctl.1 s hs
      | whileHead sp j st1 =>
        rw [hc] at hs; exact (key _ hctl.1 hctl.2).1 sp j st1 hc hs
      | afterWhile sp j st1 =>
        rw [hc] at hs; exact (key _ hctl.1 hctl.2).2 sp j st1 hc hs

theorem lastIndexOfChar_le (text : List Char) (ch : Char) (f : Int) (hf : 0 ≤ f) :
    lastIndexOfChar text ch f ≤ f := by
  unfold lastIndexOfChar
  have hneg : ¬ f < 0 := by omega
  simp only [hneg, if_false]
  split
  · omega
  · cases hk : lastFrom ch (text.take (f.toNat + 1)) 0 none with
    | none => simp only; omega
    | some k =>
      simp only
      rcases lastFrom_spec ch _ 0 none k hk with h | ⟨_, h⟩
      · cases h
      · have hlt : k - 0 < (text.take (f.toNat + 1)).length := by
          by_contra hge
          rw [List.get?_eq_none.2 (by omega)] at h
          cases h
        rw [List.length_take] at hlt
        omega

/-- A span of the XML scanner is in the block, or it is the Keyword span of an empty
tag name, or the Builtin span of an `=` at offset 0 or 1. -/
theorem xmlSpanRule_ok (text : List Char) (s : Span) (h : XmlSpanRule text s) :
    SpanInBlock text s ∨ SlipSpan text s := by
  rcases h with ⟨i, d, g, hi, hd, _, hg, hpos, rfl⟩ | ⟨e, b, he, hb, hpos, rfl⟩ |
    ⟨j, hj, hj2, h⟩
  · have hbi := charAt_bounds text i '<' hi
    rcases indexOfChar_ge text '>' i hbi.1 with hn | ⟨h1, h2, h3⟩
    · omega
    · rw [hg] at h1 h2 h3
      have hne : g ≠ i := by
        intro he; rw [he, hi] at h3
        exact absurd (Option.some.inj h3) (by decide)
      by_cases hsl : d = '/'
      · have hne2 : g ≠ i + 1 := by
          intro he; rw [he, hd, hsl] at h3
          exact absurd (Option.some.inj h3) (by decide)
        simp only [hsl, if_true]
        by_cases hz : g = i + 1 + 1
        · refine Or.inr (Or.inr (Or.inr (Or.inr (Or.inr (Or.inr (Or.inl ⟨rfl, ?_, ?_⟩))))))
          · show g - (i + 1 + 1) = 0; omega
          · show charAt text (i + 1 + 1) = some '>'; rw [← hz]; exact h3
        · exact Or.inl ⟨by show 0 ≤ i + 1 + 1; omega, by show i + 1 + 1 < qlen text; omega,
            by show 0 < g - (i + 1 + 1); omega, Or.inl (by
              show i + 1 + 1 + (g - (i + 1 + 1)) ≤ qlen text; omega)⟩
      · simp only [hsl, if_false]
        by_cases hz : g = i + 1
        · refine Or.inr (Or.inr (Or.inr (Or.inr (Or.inr (Or.inr (Or.inl ⟨rfl, ?_, ?_⟩))))))
          · show g - (i + 1) = 0; omega
          · show charAt text (i + 1) = some '>'; rw [← hz]; exact h3
        · exact Or.inl ⟨by show 0 ≤ i + 1; omega, by show i + 1 < qlen text; omega,
            by show 0 < g - (i + 1); omega, Or.inl (by
              show i + 1 + (g - (i + 1)) ≤ qlen text; omega)⟩
  · have hbe := charAt_bounds text e '=' he
    by_cases hsmall : e ≤ 1
    · exact Or.inr (Or.inr (Or.inr (Or.inr (Or.inr (Or.inr (Or.inr ⟨rfl, by
        show b + (e - b) ≤ 1; omega⟩))))))
    · have hlt : b < e := by
        by_cases hL : lastIndexOfChar text ' ' e = e - 1
        · rw [if_pos hL] at hb
          have := lastIndexOfChar_le text ' ' (e - 2) (by omega)
          omega
        · rw [if_neg hL] at hb
          have hle := lastIndexOfChar_le text ' ' e hbe.1
          have hne : b ≠ e := by
            intro hbe2
            have := lastIndexOfChar_spec text ' ' e b hb.symm (by omega)
            rw [hbe2, he] at this
            exact absurd (Option.some.inj this) (by decide)
          omega
      exact Or.inl ⟨by show 0 ≤ b; omega, by show b < qlen text; omega,
        by show 0 < e - b; omega, Or.inl (by show b + (e - b) ≤ qlen text; omega)⟩
  · have hbj := charAt_bounds text j '"' hj
    rcases h with ⟨q, hq1, hq2, _, _, rfl⟩ | ⟨_, rfl⟩
    · exact Or.inl ⟨hbj.1, hbj.2, by show 0 < q - j + 1; omega, Or.inl (by
        show j + (q - j + 1) ≤ qlen text; omega)⟩
    · exact Or.inl ⟨hbj.1, hbj.2, by show 0 < qlen text - j; omega, Or.inl (by
        show j + (qlen text - j) ≤ qlen text; omega)⟩

theorem xmlHighlighter_ok (stray : Option Char) (text : List Char) (fuel : Nat) :
    ∀ s ∈ (xmlHighlighter stray text fuel).spans, SpanInBlock text s ∨ SlipSpan text s := by
  intro s hs
  unfold xmlHighlighter at hs
  split at hs
  · cases hs
  · rename_i hne
    rw [postResult_after_spans] at hs
    rcases List.mem_append.1 hs with h | h
    · simp only [List.mem_singleton] at h
      rw [h]
      have hpos : 0 < qlen text := by
        cases text with
        | nil => simp at hne
        | cons x xs => simp [qlen]
      exact Or.inl ⟨le_refl _, hpos, hpos, Or.inl (by show 0 + qlen text ≤ qlen text; omega)⟩
    · exact xmlSpanRule_ok text s (xmlLoop_rule stray text fuel 0 (le_refl _) s h)

theorem skipSpaces_bounds (text : List Char) (i : Int) (h0 : 0 ≤ i) (h1 : i ≤ qlen text) :
    i ≤ skipSpaces uc text i ∧ skipSpaces uc text i ≤ qlen text := by
  unfold skipSpaces qlen at *
  have h := (List.takeWhile_sublist (isSpace uc) (l := text.drop i.toNat)).length_le
  rw [List.length_drop] at h
  omega

/-- The body of the loop of `cssHighlighter` at a cursor inside the text: every span
is in the block or is one of the two CSS spans of `SlipSpan`, and the cursor handed
on is not negative. -/
theorem cssBody_ok (valid : List Char → Int → Int → Bool) (stray : Option Char)
    (text : List Char) (i : Int) (h0 : 0 ≤ i) (h1 : i < qlen text) :
    (∀ s ∈ (cssBody uc valid stray text i).spans, SpanInBlock text s ∨ SlipSpan text s) ∧
      ∀ sp j, cssBody uc valid stray text i = .next sp j → 0 ≤ j := by
  have hnil : ∀ j : Int, 0 ≤ j →
      (∀ s ∈ (PostCtl.next [] j).spans, SpanInBlock text s ∨ SlipSpan text s) ∧
      ∀ sp k, (PostCtl.next [] j) = .next sp k → 0 ≤ k := by
    intro j hj
    refine ⟨(fun s hs => by cases hs), ?_⟩
    intro sp k h
    simp only [PostCtl.next.injEq] at h
    omega
  obtain ⟨c, hc⟩ := charAt_lt text i h0 h1
  unfold cssBody
  rw [charAtOr_inside stray text i c hc]
  simp only
  by_cases hsel : c = '.' ∨ c = '#'
  · rw [if_pos hsel]
    by_cases hend : i + 1 ≥ qlen text
    · rw [if_pos hend]
      exact ⟨(fun s hs => by cases hs), fun sp j h => by cases h⟩
    · rw [if_neg hend]
      obtain ⟨d, hd⟩ := charAt_lt text (i + 1) (by omega) (by omega)
      rw [charAtOr_inside stray text (i + 1) d hd]
      simp only
      by_cases hdn : isSpace uc d = true ∨ isNumber uc d = true
      · rw [if_pos hdn]; exact hnil i h0
      · rw [if_neg hdn]
        have hstart : charAt text i = some '.' ∨ charAt text i = some '#' := by
          rcases hsel with h | h
          · left; rw [hc, h]
          · right; rw [hc, h]
        have hcne : ∀ ch, ch = ' ' ∨ ch = '{' → charAt text i ≠ some ch := by
          intro ch hch h
          rw [hc] at h
          have := Option.some.inj h
          rcases hsel with a | a <;> rcases hch with b | b <;>
            (rw [a, b] at this; exact absurd this (by decide))
        have hone : ∀ sp : Int, 0 ≤ sp →
            ((i < sp ∧ sp ≤ qlen text) ∨ (indexOfChar text ' ' i < 0 ∧
              sp = indexOfChar text '{' 0 ∧ sp < i)) →
            (∀ s ∈ (PostCtl.next [⟨i, sp - i, .CodeKeyWord⟩] sp).spans,
              SpanInBlock text s ∨ SlipSpan text s) ∧
            ∀ sp1 k, (PostCtl.next [⟨i, sp - i, .CodeKeyWord⟩] sp) = .next sp1 k → 0 ≤ k := by
          intro sp hsp hcase
          constructor
          · intro s hs
            simp only [PostCtl.spans, List.mem_singleton] at hs
            rw [hs]
            rcases hcase with ⟨a, b⟩ | ⟨a, b, d⟩
            · exact Or.inl ⟨h0, h1, by show 0 < sp - i; omega, Or.inl (by
                show i + (sp - i) ≤ qlen text; omega)⟩
            · exact Or.inr (Or.inr (Or.inr (Or.inr (Or.inl ⟨rfl, hstart, a, by
                show i + (sp - i) = _; omega, by show sp - i < 0; omega⟩))))
          · intro sp1 k h
            simp only [PostCtl.next.injEq] at h
            omega
        rcases indexOfChar_ge text ' ' i h0 with hs | ⟨hs1, hs2, hs3⟩
        · have hneg : indexOfChar text ' ' i < 0 := by omega
          simp only [hneg, if_true]
          rcases indexOfChar_ge text '{' 0 (le_refl _) with hb | ⟨hb1, hb2, hb3⟩
          · have hbneg : indexOfChar text '{' 0 < 0 := by omega
            simp only [hbneg, if_true]
            exact hone (qlen text) (by omega) (Or.inl ⟨h1, le_refl _⟩)
          · have hbneg : ¬ indexOfChar text '{' 0 < 0 := by omega
            simp only [hbneg, if_false]
            have hne : indexOfChar text '{' 0 ≠ i := by
              intro he; rw [he] at hb3
              exact hcne '{' (Or.inr rfl) hb3
            by_cases hlt : i < indexOfChar text '{' 0
            · exact hone _ hb1 (Or.inl ⟨hlt, by omega⟩)
            · exact hone _ hb1 (Or.inr ⟨hneg, rfl, by omega⟩)
        · have hneg : ¬ indexOfChar text ' ' i < 0 := by omega
          simp only [hneg, if_false]
          have hne : indexOfChar text ' ' i ≠ i := by
            intro he; rw [he] at hs3
            exact hcne ' ' (Or.inl rfl) hs3
          exact hone _ (by omega) (Or.inl ⟨by omega, by omega⟩)
  · rw [if_neg hsel]
    by_cases hcc : c = 'c'
    · rw [if_pos hcc]
      by_cases hm : midRef text i 5 = ['c', 'o', 'l', 'o', 'r']
      · rw [if_pos hm]
        rcases indexOfChar_ge text ':' (i + 5) (by omega) with hcol | ⟨hc1, hc2, _⟩
        · have hneg : indexOfChar text ':' (i + 5) < 0 := by omega
          rw [if_pos hneg]; exact hnil (i + 5) (by omega)
        · have hneg : ¬ indexOfChar text ':' (i + 5) < 0 := by omega
          rw [if_neg hneg]
          have hj := @skipSpaces_bounds uc text (indexOfChar text ':' (i + 5) + 1) (by omega)
            (by omega)
          by_cases hv : valid text (skipSpaces uc text (indexOfChar text ':' (i + 5) + 1))
              (if indexOfChar text ';' 0 < 0 then qlen text else indexOfChar text ';' 0) = true
          · simp only [hv, Bool.not_true, Bool.false_eq_true, if_false]
            have hsemi : 0 ≤ (if indexOfChar text ';' 0 < 0 then qlen text
                else indexOfChar text ';' 0) ∧
                (if indexOfChar text ';' 0 < 0 then qlen text
                else indexOfChar text ';' 0) ≤ qlen text := by
              rcases indexOfChar_ge text ';' 0 (le_refl _) with hb | ⟨hb1, hb2, _⟩
              · have : indexOfChar text ';' 0 < 0 := by omega
                simp only [this, if_true]; omega
              · have : ¬ indexOfChar text ';' 0 < 0 := by omega
                simp only [this, if_false]; omega
            constructor
            · intro s hs
              simp only [PostCtl.spans, List.mem_cons, List.mem_singleton, List.not_mem_nil,
                or_false] at hs
              by_cases hlt : skipSpaces uc text (indexOfChar text ':' (i + 5) + 1) <
                  (if indexOfChar text ';' 0 < 0 then qlen text else indexOfChar text ';' 0)
              · rcases hs with rfl | rfl
                · exact Or.inl ⟨by show 0 ≤ skipSpaces uc text _; omega,
                    by show skipSpaces uc text _ < qlen text; omega,
                    by show 0 < _ - skipSpaces uc text _; omega, Or.inl (by
                      show skipSpaces uc text _ + (_ - skipSpaces uc text _) ≤ qlen text
                      omega)⟩
                · exact Or.inl ⟨by show 0 ≤ skipSpaces uc text _; omega,
                    by show skipSpaces uc text _ < qlen text; omega,
                    by show 0 < _ - skipSpaces uc text _; omega, Or.inl (by
                      show skipSpaces uc text _ + (_ - skipSpaces uc text _) ≤ qlen text
                      omega)⟩
              · rcases hs with rfl | rfl
                · exact Or.inr (Or.inr (Or.inr (Or.inr (Or.inr (Or.inl ⟨Or.inl rfl, by
                    show skipSpaces uc text _ + (_ - skipSpaces uc text _) = _; omega, by
                    show _ - skipSpaces uc text _ ≤ 0; omega⟩)))))
                · exact Or.inr (Or.inr (Or.inr (Or.inr (Or.inr (Or.inl ⟨Or.inr rfl, by
                    show skipSpaces uc text _ + (_ - skipSpaces uc text _) = _; omega, by
                    show _ - skipSpaces uc text _ ≤ 0; omega⟩)))))
            · intro sp k h
              simp only [PostCtl.next.injEq] at h
              omega
          · simp only [hv, Bool.not_false, if_true]
            exact hnil _ (by omega)
      · rw [if_neg hm]; exact hnil i h0
    · rw [if_neg hcc]; exact hnil i h0

theorem cssLoop_ok (valid : List Char → Int → Int → Bool) (stray : Option Char)
    (text : List Char) :
    ∀ (fuel : Nat) (i : Int), 0 ≤ i →
      ∀ s ∈ (cssLoop uc valid stray text fuel i).spans, SpanInBlock text s ∨ SlipSpan text s := by
  intro fuel
  induction fuel with
  | zero => intro i _ s hs; cases hs
  | succ f ih =>
    intro i h0 s hs
    rw [cssLoop] at hs
    by_cases h1 : i < qlen text
    · rw [if_pos h1] at hs
      obtain ⟨hsp, hnext⟩ := @cssBody_ok uc valid stray text i h0 h1
      cases hb : cssBody uc valid stray text i with
      | next sp j =>
        rw [hb] at hs hsp
        simp only [postResult_after_spans] at hs
        rcases List.mem_append.1 hs with h | h
        · exact hsp s h
        · have := hnext sp j hb
          exact ih (j + 1) (by omega) s h
      | ret sp => rw [hb] at hs hsp; exact hsp s hs
      | fault sp e => rw [hb] at hs hsp; exact hsp s hs
    · rw [if_neg h1] at hs
      cases hs

/-- The key span and the link span of lines 527-542 at a letter at `i` with the
colon found after it: both are in the block. -/
theorem ymlKeyAndLink_ok (stray : Option Char) (text : List Char) (i : Int) (c : Char)
    (cf : Bool) (colon : Int) (hc : charAt text i = some c)
    (h1 : i < colon) (h2 : colon < qlen text) (r : List Span × Bool)
    (h : ymlKeyAndLink stray text i c cf colon = some r) :
    ∀ s ∈ r.1, SpanInBlock text s := by
  have hb := charAt_bounds text i c hc
  unfold ymlKeyAndLink at h
  simp only [Option.map_eq_some'] at h
  obtain ⟨k, _, hr⟩ := h
  rw [← hr]
  intro s hs
  simp only at hs
  rcases List.mem_append.1 hs with h | h
  · split at h
    · simp only [List.mem_singleton] at h
      rw [h]
      exact ⟨hb.1, hb.2, by show 0 < colon - i; omega, Or.inl (by
        show i + (colon - i) ≤ qlen text; omega)⟩
    · cases h
  · split at h
    · rename_i hlink
      simp only [List.mem_singleton] at h
      rw [h]
      have hsp : i < (if indexOfChar text ' ' i = -1 then qlen text
          else indexOfChar text ' ' i) ∧
          (if indexOfChar text ' ' i = -1 then qlen text
          else indexOfChar text ' ' i) ≤ qlen text := by
        rcases indexOfChar_ge text ' ' i hb.1 with hn | ⟨a1, a2, a3⟩
        · simp only [hn, if_true]; omega
        · have hne : ¬ indexOfChar text ' ' i = -1 := by omega
          simp only [hne, if_false]
          have : indexOfChar text ' ' i ≠ i := by
            intro he; rw [he, hc] at a3
            have := Option.some.inj a3
            rw [hlink.1] at this
            exact absurd this (by decide)
          omega
      exact ⟨hb.1, hb.2, by show 0 < _ - i; omega, Or.inl (by
        show i + (_ - i) ≤ qlen text; omega)⟩
    · cases h

theorem ymlBody_ok (stray : Option Char) (text : List Char) (i : Int) (cf : Bool)
    (h0 : 0 ≤ i) (h1 : i < qlen text) :
    (∀ s ∈ (ymlBody uc stray text i cf).1.spans, SpanInBlock text s) ∧
      ∀ sp j, (ymlBody uc stray text i cf).1 = .next sp j → -1 ≤ j := by
  have hnil : ∀ (j : Int) (b : Bool), -1 ≤ j →
      (∀ s ∈ ((PostCtl.next [] j, b) : PostCtl × Bool).1.spans, SpanInBlock text s) ∧
      ∀ sp k, ((PostCtl.next [] j, b) : PostCtl × Bool).1 = .next sp k → -1 ≤ k := by
    intro j b hj
    refine ⟨(fun s hs => by cases hs), ?_⟩
    intro sp k h
    simp only [PostCtl.next.injEq] at h
    omega
  obtain ⟨c, hc⟩ := charAt_lt text i h0 h1
  unfold ymlBody
  rw [charAtOr_inside stray text i c hc]
  simp only
  by_cases hl : isLetter uc c = true
  · simp only [hl, Bool.not_true, Bool.false_eq_true, if_false]
    by_cases hskip : cf = true ∧ c ≠ 'h'
    · rw [if_pos hskip]; exact hnil i cf (by omega)
    · rw [if_neg hskip]
      cases hb : charAtOr stray text (i - 1) with
      | none => exact ⟨(fun s hs => by cases hs), fun sp j h => by cases h⟩
      | some b =>
        simp only
        by_cases hq : b = '"' ∨ b = '\''
        · rw [if_pos hq]
          refine hnil _ cf ?_
          rcases indexOfChar_ge text '"' i h0 with h | ⟨h, _⟩
          · omega
          · omega
        · rw [if_neg hq]
          by_cases hcolon : indexOfChar text ':' i = -1
          · rw [if_pos hcolon]
            exact ⟨(fun s hs => by cases hs), fun sp j h => by cases h⟩
          · rw [if_neg hcolon]
            rcases indexOfChar_ge text ':' i h0 with h | ⟨a1, a2, a3⟩
            · exact absurd h hcolon
            · have hne : indexOfChar text ':' i ≠ i := by
                intro he; rw [he, hc] at a3
                have := Option.some.inj a3
                rw [this] at hl
                exact absurd hl (by
                  rw [show isLetter uc ':' = false from rfl]; decide)
              cases hr : ymlKeyAndLink stray text i c cf (indexOfChar text ':' i) with
              | none => exact ⟨(fun s hs => by cases hs), fun sp j h => by cases h⟩
              | some r =>
                obtain ⟨sp, cf1⟩ := r
                simp only
                refine ⟨?_, ?_⟩
                · exact ymlKeyAndLink_ok stray text i c cf _ hc (by omega) a2 (sp, cf1) hr
                · intro sp1 k h
                  simp only [PostCtl.next.injEq] at h
                  omega
  · have hl' : isLetter uc c = false := by
      cases h : isLetter uc c with
      | true => exact absurd h hl
      | false => rfl
    simp only [hl', Bool.not_false, if_true]
    exact hnil i cf (by omega)

theorem ymlLoop_ok (stray : Option Char) (text : List Char) :
    ∀ (fuel : Nat) (i : Int) (cf : Bool), 0 ≤ i →
      ∀ s ∈ (ymlLoop uc stray text fuel i cf).spans, SpanInBlock text s := by
  intro fuel
  induction fuel with
  | zero => intro i cf _ s hs; cases hs
  | succ f ih =>
    intro i cf h0 s hs
    rw [ymlLoop] at hs
    by_cases h1 : i < qlen text
    · rw [if_pos h1] at hs
      obtain ⟨hsp, hnext⟩ := @ymlBody_ok uc stray text i cf h0 h1
      revert hs hsp hnext
      rcases ymlBody uc stray text i cf with ⟨ctl, cf1⟩
      intro hs hsp hnext
      cases ctl with
      | next sp j =>
        simp only [postResult_after_spans] at hs
        rcases List.mem_append.1 hs with h | h
        · exact hsp s h
        · have := hnext sp j rfl
          exact ih (j + 1) cf1 (by omega) s h
      | ret sp => exact hsp s hs
      | fault sp e => exact hsp s hs
    · rw [if_neg h1] at hs
      cases hs

theorem thenPost_spans (r : Result) (run : Bool) (post : PostResult) (s : Span)
    (h : s ∈ (thenPost r run post).spans) : s ∈ r.spans ∨ s ∈ post.spans := by
  unfold thenPost at h
  cases run with
  | false => exact Or.inl h
  | true =>
    simp only [if_true] at h
    split at h
    · exact Or.inl h
    · exact Or.inl h
    · exact List.mem_append.1 h

theorem genericScan_ok (cfg : LangConfig) (text : List Char) (st : Int) (fuel : Nat)
    (ht : KeyedBuckets cfg.types) (hk : KeyedBuckets cfg.keywords)
    (hl : KeyedBuckets cfg.literals) (hb : KeyedBuckets cfg.builtin)
    (ho : KeyedBuckets cfg.others) :
    ∀ s ∈ (genericScan uc cfg text st fuel).spans, SpanInBlock text s ∨ SlipSpan text s := by
  intro s hs
  unfold genericScan at hs
  cases text with
  | nil => simp at hs
  | cons x xs =>
    simp only [List.isEmpty_cons, Bool.false_eq_true, if_false, after_spans,
      List.singleton_append, List.mem_cons] at hs
    rcases hs with rfl | hs
    · have hpos : (0 : Int) < qlen (x :: xs) := by simp [qlen]
      exact Or.inl ⟨le_refl _, hpos, hpos, Or.inl (by
        show (0 : Int) + qlen (x :: xs) ≤ _; omega)⟩
    · exact @scanLoop_ok uc cfg (x :: xs) ht hk hl hb ho fuel true 0 st (le_refl _)
        (fun h => by cases h) s hs

/-- C13 (as amended): for every language case (the XML scanner, the generic scan, the
CSS and the YAML post-processor), word tables with keyed buckets, entry state, text
and fuel, every span emitted while highlighting the block starts inside the text and
has a positive length, and it ends inside the text unless it is a Comment span, which
lines 246, 256 and 275 record with the length of the whole text from the start of
the comment; the only other spans are those of `SlipSpan`: a block comment that
starts at or after the end of the first `*/` of the text, an escape that no space
and no quote of the string follows, the Other span of a word at offset 0 in the
state `CodeCpp`, a CSS selector or colour value whose end is searched from the start
of the text and found before it, an XML tag with an empty name and an XML attribute
whose `=` stands at offset 0 or 1. -/
theorem span_bounds (lang : LangCase) (valid : List Char → Int → Int → Bool)
    (stray : Option Char) (text : List Char) (st : Int) (fuel : Nat)
    (ht : KeyedBuckets lang.cfg.types) (hk : KeyedBuckets lang.cfg.keywords)
    (hl : KeyedBuckets lang.cfg.literals) (hb : KeyedBuckets lang.cfg.builtin)
    (ho : KeyedBuckets lang.cfg.others) (s : Span)
    (hs : s ∈ (highlightSyntax uc lang valid stray text st fuel).spans) :
    SpanInBlock text s ∨ SlipSpan text s := by
  unfold highlightSyntax at hs
  split at hs
  · cases hs
  · split at hs
    · exact xmlHighlighter_ok stray text fuel s hs
    · have hgen := @genericScan_ok uc lang.cfg text st fuel ht hk hl hb ho
      split at hs
      · rcases thenPost_spans _ _ _ s hs with h | h
        · rcases thenPost_spans _ _ _ s h with h' | h'
          · exact hgen s h'
          · unfold cssHighlighter at h'
            split at h'
            · cases h'
            · exact @cssLoop_ok uc valid stray text fuel 0 (le_refl _) s h'
        · unfold ymlHighlighter at h
          split at h
          · cases h
          · exact Or.inl (@ymlLoop_ok uc stray text fuel 0 false (le_refl _) s h)
      · exact hgen s hs

/-- C13 at the block `int x = 42; // c` scanned in the state `CodeCpp` with the keyword
`int` in the table: the Keyword span `(0, 3)` and the Comment span `(12, 16)` are
emitted. -/
theorem span_bounds_witness :
    ((⟨0, 3, .CodeKeyWord⟩ : Span) ∈ (highlightSyntax plainQt
        ⟨intKeywordConfig, false, false, false⟩ (fun _ _ _ => false) none
        ['i', 'n', 't', ' ', 'x', ' ', '=', ' ', '4', '2', ';', ' ', '/', '/', ' ', 'c'] 200
        40).spans ∧
      (SpanInBlock ['i', 'n', 't', ' ', 'x', ' ', '=', ' ', '4', '2', ';', ' ', '/', '/', ' ', 'c']
          ⟨0, 3, .CodeKeyWord⟩ ∨
        SlipSpan ['i', 'n', 't', ' ', 'x', ' ', '=', ' ', '4', '2', ';', ' ', '/', '/', ' ', 'c']
          ⟨0, 3, .CodeKeyWord⟩)) ∧
    ((⟨12, 16, .CodeComment⟩ : Span) ∈ (highlightSyntax plainQt
        ⟨intKeywordConfig, false, false, false⟩ (fun _ _ _ => false) none
        ['i', 'n', 't', ' ', 'x', ' ', '=', ' ', '4', '2', ';', ' ', '/', '/', ' ', 'c'] 200
        40).spans ∧
      (SpanInBlock ['i', 'n', 't', ' ', 'x', ' ', '=', ' ', '4', '2', ';', ' ', '/', '/', ' ', 'c']
          ⟨12, 16, .CodeComment⟩ ∨
        SlipSpan ['i', 'n', 't', ' ', 'x', ' ', '=', ' ', '4', '2', ';', ' ', '/', '/', ' ', 'c']
          ⟨12, 16, .CodeComment⟩)) :=
  ⟨⟨by decide, @span_bounds plainQt ⟨intKeywordConfig, false, false, false⟩ (fun _ _ _ => false) none
      ['i', 'n', 't', ' ', 'x', ' ', '=', ' ', '4', '2', ';', ' ', '/', '/', ' ', 'c'] 200 40
      keyedBuckets_empty keyedBuckets_int keyedBuckets_empty keyedBuckets_empty
      keyedBuckets_empty ⟨0, 3, .CodeKeyWord⟩ (by decide)⟩,
    ⟨by decide, @span_bounds plainQt ⟨intKeywordConfig, false, false, false⟩ (fun _ _ _ => false) none
      ['i', 'n', 't', ' ', 'x', ' ', '=', ' ', '4', '2', ';', ' ', '/', '/', ' ', 'c'] 200 40
      keyedBuckets_empty keyedBuckets_int keyedBuckets_empty keyedBuckets_empty
      keyedBuckets_empty ⟨12, 16, .CodeComment⟩ (by decide)⟩⟩

/-- C13 as stated fails. The scan of the 6-character block of two spaces followed by
`// c` emits the Comment span `(2, 6)`, which ends at 8, past the block. The other
blocks get a span that the claim excludes as well: `/**/ /*` the Comment span
`(5, -1)`; a string with the escape `\b` at its end the NumberLiteral span `(2, -3)`
and the String span `(-1, 1)`; the block `a?` in the state `CodeCpp`, with the word
`a?` in the Other table, the Other span `(-1, 3)`; the CSS block `a{.b}` the Keyword
span `(2, -1)`; the CSS block `;color:red`, whose value is a valid colour, the
span `(7, -7)`; the XML block `<>` the Keyword span `(1, 0)`; the XML block ` =a b`
the Builtin span `(3, -2)`. -/
theorem span_bounds_counterexample :
    ((∀ q : QtData, highlightSyntax q ⟨⟨fun _ => [], fun _ => [], fun _ => [], fun _ => [],
        fun _ => [], Char.ofNat 0, 200⟩, false, false, false⟩ (fun _ _ _ => false) none
        [' ', ' ', '/', '/', ' ', 'c'] 202 20 =
      ⟨[⟨0, 6, .CodeBlock⟩, ⟨2, 6, .CodeComment⟩], 202, .returned⟩) ∧
      qlen [' ', ' ', '/', '/', ' ', 'c'] < 2 + 6) ∧
    (∀ q : QtData, (⟨5, -1, .CodeComment⟩ : Span) ∈ (highlightSyntax q ⟨⟨fun _ => [],
        fun _ => [], fun _ => [], fun _ => [], fun _ => [], Char.ofNat 0, 200⟩, false, false,
        false⟩ (fun _ _ _ => false) none ['/', '*', '*', '/', ' ', '/', '*'] 202 5).spans) ∧
    (∀ q : QtData, highlightSyntax q ⟨⟨fun _ => [], fun _ => [], fun _ => [], fun _ => [],
        fun _ => [], Char.ofNat 0, 200⟩, false, false, false⟩ (fun _ _ _ => false) none
        ['"', 'a', '\\', 'b'] 202 20 =
      ⟨[⟨0, 4, .CodeBlock⟩, ⟨0, 1, .CodeString⟩, ⟨1, 1, .CodeString⟩,
        ⟨2, -3, .CodeNumLiteral⟩, ⟨-1, 1, .CodeString⟩], 202, .outOfBounds⟩) ∧
    (∀ q : QtData, highlightSyntax q ⟨questionMarkConfig, false, false, false⟩
        (fun _ _ _ => false) none ['a', '?'] 200 20 =
      ⟨[⟨0, 2, .CodeBlock⟩, ⟨-1, 3, .CodeOther⟩], 200, .completed⟩) ∧
    (∀ q : QtData, (⟨2, -1, .CodeKeyWord⟩ : Span) ∈ (highlightSyntax q ⟨⟨fun _ => [],
        fun _ => [], fun _ => [], fun _ => [], fun _ => [], Char.ofNat 0, 200⟩, false, true,
        false⟩ (fun _ _ _ => false) none ['a', '{', '.', 'b', '}'] 202 6).spans) ∧
    (∀ q : QtData, (⟨7, -7, .Colored⟩ : Span) ∈ (highlightSyntax q ⟨⟨fun _ => [],
        fun _ => [], fun _ => [], fun _ => [], fun _ => [], Char.ofNat 0, 200⟩, false, true,
        false⟩ (fun _ _ _ => true) none [';', 'c', 'o', 'l', 'o', 'r', ':', 'r', 'e', 'd'] 202
        6).spans) ∧
    (∀ q : QtData, highlightSyntax q ⟨⟨fun _ => [], fun _ => [], fun _ => [], fun _ => [],
        fun _ => [], Char.ofNat 0, 200⟩, true, false, false⟩ (fun _ _ _ => false) none
        ['<', '>'] 202 20 =
      ⟨[⟨0, 2, .CodeBlock⟩, ⟨1, 0, .CodeKeyWord⟩], 202, .completed⟩) ∧
    (∀ q : QtData, highlightSyntax q ⟨⟨fun _ => [], fun _ => [], fun _ => [], fun _ => [],
        fun _ => [], Char.ofNat 0, 200⟩, true, false, false⟩ (fun _ _ _ => false) none
        [' ', '=', 'a', ' ', 'b'] 202 20 =
      ⟨[⟨0, 5, .CodeBlock⟩, ⟨3, -2, .CodeBuiltIn⟩], 202, .completed⟩) :=
  ⟨⟨fun _ => rfl, by decide⟩, fun _ => List.get?_mem (n := 2) rfl, fun _ => rfl, fun _ => rfl,
    fun _ => List.get?_mem (n := 1) rfl, fun _ => List.get?_mem (n := 2) rfl, fun _ => rfl,
    fun _ => rfl⟩

/-! ## Theorems: termination and reads of the YAML post-processor and of the XML scanner -/

/-- On the block of a space followed by `key: 'hello'`, once the key has been found,
the loop of `ymlHighlighter` stays on the cursors 0 to 7: at the `h` (index 7) line
514 sees the single quote before it, line 515 searches a double quote, finds none,
and line 516 sets the cursor to -1, so the next cursor is 0. -/
theorem ymlLoop_single_quote_cycle (stray : Option Char) :
    ∀ (fuel : Nat) (i : Int), i ∈ ([0, 1, 2, 3, 4, 5, 6, 7] : List Int) →
      (ymlLoop uc stray [' ', 'k', 'e', 'y', ':', ' ', '\'', 'h', 'e', 'l', 'l', 'o', '\'']
        fuel i true).exit = .outOfFuel := by
  intro fuel
  induction fuel with
  | zero => intro i _; rfl
  | succ f ih =>
    intro i hi
    simp only [List.mem_cons, List.mem_singleton, List.not_mem_nil, or_false] at hi
    rcases hi with rfl | rfl | rfl | rfl | rfl | rfl | rfl | rfl
    · exact Eq.trans (b := (ymlLoop uc stray
        [' ', 'k', 'e', 'y', ':', ' ', '\'', 'h', 'e', 'l', 'l', 'o', '\''] f 1
        true).exit) rfl (ih 1 (by decide))
    · exact Eq.trans (b := (ymlLoop uc stray
        [' ', 'k', 'e', 'y', ':', ' ', '\'', 'h', 'e', 'l', 'l', 'o', '\''] f 2
        true).exit) rfl (ih 2 (by decide))
    · exact Eq.trans (b := (ymlLoop uc stray
        [' ', 'k', 'e', 'y', ':', ' ', '\'', 'h', 'e', 'l', 'l', 'o', '\''] f 3
        true).exit) rfl (ih 3 (by decide))
    · exact Eq.trans (b := (ymlLoop uc stray
        [' ', 'k', 'e', 'y', ':', ' ', '\'', 'h', 'e', 'l', 'l', 'o', '\''] f 4
        true).exit) rfl (ih 4 (by decide))
    · exact Eq.trans (b := (ymlLoop uc stray
        [' ', 'k', 'e', 'y', ':', ' ', '\'', 'h', 'e', 'l', 'l', 'o', '\''] f 5
        true).exit) rfl (ih 5 (by decide))
    · exact Eq.trans (b := (ymlLoop uc stray
        [' ', 'k', 'e', 'y', ':', ' ', '\'', 'h', 'e', 'l', 'l', 'o', '\''] f 6
        true).exit) rfl (ih 6 (by decide))
    · exact Eq.trans (b := (ymlLoop uc stray
        [' ', 'k', 'e', 'y', ':', ' ', '\'', 'h', 'e', 'l', 'l', 'o', '\''] f 7
        true).exit) rfl (ih 7 (by decide))
    · exact Eq.trans (b := (ymlLoop uc stray
        [' ', 'k', 'e', 'y', ':', ' ', '\'', 'h', 'e', 'l', 'l', 'o', '\''] f 0
        true).exit) rfl (ih 0 (by decide))

/-- The same on the block `key: 'hello'`, with the `h` at index 6. -/
theorem ymlLoop_key_cycle (stray : Option Char) :
    ∀ (fuel : Nat) (i : Int), i ∈ ([0, 1, 2, 3, 4, 5, 6] : List Int) →
      (ymlLoop uc stray ['k', 'e', 'y', ':', ' ', '\'', 'h', 'e', 'l', 'l', 'o', '\'']
        fuel i true).exit = .outOfFuel := by
  intro fuel
  induction fuel with
  | zero => intro i _; rfl
  | succ f ih =>
    intro i hi
    simp only [List.mem_cons, List.mem_singleton, List.not_mem_nil, or_false] at hi
    rcases hi with rfl | rfl | rfl | rfl | rfl | rfl | rfl
    · exact Eq.trans (b := (ymlLoop uc stray
        ['k', 'e', 'y', ':', ' ', '\'', 'h', 'e', 'l', 'l', 'o', '\''] f 1
        true).exit) rfl (ih 1 (by decide))
    · exact Eq.trans (b := (ymlLoop uc stray
        ['k', 'e', 'y', ':', ' ', '\'', 'h', 'e', 'l', 'l', 'o', '\''] f 2
        true).exit) rfl (ih 2 (by decide))
    · exact Eq.trans (b := (ymlLoop uc stray
        ['k', 'e', 'y', ':', ' ', '\'', 'h', 'e', 'l', 'l', 'o', '\''] f 3
        true).exit) rfl (ih 3 (by decide))
    · exact Eq.trans (b := (ymlLoop uc stray
        ['k', 'e', 'y', ':', ' ', '\'', 'h', 'e', 'l', 'l', 'o', '\''] f 4
        true).exit) rfl (ih 4 (by decide))
    · exact Eq.trans (b := (ymlLoop uc stray
        ['k', 'e', 'y', ':', ' ', '\'', 'h', 'e', 'l', 'l', 'o', '\''] f 5
        true).exit) rfl (ih 5 (by decide))
    · exact Eq.trans (b := (ymlLoop uc stray
        ['k', 'e', 'y', ':', ' ', '\'', 'h', 'e', 'l', 'l', 'o', '\''] f 6
        true).exit) rfl (ih 6 (by decide))
    · exact Eq.trans (b := (ymlLoop uc stray
        ['k', 'e', 'y', ':', ' ', '\'', 'h', 'e', 'l', 'l', 'o', '\''] f 0
        true).exit) rfl (ih 0 (by decide))

/-- On the block of a space followed by `"hx` the loop stays on the cursors 0 to 2: at
the `h` line 508 sees the double quote before it, line 509 finds no further one and
line 510 sets the cursor to -1. -/
theorem ymlLoop_open_string_cycle (stray : Option Char) :
    ∀ (fuel : Nat) (i : Int), i ∈ ([0, 1, 2] : List Int) →
      (ymlLoop uc stray [' ', '"', 'h', 'x']
        fuel i false).exit = .outOfFuel := by
  intro fuel
  induction fuel with
  | zero => intro i _; rfl
  | succ f ih =>
    intro i hi
    simp only [List.mem_cons, List.mem_singleton, List.not_mem_nil, or_false] at hi
    rcases hi with rfl | rfl | rfl
    · exact Eq.trans (b := (ymlLoop uc stray
        [' ', '"', 'h', 'x'] f 1
        false).exit) rfl (ih 1 (by decide))
    · exact Eq.trans (b := (ymlLoop uc stray
        [' ', '"', 'h', 'x'] f 2
        false).exit) rfl (ih 2 (by decide))
    · exact Eq.trans (b := (ymlLoop uc stray
        [' ', '"', 'h', 'x'] f 0
        false).exit) rfl (ih 0 (by decide))

/-- On the block `key: 'hello'`, when the read of line 508 before the first
character yields a quote, line 509 (or 515) finds no double quote and the cursor
returns to 0 at once. -/
theorem ymlLoop_quote_before_cycle (c : Char) (hc : c = '"' ∨ c = '\'') (fuel : Nat) :
    (ymlLoop uc (some c) ['k', 'e', 'y', ':', ' ', '\'', 'h', 'e', 'l', 'l', 'o', '\''] fuel 0
      false).exit = .outOfFuel := by
  have hb : ymlBody uc (some c) ['k', 'e', 'y', ':', ' ', '\'', 'h', 'e', 'l', 'l', 'o', '\''] 0
      false = (.next [] (-1), false) := by
    have e1 : charAtOr (some c) ['k', 'e', 'y', ':', ' ', '\'', 'h', 'e', 'l', 'l', 'o', '\''] 0 =
        some 'k' := rfl
    have e2 : charAtOr (some c) ['k', 'e', 'y', ':', ' ', '\'', 'h', 'e', 'l', 'l', 'o', '\'']
        (0 - 1) = some c := rfl
    have e3 : indexOfChar ['k', 'e', 'y', ':', ' ', '\'', 'h', 'e', 'l', 'l', 'o', '\''] '"' 0 =
        -1 := rfl
    have e5 : isLetter uc 'k' = true := rfl
    unfold ymlBody
    rw [e1]
    simp only [e5, Bool.not_true, Bool.false_eq_true, if_false, false_and, e2, hc, if_true, e3]
  have hlt : (0 : Int) < qlen ['k', 'e', 'y', ':', ' ', '\'', 'h', 'e', 'l', 'l', 'o', '\''] := by
    decide
  induction fuel with
  | zero => rfl
  | succ f ih =>
    rw [ymlLoop, if_pos hlt, hb]
    exact ih

/-- C21 (evaluation of the code): `ymlHighlighter` never ends on a block with a
single-quoted value that holds an `h`, or with an unterminated double-quoted string.
On the block of a space followed by `key: 'hello'` the cursor reaches the `h`
after the single quote, line 515 searches a double quote, finds none, and line 516
sets the cursor to -1: the loop starts again at 0, whatever the fuel. The same on
`key: 'hello'` itself in every run that goes on after the read before the
first character (whatever character `c` that read yields), and on the block of a
space followed by `"hx`, where line 509 finds no closing quote. -/
theorem ymlHighlighter_never_ends (stray : Option Char) (c : Char) (fuel : Nat) :
    (ymlHighlighter uc stray [' ', 'k', 'e', 'y', ':', ' ', '\'', 'h', 'e', 'l', 'l', 'o', '\'']
      fuel).exit = .outOfFuel ∧
    (ymlHighlighter uc (some c) ['k', 'e', 'y', ':', ' ', '\'', 'h', 'e', 'l', 'l', 'o', '\'']
      fuel).exit = .outOfFuel ∧
    (ymlHighlighter uc stray [' ', '"', 'h', 'x'] fuel).exit = .outOfFuel := by
  refine ⟨?_, ?_, ymlLoop_open_string_cycle stray fuel 0 (by decide)⟩
  · match fuel with
    | 0 => rfl
    | 1 => rfl
    | f + 2 =>
      exact Eq.trans (b := (ymlLoop uc stray
        [' ', 'k', 'e', 'y', ':', ' ', '\'', 'h', 'e', 'l', 'l', 'o', '\''] f 2
        true).exit) rfl (ymlLoop_single_quote_cycle stray f 2 (by decide))
  · show (ymlLoop uc (some c) ['k', 'e', 'y', ':', ' ', '\'', 'h', 'e', 'l', 'l', 'o', '\''] fuel 0
      false).exit = .outOfFuel
    by_cases hc : c = '"' ∨ c = '\''
    · exact ymlLoop_quote_before_cycle c hc fuel
    · match fuel with
      | 0 => rfl
      | f + 1 =>
        have hb : ymlBody uc (some c) ['k', 'e', 'y', ':', ' ', '\'', 'h', 'e', 'l', 'l', 'o', '\'']
            0 false = (.next [⟨0, 3, .CodeKeyWord⟩] 0, true) := by
          have e1 : charAtOr (some c)
              ['k', 'e', 'y', ':', ' ', '\'', 'h', 'e', 'l', 'l', 'o', '\''] 0 = some 'k' := rfl
          have e2 : charAtOr (some c)
              ['k', 'e', 'y', ':', ' ', '\'', 'h', 'e', 'l', 'l', 'o', '\''] (0 - 1) = some c :=
            rfl
          have e3 : indexOfChar ['k', 'e', 'y', ':', ' ', '\'', 'h', 'e', 'l', 'l', 'o', '\''] ':'
              0 = 3 := rfl
          have e4 : ymlKeyAndLink (some c)
              ['k', 'e', 'y', ':', ' ', '\'', 'h', 'e', 'l', 'l', 'o', '\''] 0 'k' false 3 =
              some ([⟨0, 3, .CodeKeyWord⟩], true) := rfl
          have e5 : isLetter uc 'k' = true := rfl
          unfold ymlBody
          rw [e1]
          simp only [e5, Bool.not_true, Bool.false_eq_true, if_false, false_and, e2, hc, e3, e4]
          rfl
        have hlt : (0 : Int) <
            qlen ['k', 'e', 'y', ':', ' ', '\'', 'h', 'e', 'l', 'l', 'o', '\''] := by decide
        rw [ymlLoop, if_pos hlt, hb]
        simp only [postResult_after_exit]
        exact ymlLoop_key_cycle (some c) f 1 (by decide)

theorem ymlKeyAndLink_in_range (text : List Char) (i : Int) (c : Char) (cf : Bool) (colon : Int)
    (h0 : 0 ≤ colon) : ∃ r, ymlKeyAndLink none text i c cf colon = some r := by
  unfold ymlKeyAndLink
  by_cases hcond : (!cf) = true ∧ colon + 1 < qlen text
  · obtain ⟨d, hd⟩ := charAt_lt text (colon + 1) (by omega) hcond.2
    have hd' : charAtOr none text (colon + 1) = some d := by simp [charAtOr, hd]
    rw [if_pos hcond, hd']
    exact ⟨_, rfl⟩
  · rw [if_neg hcond]
    exact ⟨_, rfl⟩

/-- The body of the loop of `ymlHighlighter` at a cursor inside a text whose first
character is no letter: every read stays inside the text, and the body ends by
the `return` of line 524 or with a cursor that is at least -1. -/
theorem ymlBody_in_range (text : List Char) (i : Int) (cf : Bool)
    (hfirst : ∀ c, charAt text 0 = some c → isLetter uc c = false)
    (h0 : 0 ≤ i) (h1 : i < qlen text) :
    (∃ sp j cf1, ymlBody uc none text i cf = (.next sp j, cf1) ∧ -1 ≤ j) ∨
    (∃ sp cf1, ymlBody uc none text i cf = (.ret sp, cf1)) := by
  obtain ⟨c, hc⟩ := charAt_lt text i h0 h1
  have hc' : charAtOr none text i = some c := by simp [charAtOr, hc]
  unfold ymlBody
  rw [hc']
  simp only
  by_cases hl : isLetter uc c = true
  · have hi : 1 ≤ i := by
      by_contra hlt
      have hi0 : i = 0 := by omega
      rw [hi0] at hc
      have := hfirst c hc
      rw [hl] at this
      cases this
    simp only [hl, Bool.not_true, Bool.false_eq_true, if_false]
    by_cases hskip : cf = true ∧ c ≠ 'h'
    · rw [if_pos hskip]
      exact Or.inl ⟨_, _, _, rfl, by omega⟩
    · rw [if_neg hskip]
      obtain ⟨b, hb⟩ := charAt_lt text (i - 1) (by omega) (by omega)
      have hb' : charAtOr none text (i - 1) = some b := by simp [charAtOr, hb]
      rw [hb']
      simp only
      by_cases hq : b = '"' ∨ b = '\''
      · rw [if_pos hq]
        refine Or.inl ⟨_, _, _, rfl, ?_⟩
        rcases indexOfChar_spec text '"' i h0 with ⟨h, _⟩ | ⟨h, _⟩
        · omega
        · omega
      · rw [if_neg hq]
        by_cases hcolon : indexOfChar text ':' i = -1
        · rw [if_pos hcolon]
          exact Or.inr ⟨_, _, rfl⟩
        · rw [if_neg hcolon]
          have hc0 : 0 ≤ indexOfChar text ':' i := by
            rcases indexOfChar_spec text ':' i h0 with ⟨h, _⟩ | ⟨h, _⟩
            · exact absurd h hcolon
            · omega
          obtain ⟨⟨sp, cf1⟩, hr⟩ := ymlKeyAndLink_in_range text i c cf _ hc0
          rw [hr]
          exact Or.inl ⟨_, _, _, rfl, by omega⟩
  · have hl' : isLetter uc c = false := by
      cases h : isLetter uc c with
      | true => exact absurd h hl
      | false => rfl
    simp only [hl', Bool.not_false, if_true]
    exact Or.inl ⟨_, _, _, rfl, by omega⟩

/-- On a text whose first character is no letter, no run of the loop of
`ymlHighlighter` reads outside the text, whatever the fuel. -/
theorem ymlLoop_in_range (text : List Char)
    (hfirst : ∀ c, charAt text 0 = some c → isLetter uc c = false) :
    ∀ (fuel : Nat) (i : Int) (cf : Bool), 0 ≤ i →
      (ymlLoop uc none text fuel i cf).exit ≠ .outOfBounds := by
  intro fuel
  induction fuel with
  | zero => intro i cf _ h; cases h
  | succ f ih =>
    intro i cf h0
    rw [ymlLoop]
    by_cases h1 : i < qlen text
    · rw [if_pos h1]
      rcases ymlBody_in_range text i cf hfirst h0 h1 with ⟨sp, j, cf1, hb, hj⟩ | ⟨sp, cf1, hb⟩
      · rw [hb]
        simp only [postResult_after_exit]
        exact ih (j + 1) cf1 (by omega)
      · rw [hb]
        intro h; cases h
    · rw [if_neg h1]
      intro h; cases h

/-- C23 (evaluation of the code): with a read outside the text ending the run, a
run of `ymlHighlighter` on a non-empty text ends at such a read exactly when the
first character of the text is a letter: line 508 then evaluates `text.at(i-1)` at
`i = 0`, index -1, before any span is emitted. So it is on `name: value`. -/
theorem yaml_read_before_first_letter (c : Char) (rest : List Char) (fuel : Nat) :
    ((ymlHighlighter uc none (c :: rest) (fuel + 1)).exit = .outOfBounds ↔ isLetter uc c = true) ∧
    (isLetter uc c = true → ymlHighlighter uc none (c :: rest) (fuel + 1) = ⟨[], .outOfBounds⟩) ∧
    ymlHighlighter uc none ['n', 'a', 'm', 'e', ':', ' ', 'v', 'a', 'l', 'u', 'e'] (fuel + 1) =
      ⟨[], .outOfBounds⟩ := by
  have hfault : isLetter uc c = true →
      ymlHighlighter uc none (c :: rest) (fuel + 1) = ⟨[], .outOfBounds⟩ := by
    intro hl
    have hlt : (0 : Int) < qlen (c :: rest) := by simp [qlen]
    have e1 : charAtOr none (c :: rest) 0 = some c := rfl
    have e2 : charAtOr none (c :: rest) (0 - 1) = none := rfl
    have hb : ymlBody uc none (c :: rest) 0 false = (.fault [] .outOfBounds, false) := by
      unfold ymlBody
      rw [e1]
      simp only [hl, Bool.not_true, Bool.false_eq_true, if_false, false_and, e2]
    show ymlLoop uc none (c :: rest) (fuel + 1) 0 false = _
    rw [ymlLoop, if_pos hlt, hb]
  refine ⟨⟨?_, fun hl => by rw [hfault hl]⟩, hfault, rfl⟩
  intro hex
  by_contra hl
  have hl' : isLetter uc c = false := by
    cases h : isLetter uc c with
    | true => exact absurd h hl
    | false => rfl
  have hfirst : ∀ d, charAt (c :: rest) 0 = some d → isLetter uc d = false := by
    intro d hd
    have e : charAt (c :: rest) 0 = some c := rfl
    rw [e] at hd
    cases hd
    exact hl'
  exact ymlLoop_in_range (c :: rest) hfirst (fuel + 1) 0 false (le_refl _) hex

/-- Lines 636-644 of `xmlHighlighter` at a cursor inside the text: when a `<` at the
cursor is not the last character, every read stays inside the text and the cursor
stays inside it. -/
theorem xmlTag_in_range (text : List Char) (i : Int) (h0 : 0 ≤ i) (h1 : i < qlen text)
    (hlast : charAt text i = some '<' → i + 1 < qlen text) :
    ∃ sp j, xmlTag none text i = some (sp, j) ∧ i ≤ j ∧ j < qlen text := by
  obtain ⟨c, hc⟩ := charAt_lt text i h0 h1
  have hc' : charAtOr none text i = some c := by simp [charAtOr, hc]
  unfold xmlTag
  rw [hc']
  simp only [Option.bind]
  by_cases hlt : c = '<'
  · rw [if_pos hlt]
    rw [hlt] at hc
    have h2 := hlast hc
    obtain ⟨d, hd⟩ := charAt_lt text (i + 1) (by omega) h2
    have hd' : charAtOr none text (i + 1) = some d := by simp [charAtOr, hd]
    rw [hd']
    simp only
    by_cases hbang : d ≠ '!'
    · rw [if_pos hbang]
      by_cases hfound : indexOfChar text '>' i > 0
      · rw [if_pos hfound]
        simp only [Option.map_some']
        refine ⟨_, _, rfl, ?_, ?_⟩
        · split
          · omega
          · omega
        · by_cases hslash : d = '/'
          · rw [if_pos hslash]
            rcases indexOfChar_spec text '>' i h0 with ⟨h, _⟩ | ⟨hge, hat, _⟩
            · omega
            · have hb := charAt_bounds text _ '>' hat
              have hne0 : indexOfChar text '>' i ≠ i := by
                intro e
                rw [e, hc] at hat
                cases hat
              have hne1 : indexOfChar text '>' i ≠ i + 1 := by
                intro e
                rw [e, hd, hslash] at hat
                cases hat
              omega
          · rw [if_neg hslash]
            exact h2
      · rw [if_neg hfound]
        exact ⟨_, _, rfl, le_refl _, h1⟩
    · rw [if_neg hbang]
      exact ⟨_, _, rfl, le_refl _, h1⟩
  · rw [if_neg hlt]
    exact ⟨_, _, rfl, le_refl _, h1⟩

/-- The loop of lines 660-672 started at a cursor that is not negative reads inside
the text only: it gives no result only when the fuel is used up, and it leaves
the cursor at or after its start. -/
theorem xmlQuoteLoop_in_range (text : List Char) :
    ∀ (fuel : Nat) (i cnt : Int), 0 ≤ i →
      (xmlQuoteLoop none text fuel i cnt = none ∧ fuel ≤ (qlen text - i).toNat) ∨
      ∃ k n, xmlQuoteLoop none text fuel i cnt = some (k, n) ∧ i ≤ k := by
  intro fuel
  induction fuel with
  | zero => intro i cnt _; exact Or.inl ⟨rfl, Nat.zero_le _⟩
  | succ f ih =>
    intro i cnt h0
    rw [xmlQuoteLoop]
    by_cases h1 : i < qlen text
    · rw [if_pos h1]
      obtain ⟨c, hc⟩ := charAt_lt text i h0 h1
      have hc' : charAtOr none text i = some c := by simp [charAtOr, hc]
      rw [hc']
      simp only [Option.bind]
      by_cases hq : c = '"'
      · rw [if_pos hq]
        exact Or.inr ⟨_, _, rfl, by omega⟩
      · rw [if_neg hq]
        by_cases hend : i + 1 + 1 ≥ qlen text
        · rw [if_pos hend]
          exact Or.inr ⟨_, _, rfl, by omega⟩
        · rw [if_neg hend]
          rcases ih (i + 1) (cnt + 1) (by omega) with ⟨hn, hf⟩ | ⟨k, n, hk, hik⟩
          · exact Or.inl ⟨hn, by omega⟩
          · exact Or.inr ⟨k, n, hk, by omega⟩
    · rw [if_neg h1]
      exact Or.inr ⟨_, _, rfl, le_refl _⟩

/-- The body of the loop of `xmlHighlighter` at a cursor inside a text in which no
`<` is the last character: it does not end at a read outside the text. -/
theorem xmlBody_in_range (text : List Char) (fuel : Nat) (i : Int)
    (hlast : ∀ k, charAt text k = some '<' → k + 1 < qlen text)
    (h0 : 0 ≤ i) (h1 : i < qlen text) :
    (∃ sp j, xmlBody none text fuel i = .next sp j ∧ i ≤ j) ∨
    (∃ sp, xmlBody none text fuel i = .ret sp) ∨
    (∃ sp, xmlBody none text fuel i = .fault sp .outOfFuel ∧ (fuel : Int) < qlen text) := by
  obtain ⟨sp1, j, ht, hj0, hj1⟩ := xmlTag_in_range text i h0 h1 (hlast i)
  obtain ⟨c, hc⟩ := charAt_lt text j (by omega) hj1
  have hc' : charAtOr none text j = some c := by simp [charAtOr, hc]
  have ha : xmlAttribute none text j = some (if c = '=' then
      (if (if lastIndexOfChar text ' ' j = j - 1 then lastIndexOfChar text ' ' (j - 2)
          else lastIndexOfChar text ' ' j) > 0 then
        [⟨(if lastIndexOfChar text ' ' j = j - 1 then lastIndexOfChar text ' ' (j - 2)
          else lastIndexOfChar text ' ' j), j - (if lastIndexOfChar text ' ' j = j - 1 then
            lastIndexOfChar text ' ' (j - 2) else lastIndexOfChar text ' ' j), .CodeBuiltIn⟩]
      else []) else []) := by
    unfold xmlAttribute
    rw [hc']
    rfl
  unfold xmlBody
  rw [ht]
  simp only
  rw [ha]
  simp only
  rw [hc']
  simp only
  by_cases hq : c = '"'
  · rw [if_pos hq]
    by_cases hend : j + 1 + 1 ≥ qlen text
    · rw [if_pos hend]
      exact Or.inr (Or.inl ⟨_, rfl⟩)
    · rw [if_neg hend]
      rcases xmlQuoteLoop_in_range text fuel (j + 1) 1 (by omega) with ⟨hn, hf⟩ | ⟨k, n, hk, hjk⟩
      · rw [hn]
        refine Or.inr (Or.inr ⟨_, rfl, ?_⟩)
        omega
      · rw [hk]
        exact Or.inl ⟨_, _, rfl, by omega⟩
  · rw [if_neg hq]
    exact Or.inl ⟨_, _, rfl, hj0⟩

theorem xmlLoop_in_range (text : List Char)
    (hlast : ∀ k, charAt text k = some '<' → k + 1 < qlen text) :
    ∀ (fuel : Nat) (i : Int), 0 ≤ i → (xmlLoop none text fuel i).exit ≠ .outOfBounds := by
  intro fuel
  induction fuel with
  | zero => intro i _ h; cases h
  | succ f ih =>
    intro i h0
    rw [xmlLoop]
    by_cases h1 : i < qlen text
    · rw [if_pos h1]
      rcases xmlBody_in_range text f i hlast h0 h1 with ⟨sp, j, hb, hj⟩ | ⟨sp, hb⟩ | ⟨sp, hb, _⟩
      · rw [hb]
        simp only [postResult_after_exit]
        exact ih (j + 1) (by omega)
      · rw [hb]
        intro h; cases h
      · rw [hb]
        intro h; cases h
    · rw [if_neg h1]
      intro h; cases h

/-- The reads of `xmlHighlighter` stay inside the text, whatever the fuel, on every
text in which no `<` is the last character: the read of `text[i+1]` at line 636 is
the only one that can leave the text. -/
theorem xml_reads_in_range (text : List Char) (fuel : Nat)
    (hlast : ∀ k, charAt text k = some '<' → k + 1 < qlen text) :
    (xmlHighlighter none text fuel).exit ≠ .outOfBounds := by
  unfold xmlHighlighter
  split
  · intro h; cases h
  · rw [postResult_after_exit]
    exact xmlLoop_in_range text hlast fuel 0 (le_refl _)

/-- C22 (evaluation of the code): on a block whose last character is `<` line 636
reads `text[i+1]` at index `len`, outside the text: so on the block `<` and, after
the Keyword span of the first tag, on the block `<a><`. A block that ends in the
middle of a quoted value, as the 7-character block `<a b="v`, is left by the
`return` of line 659 with all reads inside the text. -/
theorem xml_tag_at_block_end (fuel : Nat) :
    xmlHighlighter none ['<'] (fuel + 1) = ⟨[⟨0, 1, .CodeBlock⟩], .outOfBounds⟩ ∧
    xmlHighlighter none ['<', 'a', '>', '<'] (fuel + 3) =
      ⟨[⟨0, 4, .CodeBlock⟩, ⟨1, 1, .CodeKeyWord⟩], .outOfBounds⟩ ∧
    xmlHighlighter none ['<', 'a', ' ', 'b', '=', '"', 'v'] (fuel + 6) =
      ⟨[⟨0, 7, .CodeBlock⟩, ⟨2, 2, .CodeBuiltIn⟩], .returned⟩ :=
  ⟨rfl, rfl, rfl⟩

/-! ## Theorems: block state machine -/

/-- C2 (evaluation of the code): for a block that is not the first one and whose
previous block state belongs to another language (here the even state two below
`L`, or the host's "no previous state" value `-1` for `L = 200`), `highlightBlock`
assigns `L + 1`, the comment state of `L`, and not the base state `L`. -/
theorem entryState_language_switch (L : Int) :
    entryState false (L - 2) L = L + 1 ∧ entryState false (L - 2) L ≠ L ∧
      entryState false (-1) 200 = 201 := by
  have h : L - 2 ≠ L := by omega
  refine ⟨?_, ?_, by decide⟩
  · simp [entryState, h]
  · simp [entryState, h]

/-- C3: for a block that is not the first one and whose previous block state is
`L` or `L + 1`, the state assigned at block entry equals the previous state. -/
theorem entryState_continuation (previousState L : Int)
    (h : previousState = L ∨ previousState = L + 1) :
    entryState false previousState L = previousState := by
  rcases h with h | h
  · simp [entryState, h]
  · simp [entryState, h]

/-- C3 at the states 200 and 201 of the language 200. -/
theorem entryState_continuation_witness :
    ((201 : Int) = 200 ∨ (201 : Int) = 200 + 1) ∧ entryState false 201 200 = 201 :=
  ⟨Or.inr (by decide), entryState_continuation 201 200 (Or.inr (by decide))⟩

end QSourceHighlite
